import Mathlib

/-!
Subset-sum solvers of `puzzle.go`.

A shallow embedding of the two solvers of `src/puzzle.go`:

* `SubsetSumDFS` / `PrintSubset` / `TestDFS`: the memoised recursion and the
  walk that reads one subset back out of the memo table;
* `BfsHeuristic`: the search over `Item` states driven by `container/heap`.

Conventions of the embedding.

* `int64` values are `Int`; every subtraction on values goes through `wrap64`
  (two's complement wrap-around, as Go defines it).  Index arithmetic
  (`n - 1`, `curr.I + 1`, `len(mktcap)`) is exact: a slice index is bounded by
  the length of a slice and never comes near the `int64` limits.
* A run-time panic is a `Fault`.  A loop or recursion that the source does not
  bound is driven by a `fuel : Nat`; running out of it is `Fault.outOfFuel`.
* Every evaluation of `mktcap[i]` is appended to a log of read indices, so that
  "reads no element" is a statement about that log.
* `*Item` is an `ItemPtr`: an address together with the pointee, which is never
  written after its allocation.  Maps keyed by `*Item` are keyed by the address.
-/

namespace Puzzle

/-! ## Machine integers, faults, maps -/

/-- Run-time failures of the Go program, plus exhaustion of the fuel of the model. -/
inductive Fault where
  | indexOutOfRange
  | nilDereference
  | outOfFuel
  deriving DecidableEq, Repr

/-- Two's complement wrap-around of an `int64` result. -/
def wrap64 (x : Int) : Int :=
  (x + 9223372036854775808) % 18446744073709551616 - 9223372036854775808

/-- The values an `int64` can hold. -/
def IsInt64 (x : Int) : Prop := -9223372036854775808 ≤ x ∧ x < 9223372036854775808

instance (x : Int) : Decidable (IsInt64 x) := by unfold IsInt64; infer_instance

/-- A slice of non-negative `int64` values. -/
def NonNegSeq (S : List Int) : Prop := ∀ x ∈ S, 0 ≤ x ∧ x < 9223372036854775808

instance (S : List Int) : Decidable (NonNegSeq S) := by unfold NonNegSeq; infer_instance

/-- Lookup `m[k]` in a Go map, `none` when the key is absent. -/
def mapGet {K V : Type} [DecidableEq K] : List (K × V) → K → Option V
  | [], _ => none
  | (k', v) :: t, k => if k' = k then some v else mapGet t k

/-- Assignment `m[k] = v` in a Go map. -/
def mapSet {K V : Type} [DecidableEq K] (m : List (K × V)) (k : K) (v : V) : List (K × V) :=
  (k, v) :: m.filter (fun e => !decide (e.1 = k))

/-- Evaluation of `mktcap[i]`: a panic outside `0 ≤ i < len(mktcap)`. -/
def index (mktcap : List Int) (i : Int) : Except Fault Int :=
  if 0 ≤ i then
    match mktcap[i.toNat]? with
    | some x => .ok x
    | none => .error Fault.indexOutOfRange
  else .error Fault.indexOutOfRange

/-! ## The memoised recursion -/

/-- The memo table `map[int64]map[int64]bool`. -/
abbrev DpTable := List (Int × List (Int × Bool))

/-- The two-result lookup `v, ok := dp[n][sum]`; a missing row reads as an empty map. -/
def dpLookup (dp : DpTable) (n sum : Int) : Option Bool :=
  match mapGet dp n with
  | none => none
  | some row => mapGet row sum

/-- The one-result read `dp[n][sum]`: Go yields `false` for a missing key. -/
def dpRead (dp : DpTable) (n sum : Int) : Bool :=
  (dpLookup dp n sum).getD false

/-- The assignment `dp[n][sum] = v` (the row map is shared by reference). -/
def dpStore (dp : DpTable) (n sum : Int) (v : Bool) : DpTable :=
  mapSet dp n (mapSet ((mapGet dp n).getD []) sum v)

/-- State threaded through the recursion: the memo table and the log of the
indices at which `mktcap` was read (latest first). -/
structure DfsState where
  dp : DpTable
  reads : List Int
  deriving DecidableEq, Repr

/-- The function `SubsetSumDFS` of `puzzle.go`; `fuel` bounds the depth of the recursion. -/
def SubsetSumDFS : Nat → DfsState → List Int → Int → Int → Except Fault (Bool × DfsState)
  | 0, _, _, _, _ => .error Fault.outOfFuel
  | fuel + 1, st, mktcap, n, sum =>
    if sum = 0 then .ok (true, st)
    else if n < 0 ∨ sum < 0 then .ok (false, st)
    else
      -- if dp[n] == nil { dp[n] = make(map[int64]bool) }
      let dp1 := if (mapGet st.dp n).isNone then mapSet st.dp n [] else st.dp
      -- _, memoized := dp[n][sum]
      match dpLookup dp1 n sum with
      | some _ => .ok (dpRead dp1 n sum, { st with dp := dp1 })
      | none =>
        -- dp[n][sum] = SubsetSumDFS(.., n-1, sum) || SubsetSumDFS(.., n-1, sum-mktcap[n])
        match SubsetSumDFS fuel { st with dp := dp1 } mktcap (n - 1) sum with
        | .error e => .error e
        | .ok (true, st2) =>
          let dp3 := dpStore st2.dp n sum true
          .ok (dpRead dp3 n sum, { st2 with dp := dp3 })
        | .ok (false, st2) =>
          match index mktcap n with
          | .error e => .error e
          | .ok x =>
            match SubsetSumDFS fuel { st2 with reads := n :: st2.reads } mktcap (n - 1)
                (wrap64 (sum - x)) with
            | .error e => .error e
            | .ok (b, st3) =>
              let dp4 := dpStore st3.dp n sum b
              .ok (dpRead dp4 n sum, { st3 with dp := dp4 })

/-- The loop of `PrintSubset`: `subset`, `n` and `sum` are its variables, `fuel`
bounds the number of iterations.  The result is the subset and the read log. -/
def printLoop : Nat → List Int → DpTable → List Int → Int → Int → List Int →
    Except Fault (List Int × List Int)
  | fuel, mktcap, dp, subset, n, sum, reads =>
    if 0 < sum then
      match fuel with
      | 0 => .error Fault.outOfFuel
      | fuel + 1 =>
        -- the walk down the table, after the test `n == 0 && mktcap[n] == sum` failed
        let rest (reads : List Int) : Except Fault (List Int × List Int) :=
          if dpRead dp (n - 1) sum = true then
            printLoop fuel mktcap dp subset (n - 1) sum reads
          else
            match index mktcap n with
            | .error e => .error e
            | .ok x =>
              printLoop fuel mktcap dp (subset ++ [x]) (n - 1) (wrap64 (sum - x))
                (n :: n :: reads)
        if n = 0 then
          match index mktcap n with
          | .error e => .error e
          | .ok x =>
            if x = sum then
              match index mktcap n with
              | .error e => .error e
              | .ok y => .ok (subset ++ [y], n :: n :: reads)
            else rest (n :: reads)
        else rest reads
    else .ok (subset, reads)

/-- The function `PrintSubset` of `puzzle.go`, returning what it prints. -/
def PrintSubset (fuel : Nat) (mktcap : List Int) (dp : DpTable) (sum : Int)
    (reads : List Int) : Except Fault (List Int × List Int) :=
  printLoop fuel mktcap dp [] ((mktcap.length : Int) - 1) sum reads

/-- The function `TestDFS` of `puzzle.go` without its clock: `some subset` when a
subset is printed, `none` when the absence of one is. -/
def TestDFS (fuel : Nat) (mktcap : List Int) (sum n : Int) :
    Except Fault (Option (List Int) × List Int) :=
  match SubsetSumDFS fuel { dp := [], reads := [] } mktcap (n - 1) sum with
  | .error e => .error e
  | .ok (true, st) =>
    match PrintSubset fuel mktcap st.dp sum st.reads with
    | .error e => .error e
    | .ok (subset, reads) => .ok (some subset, reads)
  | .ok (false, st) => .ok (none, st.reads)

/-! ## The priority queue and `container/heap` -/

/-- The struct `Item` of `puzzle.go`. -/
structure Item where
  I : Int
  J : Int
  deriving DecidableEq, Repr

/-- A value of type `*Item`: the address of the allocation and the `Item` stored there. -/
structure ItemPtr where
  addr : Nat
  item : Item
  deriving DecidableEq, Repr

/-- The type `PriorityQueue` of `puzzle.go`, a slice of `*Item`. -/
abbrev PriorityQueue := List ItemPtr

/-- The method `Less`: `pq[i].J < pq[j].J` (both indices are in range whenever
`container/heap` calls it). -/
def PriorityQueue.Less (pq : PriorityQueue) (i j : Nat) : Bool :=
  match pq[i]?, pq[j]? with
  | some a, some b => decide (a.item.J < b.item.J)
  | _, _ => false

/-- The method `Swap`: `pq[i], pq[j] = pq[j], pq[i]` (both indices are in range
whenever `container/heap` calls it). -/
def PriorityQueue.Swap (pq : PriorityQueue) (i j : Nat) : PriorityQueue :=
  match pq[i]?, pq[j]? with
  | some a, some b => (pq.set i b).set j a
  | _, _ => pq

/-- The method `Pop`: the last element and the slice without it. -/
def PriorityQueue.Pop (pq : PriorityQueue) : Option (ItemPtr × PriorityQueue) :=
  match pq.getLast? with
  | some item => some (item, pq.dropLast)
  | none => none

/-- The loop of `down(h, i0, n)` of Go's `container/heap`; it runs at most `n` times
since `i` grows at every turn. -/
def downLoop : Nat → PriorityQueue → Nat → Nat → PriorityQueue
  | 0, pq, _, _ => pq
  | fuel + 1, pq, i, n =>
    let j1 := 2 * i + 1
    if n ≤ j1 then pq
    else
      let j := if j1 + 1 < n ∧ pq.Less (j1 + 1) j1 = true then j1 + 1 else j1
      if pq.Less j i = false then pq
      else downLoop fuel (pq.Swap i j) j n

/-- The helper `down(h, i0, n)` of Go's `container/heap`. -/
def down (pq : PriorityQueue) (i0 n : Nat) : PriorityQueue :=
  downLoop n pq i0 n

/-- The function `heap.Init` of Go's `container/heap`:
`for i := n/2 - 1; i >= 0; i-- { down(h, i, n) }`. -/
def heapInit (pq : PriorityQueue) : PriorityQueue :=
  (List.range (pq.length / 2)).reverse.foldl (fun q i => down q i pq.length) pq

/-- The function `heap.Pop` of Go's `container/heap`:
`n := h.Len() - 1; h.Swap(0, n); down(h, 0, n); return h.Pop()`. -/
def heapPop (pq : PriorityQueue) : Option (ItemPtr × PriorityQueue) :=
  let n := pq.length - 1
  (down (pq.Swap 0 n) 0 n).Pop

/-! ## The search solver -/

/-- The variables of `BfsHeuristic` that its search loop changes, the next free
address, and the log of the indices at which `mktcap` was read. -/
structure BfsState where
  priorityQueue : PriorityQueue
  childOf : List (Nat × ItemPtr)
  found : Option ItemPtr
  nextAddr : Nat
  reads : List Int
  deriving DecidableEq, Repr

/-- Lines 65-70 and 73-78 of `puzzle.go`: the candidate `cand` (the variable `with` or
`without`, of address `cand.addr`) is appended to the queue and gets `curr` as its
parent when it passes the guard and `childOf` has no entry for its address. -/
def pushCandidate (st : BfsState) (n : Int) (cand curr : ItemPtr) : BfsState :=
  if cand.item.I < n ∧ 0 ≤ cand.item.J then
    if (mapGet st.childOf cand.addr).isNone then
      { st with priorityQueue := st.priorityQueue ++ [cand],
                childOf := mapSet st.childOf cand.addr curr }
    else st
  else st

/-- One turn of the search loop of `BfsHeuristic`, entered with a non-empty queue.
A turn that ends in `break` leaves `found` set. -/
def bfsBody (mktcap : List Int) (st : BfsState) : Except Fault BfsState :=
  match heapPop st.priorityQueue with
  | none => .error Fault.indexOutOfRange
  | some (curr, pq) =>
    let st1 := { st with priorityQueue := pq }
    if curr.item.J = 0 then .ok { st1 with found := some curr }
    else
      let n : Int := mktcap.length
      let withItem : ItemPtr := ⟨st1.nextAddr, ⟨curr.item.I + 1, curr.item.J⟩⟩
      let st2 := pushCandidate st1 n withItem curr
      match index mktcap curr.item.I with
      | .error e => .error e
      | .ok x =>
        let withoutItem : ItemPtr :=
          ⟨st1.nextAddr + 1, ⟨curr.item.I + 1, wrap64 (curr.item.J - x)⟩⟩
        let st3 := pushCandidate st2 n withoutItem curr
        .ok { st3 with nextAddr := st1.nextAddr + 2, reads := curr.item.I :: st3.reads }

/-- The search loop of `BfsHeuristic`; `fuel` bounds the number of turns. -/
def bfsLoop : Nat → List Int → BfsState → Except Fault BfsState
  | fuel, mktcap, st =>
    if 0 < st.priorityQueue.length then
      match fuel with
      | 0 => .error Fault.outOfFuel
      | fuel + 1 =>
        match bfsBody mktcap st with
        | .error e => .error e
        | .ok st1 => if st1.found.isSome then .ok st1 else bfsLoop fuel mktcap st1
    else .ok st

/-- The state in which `BfsHeuristic` enters its search loop: the root item, at
address 0, is alone in the queue. -/
def bfsInit (sum : Int) : BfsState :=
  { priorityQueue := heapInit [⟨0, ⟨0, sum⟩⟩], childOf := [], found := none,
    nextAddr := 1, reads := [] }

/-- The search of `BfsHeuristic` (lines 48-79 of `puzzle.go`). -/
def bfsSearch (fuel : Nat) (mktcap : List Int) (sum : Int) : Except Fault BfsState :=
  bfsLoop fuel mktcap (bfsInit sum)

/-- The loop that walks the parents of `found` (lines 87-94 of `puzzle.go`);
`fuel` bounds the number of turns. -/
def walkLoop : Nat → List (Nat × ItemPtr) → Int → ItemPtr → List Int → Except Fault (List Int)
  | fuel, childOf, sum, iter, res =>
    if iter.item.J ≠ sum then
      match fuel with
      | 0 => .error Fault.outOfFuel
      | fuel + 1 =>
        match mapGet childOf iter.addr with
        | none => .error Fault.nilDereference
        | some parent =>
          let toAdd := wrap64 (parent.item.J - iter.item.J)
          walkLoop fuel childOf sum parent (if 0 < toAdd then res ++ [toAdd] else res)
    else .ok res

/-- The function `BfsHeuristic` of `puzzle.go`: `some res` when a solution is
printed, `none` when the absence of one is; with the read log. -/
def BfsHeuristic (fuel : Nat) (mktcap : List Int) (sum : Int) :
    Except Fault (Option (List Int) × List Int) :=
  match bfsSearch fuel mktcap sum with
  | .error e => .error e
  | .ok st =>
    match st.found with
    | none => .ok (none, st.reads)
    | some found =>
      match walkLoop fuel st.childOf sum found [] with
      | .error e => .error e
      | .ok res => .ok (some res, st.reads)

/-! ## Notions used to state the properties -/

/-- Some sub-sequence of `l` sums exactly to `t`. -/
def HasSubsetSum (l : List Int) (t : Int) : Prop :=
  ∃ sub : List Int, sub.Sublist l ∧ sub.sum = t

/-- What the recursion maintains about the memo table for the sequence `S`: every
entry sits at a row of `S` and at a positive `int64` sum, holds the truth of "a
sub-sequence of the first `i + 1` elements sums to `s`", and, when it holds `true`,
the entry below it that justifies it is in the table as well. -/
def TableInv (S : List Int) (dp : DpTable) : Prop :=
  ∀ i s v, dpLookup dp i s = some v →
    0 ≤ i ∧ i < S.length ∧ 0 < s ∧ s < 9223372036854775808 ∧
    (v = true ↔ HasSubsetSum (S.take (i.toNat + 1)) s) ∧
    (v = true → dpRead dp (i - 1) s = true ∨
      ∃ x, S[i.toNat]? = some x ∧ (s - x = 0 ∨ dpLookup dp (i - 1) (s - x) = some true))


/-- The item `p` is a successor that the search admits for the popped item `q`:
its index is the next one and is below `len(S)`, its remaining value is not
negative, and it either keeps the remaining value of `q` (`inc = none`) or takes
`S[q.I]` off it (`inc = some S[q.I]`). -/
def IsSucc (S : List Int) (q p : Item) (inc : Option Int) : Prop :=
  0 ≤ q.I ∧ p.I = q.I + 1 ∧ p.I < S.length ∧ 0 ≤ p.J ∧
    match inc with
    | none => p.J = q.J
    | some x => S[q.I.toNat]? = some x ∧ p.J = wrap64 (q.J - x)

/-- Predicate `Reach S T childOf p l`: following `childOf` from `p` leads to the root item
`(0, T)` at address 0, through parents of smaller addresses, and `l` lists the
elements of `S` taken off on the way, the one nearest to `p` first. -/
inductive Reach (S : List Int) (T : Int) (childOf : List (Nat × ItemPtr)) :
    ItemPtr → List Int → Prop
  | root : mapGet childOf 0 = none → Reach S T childOf ⟨0, ⟨0, T⟩⟩ []
  | step {q p : ItemPtr} {l : List Int} {inc : Option Int} :
      Reach S T childOf q l → mapGet childOf p.addr = some q → q.addr < p.addr →
      IsSucc S q.item p.item inc → Reach S T childOf p (inc.toList ++ l)

/-- What the search loop maintains: every queued pointer was allocated below `N`,
has an index of at most `k` and leads to the root; `childOf` has keys in `(0, N)`. -/
def QueueInv (S : List Int) (T : Int) (k N : Nat) (st : BfsState) : Prop :=
  (∀ p ∈ st.priorityQueue, p.addr < N ∧ p.item.I ≤ k ∧ ∃ l, Reach S T st.childOf p l) ∧
  (∀ a q, mapGet st.childOf a = some q → 0 < a ∧ a < N)

/-- Relation `Turns S st st'`: the search loop, entered in the state `st`, is in the
state `st'` after some number of complete turns (a turn is taken only while the
queue is not empty and nothing was found). -/
inductive Turns (S : List Int) : BfsState → BfsState → Prop
  | refl (st : BfsState) : Turns S st st
  | turn {st st1 st2 : BfsState} : Turns S st st1 → 0 < st1.priorityQueue.length →
      st1.found = none → bfsBody S st1 = .ok st2 → Turns S st st2

/-- The pointer reached from `p` by `k` lookups in the parent map, if they all succeed. -/
def ancestor (childOf : List (Nat × ItemPtr)) : Nat → ItemPtr → Option ItemPtr
  | 0, p => some p
  | k + 1, p =>
    match mapGet childOf p.addr with
    | none => none
    | some q => ancestor childOf k q

/-- Every entry present in the memo table holds the truth of "some sub-sequence of
the first `i + 1` elements of `S` sums exactly to `s`". -/
def TableSound (S : List Int) (dp : DpTable) : Prop :=
  ∀ i s v, dpLookup dp i s = some v → (v = true ↔ HasSubsetSum (S.take (i.toNat + 1)) s)

/-- The number of entries `dp[i][s]` of the memo table. -/
def dpSize (dp : DpTable) : Nat :=
  (dp.map (fun row => row.2.length)).sum

/-- The rows of the table have distinct indices in `[0, N]`, and each row has
distinct sums in `[1, T]`. -/
def KeysWithin (N T : Int) (dp : DpTable) : Prop :=
  (dp.map Prod.fst).Nodup ∧
  ∀ row ∈ dp, 0 ≤ row.1 ∧ row.1 ≤ N ∧ (row.2.map Prod.fst).Nodup ∧
    ∀ e ∈ row.2, 1 ≤ e.1 ∧ e.1 ≤ T

/-- The candidate `cand`, as a list: `[cand]` when it passes the guard
`cand.I < n && cand.J >= 0`, `[]` when it does not. -/
def passing (n : Int) (cand : ItemPtr) : List ItemPtr :=
  if cand.item.I < n ∧ 0 ≤ cand.item.J then [cand] else []

/-- The number of states that an item of the queue can still bring into the queue,
itself included: the size of a full binary tree over the indices up to `n - 1`. -/
def itemWeight (n : Nat) (p : ItemPtr) : Nat :=
  2 ^ (n - p.item.I.toNat) - 1

/-- The sum of the weights of the items of the queue. -/
def queueWeight (n : Nat) (pq : PriorityQueue) : Nat :=
  (pq.map (itemWeight n)).sum

/-- The number of states that have left the queue: one per read of `mktcap`, one
for the accepted state. -/
def popCount (st : BfsState) : Nat :=
  st.reads.length + (if st.found.isSome then 1 else 0)

/-- Some state of the queue can still be completed to a solution that does not use
the last element of `S`: a sub-sequence of `S[p.I .. len(S)-2]` sums to `p.J`. -/
def Viable (S : List Int) (pq : PriorityQueue) : Prop :=
  ∃ p ∈ pq, ∃ sub : List Int, sub.Sublist (S.dropLast.drop p.item.I.toNat) ∧ sub.sum = p.item.J


/-! ## Facts about maps and the memo table -/

theorem mapGet_filter_ne {K V : Type} [DecidableEq K] (m : List (K × V)) (k k' : K)
    (h : k ≠ k') : mapGet (m.filter (fun e => !decide (e.1 = k))) k' = mapGet m k' := by
  induction m with
  | nil => rfl
  | cons e t ih =>
    obtain ⟨a, v⟩ := e
    by_cases ha : a = k
    · subst ha
      simp [List.filter, mapGet, ih, h]
    · simp [List.filter, mapGet, ih, ha]

theorem mapGet_mapSet {K V : Type} [DecidableEq K] (m : List (K × V)) (k k' : K) (v : V) :
    mapGet (mapSet m k v) k' = if k = k' then some v else mapGet m k' := by
  unfold mapSet
  by_cases h : k = k'
  · simp [mapGet, h]
  · simp [mapGet, h, mapGet_filter_ne m k k' h]

theorem dpLookup_dpStore (dp : DpTable) (n sum : Int) (v : Bool) (i s : Int) :
    dpLookup (dpStore dp n sum v) i s
      = if i = n ∧ s = sum then some v else dpLookup dp i s := by
  unfold dpLookup dpStore
  rw [mapGet_mapSet]
  by_cases hi : n = i
  · subst hi
    simp only [if_true, true_and, mapGet_mapSet]
    by_cases hs : sum = s
    · simp [hs]
    · have hs' : ¬ s = sum := fun h => hs h.symm
      simp only [hs, hs', if_false]
      cases mapGet dp n <;> simp [mapGet]
  · have hi' : ¬ i = n := fun h => hi h.symm
    simp [hi, hi']

theorem dpLookup_makeRow (dp : DpTable) (n i s : Int) :
    dpLookup (if (mapGet dp n).isNone then mapSet dp n [] else dp) i s = dpLookup dp i s := by
  by_cases h : (mapGet dp n).isNone
  · rw [if_pos h]
    unfold dpLookup
    rw [mapGet_mapSet]
    by_cases hi : n = i
    · subst hi
      rw [Option.isNone_iff_eq_none] at h
      simp [h, mapGet]
    · simp [hi]
  · rw [if_neg h]

theorem dpLookup_nil (i s : Int) : dpLookup [] i s = none := rfl

/-! ## Sub-sequences and their sums -/

theorem hasSubsetSum_zero (l : List Int) : HasSubsetSum l 0 :=
  ⟨[], List.nil_sublist l, rfl⟩

theorem hasSubsetSum_nil (t : Int) : HasSubsetSum [] t ↔ t = 0 := by
  constructor
  · rintro ⟨sub, hsub, hsum⟩
    rw [List.sublist_nil] at hsub
    subst hsub
    simpa using hsum.symm
  · rintro rfl
    exact hasSubsetSum_zero []

theorem hasSubsetSum_snoc (l : List Int) (x t : Int) :
    HasSubsetSum (l ++ [x]) t ↔ HasSubsetSum l t ∨ HasSubsetSum l (t - x) := by
  constructor
  · rintro ⟨sub, hsub, hsum⟩
    rw [List.sublist_append_iff] at hsub
    obtain ⟨l₁, l₂, rfl, h₁, h₂⟩ := hsub
    rw [List.sublist_singleton] at h₂
    rcases h₂ with rfl | rfl
    · left
      exact ⟨l₁, h₁, by simpa using hsum⟩
    · right
      refine ⟨l₁, h₁, ?_⟩
      rw [List.sum_append] at hsum
      simp at hsum
      omega
  · rintro (⟨sub, hsub, hsum⟩ | ⟨sub, hsub, hsum⟩)
    · exact ⟨sub, hsub.trans (List.sublist_append_left l [x]), hsum⟩
    · refine ⟨sub ++ [x], List.Sublist.append hsub (List.Sublist.refl _), ?_⟩
      rw [List.sum_append]
      simp
      omega

theorem NonNegSeq.take {S : List Int} (h : NonNegSeq S) (k : Nat) : NonNegSeq (S.take k) :=
  fun x hx => h x (List.mem_of_mem_take hx)

theorem not_hasSubsetSum_neg {l : List Int} (h : NonNegSeq l) {t : Int} (ht : t < 0) :
    ¬ HasSubsetSum l t := by
  rintro ⟨sub, hsub, hsum⟩
  have : 0 ≤ sub.sum := List.sum_nonneg (fun x hx => (h x (hsub.subset hx)).1)
  omega

theorem index_eq_ok {S : List Int} {n : Int} (h0 : 0 ≤ n) (h1 : n < S.length) :
    ∃ x, S[n.toNat]? = some x ∧ index S n = .ok x := by
  have hlt : n.toNat < S.length := by omega
  refine ⟨S[n.toNat], List.getElem?_eq_getElem hlt, ?_⟩
  unfold index
  rw [if_pos h0, List.getElem?_eq_getElem hlt]

theorem NonNegSeq.getElem? {S : List Int} (h : NonNegSeq S) {k : Nat} {x : Int}
    (hx : S[k]? = some x) : 0 ≤ x ∧ x < 9223372036854775808 :=
  h x (List.getElem?_mem hx)

theorem wrap64_sub_eq {s x : Int} (hs : 0 ≤ s) (hs' : s < 9223372036854775808)
    (hx : 0 ≤ x) (hx' : x < 9223372036854775808) : wrap64 (s - x) = s - x := by
  unfold wrap64; omega

/-! ## The invariant of the memo table -/

theorem dpRead_eq_true_iff (dp : DpTable) (i s : Int) :
    dpRead dp i s = true ↔ dpLookup dp i s = some true := by
  unfold dpRead
  cases dpLookup dp i s <;> simp

theorem tableInv_nil (S : List Int) : TableInv S [] := by
  intro i s v h
  simp [dpLookup_nil] at h

theorem TableInv.store {S : List Int} {dp : DpTable} (h : TableInv S dp) {n sum : Int}
    {b : Bool} (h0 : 0 ≤ n) (h1 : n < S.length) (hs : 0 < sum)
    (hs' : sum < 9223372036854775808)
    (hb : b = true ↔ HasSubsetSum (S.take (n.toNat + 1)) sum)
    (hc : b = true → dpRead dp (n - 1) sum = true ∨
      ∃ x, S[n.toNat]? = some x ∧
        (sum - x = 0 ∨ dpLookup dp (n - 1) (sum - x) = some true)) :
    TableInv S (dpStore dp n sum b) ∧
      ∀ i s v, dpLookup dp i s = some v → dpLookup (dpStore dp n sum b) i s = some v := by
  have mono : ∀ i s v, dpLookup dp i s = some v →
      dpLookup (dpStore dp n sum b) i s = some v := by
    intro i s v hv
    rw [dpLookup_dpStore]
    split
    · rename_i heq
      obtain ⟨rfl, rfl⟩ := heq
      have hv' := (h i s v hv).2.2.2.2.1
      have : b = v := by
        cases b <;> cases v <;> simp_all
      rw [this]
    · exact hv
  have closure : ∀ i s, (dpRead dp (i - 1) s = true ∨
        ∃ x, S[i.toNat]? = some x ∧ (s - x = 0 ∨ dpLookup dp (i - 1) (s - x) = some true)) →
      (dpRead (dpStore dp n sum b) (i - 1) s = true ∨
        ∃ x, S[i.toNat]? = some x ∧
          (s - x = 0 ∨ dpLookup (dpStore dp n sum b) (i - 1) (s - x) = some true)) := by
    intro i s hor
    rcases hor with hr | ⟨x, hx, hz | hl⟩
    · left
      rw [dpRead_eq_true_iff] at hr ⊢
      exact mono _ _ _ hr
    · exact Or.inr ⟨x, hx, Or.inl hz⟩
    · exact Or.inr ⟨x, hx, Or.inr (mono _ _ _ hl)⟩
  refine ⟨?_, mono⟩
  intro i s v hv
  rw [dpLookup_dpStore] at hv
  split at hv
  · rename_i heq
    obtain ⟨rfl, rfl⟩ := heq
    have hvb : b = v := by simpa using hv
    subst hvb
    exact ⟨h0, h1, hs, hs', hb, fun hbt => closure _ _ (hc hbt)⟩
  · obtain ⟨a1, a2, a3, a4, a5, a6⟩ := h i s v hv
    exact ⟨a1, a2, a3, a4, a5, fun hvt => closure _ _ (a6 hvt)⟩

theorem TableInv.makeRow {S : List Int} {dp : DpTable} (h : TableInv S dp) (n : Int) :
    TableInv S (if (mapGet dp n).isNone then mapSet dp n [] else dp) := by
  intro i s v hv
  rw [dpLookup_makeRow] at hv
  obtain ⟨a1, a2, a3, a4, a5, a6⟩ := h i s v hv
  refine ⟨a1, a2, a3, a4, a5, fun hvt => ?_⟩
  rcases a6 hvt with hr | ⟨x, hx, hz | hl⟩
  · left
    rw [dpRead_eq_true_iff] at hr ⊢
    rw [dpLookup_makeRow]; exact hr
  · exact Or.inr ⟨x, hx, Or.inl hz⟩
  · exact Or.inr ⟨x, hx, Or.inr (by rw [dpLookup_makeRow]; exact hl)⟩

theorem take_toNat_succ {S : List Int} {n : Int} (h0 : 0 ≤ n) {x : Int}
    (hx : S[n.toNat]? = some x) :
    S.take (n.toNat + 1) = S.take (n - 1 + 1).toNat ++ [x] := by
  rw [List.take_succ, hx]
  have : (n - 1 + 1).toNat = n.toNat := by omega
  rw [this]; rfl

theorem dfs_spec {S : List Int} (hS : NonNegSeq S) :
    ∀ (fuel : Nat) (st : DfsState) (n sum : Int), TableInv S st.dp → -1 ≤ n →
      n < S.length → sum < 9223372036854775808 → n + 1 < fuel →
      ∃ b st', SubsetSumDFS fuel st S n sum = .ok (b, st') ∧ TableInv S st'.dp ∧
        (b = true ↔ HasSubsetSum (S.take (n + 1).toNat) sum) ∧
        (∀ i s v, dpLookup st.dp i s = some v → dpLookup st'.dp i s = some v) ∧
        (b = true → sum = 0 ∨ dpLookup st'.dp n sum = some true) := by
  intro fuel
  induction fuel with
  | zero => intro st n sum _ h1 _ _ hf; omega
  | succ fuel ih =>
    intro st n sum hinv hn1 hn2 hsum hf
    rw [SubsetSumDFS]
    by_cases hz : sum = 0
    · rw [if_pos hz]
      exact ⟨true, st, rfl, hinv, by simp [hz, hasSubsetSum_zero], fun _ _ _ h => h,
        fun _ => Or.inl hz⟩
    rw [if_neg hz]
    by_cases hneg : n < 0 ∨ sum < 0
    · rw [if_pos hneg]
      refine ⟨false, st, rfl, hinv, ?_, fun _ _ _ h => h, by simp⟩
      simp only [Bool.false_eq_true, false_iff]
      rcases hneg with hn | hs
      · have : (n + 1).toNat = 0 := by omega
        rw [this, List.take_zero, hasSubsetSum_nil]
        exact hz
      · exact not_hasSubsetSum_neg (hS.take _) hs
    rw [if_neg hneg]
    have h0 : 0 ≤ n := by omega
    have hs0 : 0 < sum := by omega
    have hk : (n + 1).toNat = n.toNat + 1 := by omega
    have hinv1 := hinv.makeRow n
    have hl1 := dpLookup_makeRow st.dp n
    generalize (if (mapGet st.dp n).isNone then mapSet st.dp n [] else st.dp) = dp1
      at hinv1 hl1 ⊢
    simp only []
    have hread : ∀ (dp : DpTable) (b : Bool), dpRead (dpStore dp n sum b) n sum = b := by
      intro dp b
      unfold dpRead
      rw [dpLookup_dpStore]
      simp
    cases hlk : dpLookup dp1 n sum with
    | some v =>
      simp only []
      have hrd : dpRead dp1 n sum = v := by unfold dpRead; rw [hlk]; rfl
      rw [hrd]
      refine ⟨v, _, rfl, hinv1, ?_, fun i s w h => by rw [hl1]; exact h, ?_⟩
      · rw [hk]; exact (hinv1 n sum v hlk).2.2.2.2.1
      · intro hv; right; rw [hlk, hv]
    | none =>
      simp only []
      obtain ⟨b1, st2, he1, hinv2, hb1, hmono1, hst1⟩ :=
        ih { dp := dp1, reads := st.reads } (n - 1) sum hinv1 (by omega) (by omega) hsum
          (by omega)
      rw [he1]
      obtain ⟨x, hx, hix⟩ := index_eq_ok h0 hn2
      have htake := take_toNat_succ h0 hx
      cases b1 with
      | true =>
        simp only []
        rw [hread]
        have hsem : (true = true ↔ HasSubsetSum (S.take (n.toNat + 1)) sum) := by
          rw [htake, hasSubsetSum_snoc]
          simp only [true_iff]
          exact Or.inl (hb1.mp rfl)
        have hcl : true = true → dpRead st2.dp (n - 1) sum = true ∨
            ∃ x, S[n.toNat]? = some x ∧
              (sum - x = 0 ∨ dpLookup st2.dp (n - 1) (sum - x) = some true) := by
          intro _
          left
          rw [dpRead_eq_true_iff]
          rcases hst1 rfl with h | h
          · exact absurd h hz
          · exact h
        obtain ⟨hinv3, hmono3⟩ := hinv2.store h0 hn2 hs0 hsum hsem hcl
        refine ⟨true, _, rfl, hinv3, by rw [hk]; exact hsem, ?_, ?_⟩
        · intro i s w h
          exact hmono3 _ _ _ (hmono1 _ _ _ (by rw [hl1]; exact h))
        · intro _; right
          rw [dpLookup_dpStore]; simp
      | false =>
        simp only []
        rw [hix]
        simp only []
        obtain ⟨hx0, hx1⟩ := hS.getElem? hx
        rw [wrap64_sub_eq (le_of_lt hs0) hsum hx0 hx1]
        obtain ⟨b2, st3, he2, hinv3, hb2, hmono2, hst2⟩ :=
          ih { dp := st2.dp, reads := n :: st2.reads } (n - 1) (sum - x) hinv2 (by omega)
            (by omega) (by omega) (by omega)
        rw [he2]
        simp only []
        rw [hread]
        have hsem : (b2 = true ↔ HasSubsetSum (S.take (n.toNat + 1)) sum) := by
          rw [htake, hasSubsetSum_snoc, hb2]
          constructor
          · exact Or.inr
          · rintro (h | h)
            · exact absurd (hb1.mpr h) (by simp)
            · exact h
        have hcl : b2 = true → dpRead st3.dp (n - 1) sum = true ∨
            ∃ x, S[n.toNat]? = some x ∧
              (sum - x = 0 ∨ dpLookup st3.dp (n - 1) (sum - x) = some true) := by
          intro hb
          exact Or.inr ⟨x, hx, hst2 hb⟩
        obtain ⟨hinv4, hmono4⟩ := hinv3.store h0 hn2 hs0 hsum hsem hcl
        refine ⟨b2, _, rfl, hinv4, by rw [hk]; exact hsem, ?_, ?_⟩
        · intro i s w h
          exact hmono4 _ _ _ (hmono2 _ _ _ (hmono1 _ _ _ (by rw [hl1]; exact h)))
        · intro hb; right
          rw [dpLookup_dpStore]; simp [hb]

theorem printLoop_spec {S : List Int} (hS : NonNegSeq S) {dp : DpTable}
    (hinv : TableInv S dp) :
    ∀ (fuel : Nat) (subset : List Int) (n sum : Int) (reads : List Int),
      (sum = 0 ∨ dpLookup dp n sum = some true) → n < fuel →
      ∃ R reads', printLoop fuel S dp subset n sum reads = .ok (subset ++ R, reads') ∧
        R.reverse.Sublist (S.take (n + 1).toNat) ∧ R.sum = sum := by
  intro fuel
  induction fuel with
  | zero =>
    intro subset n sum reads hpre hf
    rw [printLoop]
    rcases hpre with hz | hl
    · refine ⟨[], reads, ?_, by simp, by simp [hz]⟩
      simp [hz]
    · have := (hinv n sum true hl).1
      simp at hf
      omega
  | succ fuel ih =>
    intro subset n sum reads hpre hf
    rw [printLoop]
    rcases hpre with hz | hl
    · refine ⟨[], reads, ?_, by simp, by simp [hz]⟩
      simp [hz]
    obtain ⟨h0, hn2, hs0, hsum, -, hcl⟩ := hinv n sum true hl
    have hcl := hcl rfl
    rw [if_pos hs0]
    simp only []
    obtain ⟨x, hx, hix⟩ := index_eq_ok h0 hn2
    obtain ⟨hx0, hx1⟩ := hS.getElem? hx
    have hk : (n + 1).toNat = n.toNat + 1 := by omega
    have htake := take_toNat_succ h0 hx
    have hnorow : ∀ s, ¬ dpLookup dp (-1) s = some true := by
      intro s h
      have := (hinv (-1) s true h).1
      omega
    -- the walk down the table
    have hrest : ∀ reads0, ∃ R reads',
        (if dpRead dp (n - 1) sum = true then
            printLoop fuel S dp subset (n - 1) sum reads0
          else
            match index S n with
            | .error e => .error e
            | .ok x =>
              printLoop fuel S dp (subset ++ [x]) (n - 1) (wrap64 (sum - x))
                (n :: n :: reads0)) = .ok (subset ++ R, reads') ∧
          R.reverse.Sublist (S.take (n + 1).toNat) ∧ R.sum = sum := by
      intro reads0
      by_cases hr : dpRead dp (n - 1) sum = true
      · rw [if_pos hr]
        rw [dpRead_eq_true_iff] at hr
        obtain ⟨R, reads', he, hsub, hsm⟩ :=
          ih subset (n - 1) sum reads0 (Or.inr hr) (by push_cast at hf; omega)
        refine ⟨R, reads', he, ?_, hsm⟩
        rw [hk, htake]
        exact hsub.trans (List.sublist_append_left _ _)
      · rw [if_neg hr, hix]
        simp only []
        rcases hcl with h | ⟨y, hy, hor⟩
        · exact absurd h hr
        · rw [hx] at hy
          have hxy : x = y := by simpa using hy
          subst hxy
          rw [wrap64_sub_eq (le_of_lt hs0) hsum hx0 hx1]
          obtain ⟨R, reads', he, hsub, hsm⟩ :=
            ih (subset ++ [x]) (n - 1) (sum - x) (n :: n :: reads0) hor
              (by push_cast at hf; omega)
          refine ⟨x :: R, reads', ?_, ?_, ?_⟩
          · rw [he]; simp
          · rw [hk, htake, List.reverse_cons]
            exact List.Sublist.append hsub (List.Sublist.refl _)
          · simp [hsm]
    by_cases hn0 : n = 0
    · rw [if_pos hn0, hix]
      simp only []
      subst hn0
      have hxs : x = sum := by
        rcases hcl with h | ⟨y, hy, hor⟩
        · rw [dpRead_eq_true_iff] at h
          exact absurd h (hnorow _)
        · rw [hx] at hy
          have hxy : x = y := by simpa using hy
          subst hxy
          rcases hor with h | h
          · omega
          · exact absurd h (hnorow _)
      rw [if_pos hxs]
      refine ⟨[x], _, rfl, ?_, by simp [hxs]⟩
      rw [hk, htake]
      simp
    · rw [if_neg hn0]
      exact hrest reads


theorem dfs_fuel_mono (S : List Int) :
    ∀ (fuel : Nat) (st : DfsState) (n sum : Int) (r : Bool × DfsState),
      SubsetSumDFS fuel st S n sum = .ok r → SubsetSumDFS (fuel + 1) st S n sum = .ok r := by
  intro fuel
  induction fuel with
  | zero => intro st n sum r h; simp [SubsetSumDFS] at h
  | succ fuel ih =>
    intro st n sum r h
    rw [SubsetSumDFS] at h ⊢
    by_cases hz : sum = 0
    · rw [if_pos hz] at h ⊢; exact h
    rw [if_neg hz] at h ⊢
    by_cases hneg : n < 0 ∨ sum < 0
    · rw [if_pos hneg] at h ⊢; exact h
    rw [if_neg hneg] at h ⊢
    generalize (if (mapGet st.dp n).isNone then mapSet st.dp n [] else st.dp) = dp1 at h ⊢
    simp only [] at h ⊢
    cases hlk : dpLookup dp1 n sum with
    | some v => rw [hlk] at h; exact h
    | none =>
      rw [hlk] at h
      simp only [] at h ⊢
      cases h1 : SubsetSumDFS fuel { dp := dp1, reads := st.reads } S (n - 1) sum with
      | error e => rw [h1] at h; simp at h
      | ok r1 =>
        rw [h1] at h
        rw [ih _ _ _ _ h1]
        obtain ⟨b1, st2⟩ := r1
        cases b1 with
        | true => exact h
        | false =>
          simp only [] at h ⊢
          cases hix : index S n with
          | error e => rw [hix] at h; simp at h
          | ok x =>
            rw [hix] at h
            simp only [] at h ⊢
            cases h2 : SubsetSumDFS fuel { dp := st2.dp, reads := n :: st2.reads } S (n - 1)
                (wrap64 (sum - x)) with
            | error e => rw [h2] at h; simp at h
            | ok r2 =>
              rw [h2] at h
              rw [ih _ _ _ _ h2]
              exact h

theorem dfs_fuel_mono_add {S : List Int} {fuel : Nat} {st : DfsState} {n sum : Int}
    {r : Bool × DfsState} (k : Nat) (h : SubsetSumDFS fuel st S n sum = .ok r) :
    SubsetSumDFS (fuel + k) st S n sum = .ok r := by
  induction k with
  | zero => exact h
  | succ k ih => exact dfs_fuel_mono S _ _ _ _ _ ih

/-! ## The memoised solver: correctness and reconstruction -/

/-- C1: for a sequence `S` of non-negative `int64` values, an index `n` with
`-1 ≤ n < len(S)` and an `int64` target `T`, `SubsetSumDFS` called with an empty
memo table returns a verdict, and the verdict is `true` if and only if some
sub-sequence of `S[0..n]` (inclusive) sums exactly to `T`. -/
theorem subsetSumDFS_true_iff_subsequence (S : List Int) (n T : Int) (fuel : Nat)
    (hS : NonNegSeq S) (hT : IsInt64 T) (hn : -1 ≤ n) (hlen : n < S.length)
    (hfuel : n + 1 < fuel) :
    ∃ b st, SubsetSumDFS fuel { dp := [], reads := [] } S n T = .ok (b, st) ∧
      (b = true ↔ ∃ sub : List Int, sub.Sublist (S.take (n + 1).toNat) ∧ sub.sum = T) := by
  obtain ⟨b, st, he, -, hb, -, -⟩ :=
    dfs_spec hS fuel { dp := [], reads := [] } n T (tableInv_nil S) hn hlen hT.2 hfuel
  exact ⟨b, st, he, hb⟩

/-- Instance of C1 at `S = [1, 2, 3]`, `n = 2`, `T = 5`. -/
theorem subsetSumDFS_true_iff_subsequence_witness :
    (NonNegSeq [1, 2, 3] ∧ IsInt64 5 ∧ (-1 : Int) ≤ 2 ∧
      (2 : Int) < ([1, 2, 3] : List Int).length ∧ (2 : Int) + 1 < (4 : Nat)) ∧
    ∃ b st, SubsetSumDFS 4 { dp := [], reads := [] } [1, 2, 3] 2 5 = .ok (b, st) ∧
      (b = true ↔
        ∃ sub : List Int, sub.Sublist (([1, 2, 3] : List Int).take (2 + 1 : Int).toNat) ∧
          sub.sum = 5) :=
  ⟨by decide,
    subsetSumDFS_true_iff_subsequence [1, 2, 3] 2 5 4 (by decide) (by decide) (by decide)
      (by decide) (by decide)⟩

/-- C2: for a sequence `S` of non-negative `int64` values and an `int64` target `T`,
if `SubsetSumDFS(dp, S, len(S)-1, T)` started on an empty table returns `true`, then
`PrintSubset`, run on the table that call left behind, completes without a fault and
yields a list `R` made of elements of `S` at distinct positions (`R` reversed is a
sub-sequence of `S`, so `R` is a sub-multiset of `S`) with `sum(R) = T`. -/
theorem printSubset_sound_after_dfs (S : List Int) (T : Int) (fuel fuel' : Nat)
    (st : DfsState) (hS : NonNegSeq S) (hT : IsInt64 T) (hfuel : S.length ≤ fuel')
    (hdfs : SubsetSumDFS fuel { dp := [], reads := [] } S ((S.length : Int) - 1) T
      = .ok (true, st)) :
    ∃ R reads, PrintSubset fuel' S st.dp T st.reads = .ok (R, reads) ∧
      R.reverse.Sublist S ∧ (R : Multiset Int) ≤ (S : Multiset Int) ∧ R.sum = T := by
  have hbig := dfs_fuel_mono_add (S.length + 1) hdfs
  obtain ⟨b, st', he, hinv, -, -, hroot⟩ :=
    dfs_spec hS (fuel + (S.length + 1)) { dp := [], reads := [] } ((S.length : Int) - 1) T
      (tableInv_nil S) (by omega) (by omega) hT.2 (by push_cast; omega)
  rw [hbig] at he
  simp only [Except.ok.injEq, Prod.mk.injEq] at he
  obtain ⟨rfl, rfl⟩ := he
  obtain ⟨R, reads, hp, hsub, hsum⟩ :=
    printLoop_spec hS hinv fuel' [] ((S.length : Int) - 1) T st.reads (hroot rfl)
      (by omega)
  have hfull : S.take ((S.length : Int) - 1 + 1).toNat = S := by
    have : ((S.length : Int) - 1 + 1).toNat = S.length := by omega
    rw [this, List.take_length]
  rw [hfull] at hsub
  refine ⟨R, reads, ?_, hsub, ?_, hsum⟩
  · unfold PrintSubset
    rw [hp, List.nil_append]
  · have h := hsub.subperm
    rw [← Multiset.coe_le, Multiset.coe_reverse] at h
    exact h

/-- Instance of C2 at `S = [1, 3, 2]`, `T = 4`: the recursion leaves the table
`{2: {4: true}, 1: {4: true}, 0: {1: true, 4: false}}`; the walk reads `dp[1][4]` as
`true` and skips `2`, reads `dp[0][4]` as `false` and takes `3`, then takes `1`, and
yields `[3, 1]`.  On an empty table the same walk would yield `[2, 3]`. -/
theorem printSubset_sound_after_dfs_witness :
    (NonNegSeq [1, 3, 2] ∧ IsInt64 4 ∧ ([1, 3, 2] : List Int).length ≤ 3 ∧
      SubsetSumDFS 4 { dp := [], reads := [] } [1, 3, 2]
          ((([1, 3, 2] : List Int).length : Int) - 1) 4
        = .ok (true, { dp := [(2, [(4, true)]), (1, [(4, true)]),
                              (0, [(1, true), (4, false)])],
                       reads := [0, 1, 0] })) ∧
    (∃ R reads,
      PrintSubset 3 [1, 3, 2]
          [(2, [(4, true)]), (1, [(4, true)]), (0, [(1, true), (4, false)])] 4 [0, 1, 0]
        = .ok (R, reads) ∧
      R.reverse.Sublist [1, 3, 2] ∧ (R : Multiset Int) ≤ (([1, 3, 2] : List Int) : Multiset Int) ∧
      R.sum = 4) ∧
    PrintSubset 3 [1, 3, 2]
        [(2, [(4, true)]), (1, [(4, true)]), (0, [(1, true), (4, false)])] 4 [0, 1, 0]
      = .ok ([3, 1], [0, 0, 1, 1, 0, 1, 0]) ∧
    PrintSubset 3 [1, 3, 2] [] 4 [0, 1, 0] = .ok ([2, 3], [1, 1, 2, 2, 0, 1, 0]) :=
  ⟨⟨by decide, by decide, by decide, rfl⟩,
    printSubset_sound_after_dfs [1, 3, 2] 4 4 3
      { dp := [(2, [(4, true)]), (1, [(4, true)]), (0, [(1, true), (4, false)])],
        reads := [0, 1, 0] }
      (by decide) (by decide) (by decide) rfl,
    rfl, rfl⟩

/-! ## Facts about the parent map -/

theorem Reach.mono {S : List Int} {T : Int} {c c' : List (Nat × ItemPtr)} {p : ItemPtr}
    {l : List Int} (h : Reach S T c p l)
    (hext : ∀ a q, mapGet c a = some q → mapGet c' a = some q) (h0 : mapGet c' 0 = none) :
    Reach S T c' p l := by
  induction h with
  | root _ => exact Reach.root h0
  | step _ hget hlt hsucc ih => exact Reach.step ih (hext _ _ hget) hlt hsucc

theorem Reach.sublist {S : List Int} {T : Int} {c : List (Nat × ItemPtr)} {p : ItemPtr}
    {l : List Int} (h : Reach S T c p l) :
    0 ≤ p.item.I ∧ l.reverse.Sublist (S.take p.item.I.toNat) := by
  induction h with
  | root _ => simp
  | @step q p l inc _ _ _ hsucc ih =>
    obtain ⟨hq0, hpI, -, -, hinc⟩ := hsucc
    obtain ⟨-, hsub⟩ := ih
    have hk : p.item.I.toNat = q.item.I.toNat + 1 := by omega
    refine ⟨by omega, ?_⟩
    rw [hk, List.take_succ]
    cases inc with
    | none =>
      simp only [Option.toList, List.nil_append]
      exact hsub.trans (List.sublist_append_left _ _)
    | some x =>
      obtain ⟨hx, -⟩ := hinc
      rw [hx]
      simp only [Option.toList, List.singleton_append, List.reverse_cons]
      exact List.Sublist.append hsub (List.Sublist.refl _)

theorem Reach.root_or_queued {S : List Int} {T : Int} {c : List (Nat × ItemPtr)}
    {p : ItemPtr} {l : List Int} (h : Reach S T c p l) :
    (p = ⟨0, ⟨0, T⟩⟩ ∧ l = []) ∨ (0 ≤ p.item.J ∧ 0 < p.addr ∧ 0 < p.item.I) := by
  cases h with
  | root _ => exact Or.inl ⟨rfl, rfl⟩
  | step hq _ hlt hsucc =>
    right
    have := hq.sublist.1
    exact ⟨hsucc.2.2.2.1, by omega, by have := hsucc.2.1; omega⟩

theorem Reach.mem_nonneg {S : List Int} (hS : NonNegSeq S) {T : Int}
    {c : List (Nat × ItemPtr)} {p : ItemPtr} {l : List Int} (h : Reach S T c p l) :
    ∀ x ∈ l, 0 ≤ x ∧ x < 9223372036854775808 := by
  intro x hx
  have hsub := h.sublist.2
  have : x ∈ l.reverse := List.mem_reverse.mpr hx
  exact hS x (List.mem_of_mem_take (hsub.subset this))

theorem Reach.wrap_sum {S : List Int} {T : Int} (hT : IsInt64 T)
    {c : List (Nat × ItemPtr)} {p : ItemPtr} {l : List Int} (h : Reach S T c p l) :
    wrap64 (T - l.sum) = p.item.J := by
  induction h with
  | root _ =>
    obtain ⟨h1, h2⟩ := hT
    simp only [List.sum_nil, sub_zero]
    unfold wrap64; omega
  | @step q p l inc _ _ _ hsucc ih =>
    obtain ⟨-, -, -, -, hinc⟩ := hsucc
    cases inc with
    | none =>
      simp only [Option.toList, List.nil_append]
      rw [ih]; exact hinc.symm
    | some x =>
      obtain ⟨-, hJ⟩ := hinc
      simp only [Option.toList, List.singleton_append, List.sum_cons]
      rw [hJ, ← ih]
      unfold wrap64; omega

theorem Reach.exact_sum {S : List Int} (hS : NonNegSeq S) {T : Int} (hT : IsInt64 T)
    (hT0 : 0 ≤ T) {c : List (Nat × ItemPtr)} {p : ItemPtr} {l : List Int}
    (h : Reach S T c p l) : p.item.J = T - l.sum ∧ 0 ≤ p.item.J := by
  induction h with
  | root _ => simp [hT0]
  | @step q p l inc hq _ _ hsucc ih =>
    obtain ⟨-, -, -, hJ0, hinc⟩ := hsucc
    obtain ⟨hqJ, hq0⟩ := ih
    have hl0 : 0 ≤ l.sum := List.sum_nonneg (fun x hx => (hq.mem_nonneg hS x hx).1)
    cases inc with
    | none =>
      simp only [Option.toList, List.nil_append]
      exact ⟨by rw [hinc, hqJ], hJ0⟩
    | some x =>
      obtain ⟨hx, hJ⟩ := hinc
      obtain ⟨hx0, hx1⟩ := hS.getElem? hx
      simp only [Option.toList, List.singleton_append, List.sum_cons]
      refine ⟨?_, hJ0⟩
      obtain ⟨h1, h2⟩ := hT
      rw [hJ, wrap64_sub_eq hq0 (by omega) hx0 hx1, hqJ]
      omega

theorem filter_pos_eq_nil {l : List Int} (h0 : ∀ x ∈ l, 0 ≤ x) (hsum : l.sum = 0) :
    l.filter (fun x => decide (0 < x)) = [] := by
  induction l with
  | nil => rfl
  | cons a t ih =>
    have ha : 0 ≤ a := h0 a (List.mem_cons_self a t)
    have ht : ∀ x ∈ t, 0 ≤ x := fun x hx => h0 x (List.mem_cons_of_mem a hx)
    have hts : 0 ≤ t.sum := List.sum_nonneg ht
    rw [List.sum_cons] at hsum
    have ha0 : a = 0 := by omega
    have ht0 : t.sum = 0 := by omega
    simp [List.filter, ha0, ih ht ht0]

theorem sum_filter_pos {l : List Int} (h0 : ∀ x ∈ l, 0 ≤ x) :
    (l.filter (fun x => decide (0 < x))).sum = l.sum := by
  induction l with
  | nil => rfl
  | cons a t ih =>
    have ha : 0 ≤ a := h0 a (List.mem_cons_self a t)
    have ht : ∀ x ∈ t, 0 ≤ x := fun x hx => h0 x (List.mem_cons_of_mem a hx)
    by_cases hpos : 0 < a
    · simp [List.filter, hpos, ih ht]
    · have ha0 : a = 0 := by omega
      simp [List.filter, ha0, ih ht]

/-- The walk over the parents of a pointer that leads to the root yields the
positive elements taken off on the way, and needs as many turns as the index of
the pointer at most. -/
theorem walkLoop_of_reach {S : List Int} (hS : NonNegSeq S) {T : Int} (hT : IsInt64 T)
    {c : List (Nat × ItemPtr)} {p : ItemPtr} {l : List Int} (h : Reach S T c p l) :
    ∀ (fuel : Nat) (res : List Int), p.item.I ≤ fuel →
      walkLoop fuel c T p res = .ok (res ++ l.filter (fun x => decide (0 < x))) := by
  induction h with
  | root _ =>
    intro fuel res _
    cases fuel <;> (rw [walkLoop]; simp)
  | @step q p l inc hq hget hlt hsucc ih =>
    intro fuel res hf
    have hp : Reach S T c p (inc.toList ++ l) := Reach.step hq hget hlt hsucc
    have hq0 := hq.sublist.1
    obtain ⟨-, hpI, -, hJ0, hinc⟩ := hsucc
    by_cases hJT : p.item.J = T
    · -- the walk stops at once: nothing positive was taken off above `p`
      have hT0 : 0 ≤ T := by omega
      have hex := (hp.exact_sum hS hT hT0).1
      have hnil := filter_pos_eq_nil (fun x hx => (hp.mem_nonneg hS x hx).1) (by omega)
      rw [hnil, List.append_nil]
      cases fuel <;> (rw [walkLoop]; rw [if_neg (by simpa using hJT)])
    · cases fuel with
      | zero => simp at hf; omega
      | succ fuel =>
        rw [walkLoop, if_pos hJT]
        simp only [hget]
        have hqf : q.item.I ≤ (fuel : Int) := by push_cast at hf; omega
        cases inc with
        | none =>
          have hz : wrap64 (q.item.J - p.item.J) = 0 := by
            rw [hinc]; unfold wrap64; omega
          rw [hz]
          simp only [lt_self_iff_false, if_false, Option.toList, List.nil_append]
          exact ih fuel res hqf
        | some x =>
          obtain ⟨hx, hJ⟩ := hinc
          obtain ⟨hx0, hx1⟩ := hS.getElem? hx
          have hz : wrap64 (q.item.J - p.item.J) = x := by
            rw [hJ]; unfold wrap64; omega
          rw [hz]
          simp only [Option.toList, List.singleton_append]
          by_cases hpos : 0 < x
          · rw [if_pos hpos, ih fuel _ hqf]
            simp [List.filter, hpos]
          · rw [if_neg hpos, ih fuel _ hqf]
            simp [List.filter, hpos]

/-! ## Facts about the queue -/

/-- The fuel `n` that `down` gives its loop is never what ends it. -/
theorem downLoop_fuel_enough :
    ∀ (fuel : Nat) (pq : PriorityQueue) (i n : Nat), n ≤ i + fuel →
      downLoop (fuel + 1) pq i n = downLoop fuel pq i n := by
  intro fuel
  induction fuel with
  | zero =>
    intro pq i n h
    rw [downLoop, downLoop]
    simp only []
    rw [if_pos (by omega)]
  | succ fuel ih =>
    intro pq i n h
    rw [downLoop]
    conv_rhs => rw [downLoop]
    simp only []
    by_cases h1 : n ≤ 2 * i + 1
    · rw [if_pos h1, if_pos h1]
    · rw [if_neg h1, if_neg h1]
      by_cases hc : 2 * i + 1 + 1 < n ∧ pq.Less (2 * i + 1 + 1) (2 * i + 1) = true
      · rw [if_pos hc]
        by_cases h2 : pq.Less (2 * i + 1 + 1) i = false
        · rw [if_pos h2, if_pos h2]
        · rw [if_neg h2, if_neg h2]
          exact ih _ _ _ (by omega)
      · rw [if_neg hc]
        by_cases h2 : pq.Less (2 * i + 1) i = false
        · rw [if_pos h2, if_pos h2]
        · rw [if_neg h2, if_neg h2]
          exact ih _ _ _ (by omega)

theorem swap_subset (pq : PriorityQueue) (i j : Nat) : ∀ x ∈ pq.Swap i j, x ∈ pq := by
  intro x hx
  unfold PriorityQueue.Swap at hx
  cases hi : pq[i]? with
  | none => simpa [hi] using hx
  | some a =>
    cases hj : pq[j]? with
    | none => simpa [hi, hj] using hx
    | some b =>
      simp only [hi, hj] at hx
      rcases List.mem_or_eq_of_mem_set hx with h | h
      · rcases List.mem_or_eq_of_mem_set h with h' | h'
        · exact h'
        · rw [h']; exact List.getElem?_mem hj
      · rw [h]; exact List.getElem?_mem hi

theorem downLoop_subset :
    ∀ (fuel : Nat) (pq : PriorityQueue) (i n : Nat), ∀ x ∈ downLoop fuel pq i n, x ∈ pq := by
  intro fuel
  induction fuel with
  | zero => intro pq i n x hx; simpa [downLoop] using hx
  | succ fuel ih =>
    intro pq i n x hx
    rw [downLoop] at hx
    simp only [] at hx
    by_cases h1 : n ≤ 2 * i + 1
    · rw [if_pos h1] at hx; exact hx
    · rw [if_neg h1] at hx
      generalize (if 2 * i + 1 + 1 < n ∧ pq.Less (2 * i + 1 + 1) (2 * i + 1) = true
        then 2 * i + 1 + 1 else 2 * i + 1) = j at hx
      by_cases h2 : pq.Less j i = false
      · rw [if_pos h2] at hx; exact hx
      · rw [if_neg h2] at hx
        exact swap_subset _ _ _ _ (ih _ _ _ _ hx)

theorem pop_mem {pq rest : PriorityQueue} {item : ItemPtr}
    (h : PriorityQueue.Pop pq = some (item, rest)) : item ∈ pq ∧ ∀ x ∈ rest, x ∈ pq := by
  unfold PriorityQueue.Pop at h
  cases hl : pq.getLast? with
  | none => simp [hl] at h
  | some y =>
    simp only [hl, Option.some.injEq, Prod.mk.injEq] at h
    obtain ⟨rfl, rfl⟩ := h
    exact ⟨List.mem_of_getLast?_eq_some hl, fun x hx => List.dropLast_subset pq hx⟩

theorem heapPop_mem {pq rest : PriorityQueue} {item : ItemPtr}
    (h : heapPop pq = some (item, rest)) : item ∈ pq ∧ ∀ x ∈ rest, x ∈ pq := by
  unfold heapPop down at h
  obtain ⟨h1, h2⟩ := pop_mem h
  have key : ∀ x ∈ downLoop (pq.length - 1) (pq.Swap 0 (pq.length - 1)) 0 (pq.length - 1),
      x ∈ pq := fun x hx => swap_subset _ _ _ _ (downLoop_subset _ _ _ _ _ hx)
  exact ⟨key _ h1, fun x hx => key _ (h2 x hx)⟩

/-! ## The invariant of the search loop -/

theorem index_ok {S : List Int} {i x : Int} (h : index S i = .ok x) :
    0 ≤ i ∧ S[i.toNat]? = some x := by
  unfold index at h
  by_cases h0 : 0 ≤ i
  · rw [if_pos h0] at h
    cases hx : S[i.toNat]? with
    | none => simp [hx] at h
    | some y =>
      simp only [hx, Except.ok.injEq] at h
      exact ⟨h0, by rw [h]⟩
  · rw [if_neg h0] at h
    simp at h

theorem QueueInv.weaken {S : List Int} {T : Int} {k k' N N' : Nat} {st : BfsState}
    (h : QueueInv S T k N st) (hk : k ≤ k') (hN : N ≤ N') : QueueInv S T k' N' st := by
  obtain ⟨h1, h2⟩ := h
  refine ⟨fun p hp => ?_, fun a q hq => ?_⟩
  · obtain ⟨a1, a2, a3⟩ := h1 p hp
    exact ⟨by omega, by have : (k : Int) ≤ k' := by exact_mod_cast hk
                        omega, a3⟩
  · obtain ⟨a1, a2⟩ := h2 a q hq
    exact ⟨a1, by omega⟩

theorem QueueInv.no_root_parent {S : List Int} {T : Int} {k N : Nat} {st : BfsState}
    (h : QueueInv S T k N st) : mapGet st.childOf 0 = none := by
  cases hg : mapGet st.childOf 0 with
  | none => rfl
  | some q => exact absurd (h.2 0 q hg).1 (by omega)

/-- Appending a candidate that was allocated at the fresh address `N`. -/
theorem pushCandidate_inv {S : List Int} {T : Int} {k N : Nat} {st : BfsState}
    {curr : ItemPtr} (n : Int) (cand : ItemPtr) {lc : List Int}
    (hinv : QueueInv S T k N st) (hN : 0 < N)
    (hcurr : Reach S T st.childOf curr lc) (hca : curr.addr < N)
    (hcand : cand.addr = N) (hk : cand.item.I ≤ k)
    (hsucc : cand.item.I < n ∧ 0 ≤ cand.item.J → ∃ inc, IsSucc S curr.item cand.item inc) :
    QueueInv S T k (N + 1) (pushCandidate st n cand curr) ∧
      Reach S T (pushCandidate st n cand curr).childOf curr lc ∧
      (pushCandidate st n cand curr).found = st.found ∧
      (pushCandidate st n cand curr).reads = st.reads := by
  unfold pushCandidate
  by_cases hg : cand.item.I < n ∧ 0 ≤ cand.item.J
  · rw [if_pos hg]
    by_cases hnew : (mapGet st.childOf cand.addr).isNone = true
    · rw [if_pos hnew]
      obtain ⟨inc, hinc⟩ := hsucc hg
      have hext : ∀ a q, mapGet st.childOf a = some q →
          mapGet (mapSet st.childOf cand.addr curr) a = some q := by
        intro a q hq
        rw [mapGet_mapSet]
        have := (hinv.2 a q hq).2
        rw [if_neg (by omega)]
        exact hq
      have h0 : mapGet (mapSet st.childOf cand.addr curr) 0 = none := by
        rw [mapGet_mapSet, if_neg (by omega)]
        exact hinv.no_root_parent
      have hself : mapGet (mapSet st.childOf cand.addr curr) cand.addr = some curr := by
        rw [mapGet_mapSet, if_pos rfl]
      have hcurr' := hcurr.mono hext h0
      refine ⟨⟨?_, ?_⟩, hcurr', rfl, rfl⟩
      · intro p hp
        simp only [List.mem_append, List.mem_singleton] at hp
        rcases hp with hp | rfl
        · obtain ⟨a1, a2, l, a3⟩ := hinv.1 p hp
          exact ⟨by omega, a2, l, a3.mono hext h0⟩
        · exact ⟨by omega, hk, _, Reach.step hcurr' hself (by omega) hinc⟩
      · intro a q hq
        simp only [] at hq
        rw [mapGet_mapSet] at hq
        by_cases ha : cand.addr = a
        · omega
        · rw [if_neg ha] at hq
          have := hinv.2 a q hq
          omega
    · rw [if_neg hnew]
      exact ⟨hinv.weaken (le_refl k) (by omega), hcurr, rfl, rfl⟩
  · rw [if_neg hg]
    exact ⟨hinv.weaken (le_refl k) (by omega), hcurr, rfl, rfl⟩

/-- One turn of the search loop: either it accepts a pointer that leads to the
root, or it keeps the invariant with indices one larger. -/
theorem bfsBody_inv {S : List Int} {T : Int} {k : Nat} {st st' : BfsState}
    (hinv : QueueInv S T k st.nextAddr st) (hN : 0 < st.nextAddr)
    (hnone : st.found = none) (h : bfsBody S st = .ok st') :
    (∃ p l, st'.found = some p ∧ p.item.J = 0 ∧ p.item.I ≤ k ∧ Reach S T st'.childOf p l) ∨
    (st'.found = none ∧ QueueInv S T (k + 1) st'.nextAddr st' ∧ 0 < st'.nextAddr) := by
  unfold bfsBody at h
  cases hp : heapPop st.priorityQueue with
  | none => simp [hp] at h
  | some r =>
    obtain ⟨curr, pq⟩ := r
    obtain ⟨hmem, hrest⟩ := heapPop_mem hp
    obtain ⟨hca, hck, lc, hcurr⟩ := hinv.1 curr hmem
    simp only [hp] at h
    by_cases hJ : curr.item.J = 0
    · rw [if_pos hJ] at h
      simp only [Except.ok.injEq] at h
      subst h
      exact Or.inl ⟨curr, lc, rfl, hJ, hck, hcurr⟩
    · rw [if_neg hJ] at h
      right
      have hinv1 : QueueInv S T (k + 1) st.nextAddr { st with priorityQueue := pq } :=
        QueueInv.weaken ⟨fun p hp' => hinv.1 p (hrest p hp'), hinv.2⟩ (by omega) (le_refl _)
      have hI0 := hcurr.sublist.1
      obtain ⟨hinv2, hcurr2, hf2, -⟩ :=
        pushCandidate_inv (S.length : Int)
          ⟨st.nextAddr, ⟨curr.item.I + 1, curr.item.J⟩⟩ hinv1 hN hcurr hca rfl
          (by show curr.item.I + 1 ≤ ((k + 1 : Nat) : Int); push_cast; omega)
          (fun hg => ⟨none, hI0, rfl, hg.1, hg.2, rfl⟩)
      cases hix : index S curr.item.I with
      | error e => simp [hix] at h
      | ok x =>
        simp only [hix, Except.ok.injEq] at h
        obtain ⟨-, hx⟩ := index_ok hix
        obtain ⟨hinv3, -, hf3, -⟩ :=
          pushCandidate_inv (S.length : Int)
            ⟨st.nextAddr + 1, ⟨curr.item.I + 1, wrap64 (curr.item.J - x)⟩⟩
            hinv2 (by omega) hcurr2 (by omega) rfl
            (by show curr.item.I + 1 ≤ ((k + 1 : Nat) : Int); push_cast; omega)
            (fun hg => ⟨some x, hI0, rfl, hg.1, hg.2, hx, rfl⟩)
        subst h
        refine ⟨?_, ?_, by simp⟩
        · simp only []
          rw [hf3, hf2]
          exact hnone
        · exact ⟨hinv3.1, hinv3.2⟩

theorem bfsLoop_found {S : List Int} {T : Int} :
    ∀ (fuel k : Nat) (st st' : BfsState) (p : ItemPtr),
      QueueInv S T k st.nextAddr st → 0 < st.nextAddr → st.found = none →
      bfsLoop fuel S st = .ok st' → st'.found = some p →
      p.item.J = 0 ∧ p.item.I + 1 ≤ k + fuel ∧ ∃ l, Reach S T st'.childOf p l := by
  intro fuel
  induction fuel with
  | zero =>
    intro k st st' p _ _ hnone h hfound
    rw [bfsLoop] at h
    by_cases hq : 0 < st.priorityQueue.length
    · rw [if_pos hq] at h; simp at h
    · rw [if_neg hq] at h
      simp only [Except.ok.injEq] at h
      subst h
      rw [hnone] at hfound; simp at hfound
  | succ fuel ih =>
    intro k st st' p hinv hN hnone h hfound
    rw [bfsLoop] at h
    by_cases hq : 0 < st.priorityQueue.length
    · rw [if_pos hq] at h
      cases hb : bfsBody S st with
      | error e => simp [hb] at h
      | ok st1 =>
        simp only [hb] at h
        rcases bfsBody_inv hinv hN hnone hb with ⟨q, l, hf, hJ, hI, hr⟩ | ⟨hf, hinv1, hN1⟩
        · rw [hf] at h
          simp only [Option.isSome_some, if_true, Except.ok.injEq] at h
          subst h
          rw [hf] at hfound
          simp only [Option.some.injEq] at hfound
          subst hfound
          exact ⟨hJ, by push_cast; omega, l, hr⟩
        · rw [hf] at h
          simp only [Option.isSome_none, Bool.false_eq_true, if_false] at h
          obtain ⟨a1, a2, a3⟩ := ih (k + 1) st1 st' p hinv1 hN1 hf h hfound
          exact ⟨a1, by push_cast at a2 ⊢; omega, a3⟩
    · rw [if_neg hq] at h
      simp only [Except.ok.injEq] at h
      subst h
      rw [hnone] at hfound; simp at hfound

theorem heapInit_singleton (x : ItemPtr) : heapInit [x] = [x] := by
  simp [heapInit]

theorem bfsInit_queue (T : Int) : (bfsInit T).priorityQueue = [⟨0, ⟨0, T⟩⟩] := by
  simp [bfsInit, heapInit_singleton]

theorem bfsInit_inv (S : List Int) (T : Int) :
    QueueInv S T 0 (bfsInit T).nextAddr (bfsInit T) := by
  refine ⟨fun p hp => ?_, fun a q hq => ?_⟩
  · rw [bfsInit_queue] at hp
    have : p = ⟨0, ⟨0, T⟩⟩ := by simpa using hp
    subst this
    exact ⟨by simp [bfsInit], by simp, [], Reach.root rfl⟩
  · simp [bfsInit, mapGet] at hq

/-! ## Running the search loop turn by turn -/

theorem bfsLoop_continue {fuel : Nat} {S : List Int} {st st1 : BfsState}
    (hq : 0 < st.priorityQueue.length) (hb : bfsBody S st = .ok st1)
    (hf : st1.found = none) : bfsLoop (fuel + 1) S st = bfsLoop fuel S st1 := by
  rw [bfsLoop, if_pos hq]
  simp only [hb, hf, Option.isSome_none, Bool.false_eq_true, if_false]

theorem bfsLoop_break {fuel : Nat} {S : List Int} {st st1 : BfsState}
    (hq : 0 < st.priorityQueue.length) (hb : bfsBody S st = .ok st1)
    (hf : st1.found.isSome = true) : bfsLoop (fuel + 1) S st = .ok st1 := by
  rw [bfsLoop, if_pos hq]
  simp only [hb, hf, if_true]

theorem bfsLoop_fault {fuel : Nat} {S : List Int} {st : BfsState} {e : Fault}
    (hq : 0 < st.priorityQueue.length) (hb : bfsBody S st = .error e) :
    bfsLoop (fuel + 1) S st = .error e := by
  rw [bfsLoop, if_pos hq]
  simp only [hb]

theorem bfsLoop_done (fuel : Nat) (S : List Int) {st : BfsState}
    (hq : st.priorityQueue = []) : bfsLoop fuel S st = .ok st := by
  cases fuel <;> (rw [bfsLoop]; simp [hq])

/-! ## The search solver: what it reconstructs -/

/-- C3, as amended: for a sequence `S` of non-negative `int64` values and an `int64`
target `T`, if the search of `BfsHeuristic` pops an accepting state (remaining 0),
the walk over the parents completes and yields a list `res` made of elements of `S`
at distinct positions (`res` reversed is a sub-sequence of `S`, so `res` is a
sub-multiset of `S`) whose `int64` sum is `T`; the sum is `T` without wrap-around
whenever `T ≥ 0`. -/
theorem bfs_reconstruction_sound (S : List Int) (T : Int) (fuel : Nat) (st : BfsState)
    (found : ItemPtr) (hS : NonNegSeq S) (hT : IsInt64 T)
    (hsearch : bfsSearch fuel S T = .ok st) (hfound : st.found = some found) :
    found.item.J = 0 ∧
    ∃ res, BfsHeuristic fuel S T = .ok (some res, st.reads) ∧ res.reverse.Sublist S ∧
      (res : Multiset Int) ≤ (S : Multiset Int) ∧ wrap64 res.sum = T ∧
      (0 ≤ T → res.sum = T) := by
  obtain ⟨hJ, hI, l, hreach⟩ :=
    bfsLoop_found fuel 0 (bfsInit T) st found (bfsInit_inv S T) (by simp [bfsInit]) rfl
      hsearch hfound
  have hwalk := walkLoop_of_reach hS hT hreach fuel [] (by omega)
  rw [List.nil_append] at hwalk
  have hl0 : ∀ x ∈ l, 0 ≤ x := fun x hx => (hreach.mem_nonneg hS x hx).1
  have hsum : (l.filter (fun x => decide (0 < x))).sum = l.sum := sum_filter_pos hl0
  have hsub : (l.filter (fun x => decide (0 < x))).reverse.Sublist S := by
    have h1 : (l.filter (fun x => decide (0 < x))).reverse.Sublist l.reverse :=
      (List.filter_sublist l).reverse
    exact (h1.trans hreach.sublist.2).trans (List.take_sublist _ _)
  refine ⟨hJ, l.filter (fun x => decide (0 < x)), ?_, hsub, ?_, ?_, ?_⟩
  · unfold BfsHeuristic
    rw [hsearch]
    simp only [hfound, hwalk]
  · have h := hsub.subperm
    rw [← Multiset.coe_le, Multiset.coe_reverse] at h
    exact h
  · have hw := hreach.wrap_sum hT
    rw [hJ] at hw
    rw [hsum]
    obtain ⟨h1, h2⟩ := hT
    unfold wrap64 at hw ⊢
    omega
  · intro hT0
    have := (hreach.exact_sum hS hT hT0).1
    rw [hsum]
    omega

/-- Instance of the amended C3 at `S = [3, 5]`, `T = 3`. -/
theorem bfs_reconstruction_sound_witness :
    (NonNegSeq [3, 5] ∧ IsInt64 3 ∧
      bfsSearch 3 [3, 5] 3
        = .ok { priorityQueue := [], childOf := [(2, ⟨0, ⟨0, 3⟩⟩), (1, ⟨0, ⟨0, 3⟩⟩)],
                found := some ⟨2, ⟨1, 0⟩⟩, nextAddr := 5, reads := [1, 0] }) ∧
    ((⟨2, ⟨1, 0⟩⟩ : ItemPtr).item.J = 0 ∧
      ∃ res, BfsHeuristic 3 [3, 5] 3 = .ok (some res, [1, 0]) ∧ res.reverse.Sublist [3, 5] ∧
        (res : Multiset Int) ≤ (([3, 5] : List Int) : Multiset Int) ∧ wrap64 res.sum = 3 ∧
        ((0 : Int) ≤ 3 → res.sum = 3)) :=
  ⟨⟨by decide, by decide, rfl⟩,
    bfs_reconstruction_sound [3, 5] 3 3 _ ⟨2, ⟨1, 0⟩⟩ (by decide) (by decide) rfl rfl⟩

/-- C3 as stated fails: on `S = [2^63-1, 2^63-1, 0]` and `T = -2` the search pops
the accepting state `(2, 0)` and `BfsHeuristic` prints `[2^63-1, 2^63-1]`, whose sum
is `2^64 - 2` and not `-2`. -/
theorem bfs_sum_differs_on_negative_target :
    NonNegSeq [9223372036854775807, 9223372036854775807, 0] ∧ IsInt64 (-2) ∧
    BfsHeuristic 4 [9223372036854775807, 9223372036854775807, 0] (-2)
      = .ok (some [9223372036854775807, 9223372036854775807], [2, 1, 0]) ∧
    ([9223372036854775807, 9223372036854775807] : List Int).sum ≠ -2 := by
  have h1 : bfsBody [9223372036854775807, 9223372036854775807, 0] (bfsInit (-2))
      = .ok { priorityQueue := [⟨2, ⟨1, 9223372036854775807⟩⟩],
              childOf := [(2, ⟨0, ⟨0, -2⟩⟩)], found := none, nextAddr := 3,
              reads := [0] } := rfl
  have h2 : bfsBody [9223372036854775807, 9223372036854775807, 0]
      { priorityQueue := [⟨2, ⟨1, 9223372036854775807⟩⟩],
        childOf := [(2, ⟨0, ⟨0, -2⟩⟩)], found := none, nextAddr := 3, reads := [0] }
      = .ok { priorityQueue := [⟨3, ⟨2, 9223372036854775807⟩⟩, ⟨4, ⟨2, 0⟩⟩],
              childOf := [(4, ⟨2, ⟨1, 9223372036854775807⟩⟩),
                (3, ⟨2, ⟨1, 9223372036854775807⟩⟩), (2, ⟨0, ⟨0, -2⟩⟩)],
              found := none, nextAddr := 5, reads := [1, 0] } := rfl
  have h3 : bfsBody [9223372036854775807, 9223372036854775807, 0]
      { priorityQueue := [⟨3, ⟨2, 9223372036854775807⟩⟩, ⟨4, ⟨2, 0⟩⟩],
        childOf := [(4, ⟨2, ⟨1, 9223372036854775807⟩⟩),
          (3, ⟨2, ⟨1, 9223372036854775807⟩⟩), (2, ⟨0, ⟨0, -2⟩⟩)],
        found := none, nextAddr := 5, reads := [1, 0] }
      = .ok { priorityQueue := [⟨4, ⟨2, 0⟩⟩],
              childOf := [(4, ⟨2, ⟨1, 9223372036854775807⟩⟩),
                (3, ⟨2, ⟨1, 9223372036854775807⟩⟩), (2, ⟨0, ⟨0, -2⟩⟩)],
              found := none, nextAddr := 7, reads := [2, 1, 0] } := rfl
  have h4 : bfsBody [9223372036854775807, 9223372036854775807, 0]
      { priorityQueue := [⟨4, ⟨2, 0⟩⟩],
        childOf := [(4, ⟨2, ⟨1, 9223372036854775807⟩⟩),
          (3, ⟨2, ⟨1, 9223372036854775807⟩⟩), (2, ⟨0, ⟨0, -2⟩⟩)],
        found := none, nextAddr := 7, reads := [2, 1, 0] }
      = .ok { priorityQueue := [],
              childOf := [(4, ⟨2, ⟨1, 9223372036854775807⟩⟩),
                (3, ⟨2, ⟨1, 9223372036854775807⟩⟩), (2, ⟨0, ⟨0, -2⟩⟩)],
              found := some ⟨4, ⟨2, 0⟩⟩, nextAddr := 7, reads := [2, 1, 0] } := rfl
  have hsearch : bfsSearch 4 [9223372036854775807, 9223372036854775807, 0] (-2)
      = .ok { priorityQueue := [],
              childOf := [(4, ⟨2, ⟨1, 9223372036854775807⟩⟩),
                (3, ⟨2, ⟨1, 9223372036854775807⟩⟩), (2, ⟨0, ⟨0, -2⟩⟩)],
              found := some ⟨4, ⟨2, 0⟩⟩, nextAddr := 7, reads := [2, 1, 0] } := by
    unfold bfsSearch
    rw [bfsLoop_continue (by decide) h1 rfl, bfsLoop_continue (by decide) h2 rfl,
      bfsLoop_continue (by decide) h3 rfl, bfsLoop_break (by decide) h4 rfl]
  have hwalk : walkLoop 4 [(4, ⟨2, ⟨1, 9223372036854775807⟩⟩),
      (3, ⟨2, ⟨1, 9223372036854775807⟩⟩), (2, ⟨0, ⟨0, -2⟩⟩)] (-2) ⟨4, ⟨2, 0⟩⟩ []
      = .ok [9223372036854775807, 9223372036854775807] := rfl
  refine ⟨by decide, by decide, ?_, by decide⟩
  unfold BfsHeuristic
  rw [hsearch]
  simp only [hwalk]

/-! ## The search solver: where it departs from the memoised one -/

/-- C4, the code at the failing input `S = [10]`, `T = 10`: `[10]` is a
sub-sequence of `S` that sums to `T`, yet `BfsHeuristic` empties its queue without
popping an accepting state and reports that no subset exists. -/
theorem bfs_reports_absence_on_singleton :
    (([10] : List Int).Sublist [10] ∧ ([10] : List Int).sum = 10) ∧
    ∀ fuel : Nat, BfsHeuristic (fuel + 1) [10] 10 = .ok (none, [0]) := by
  refine ⟨⟨List.Sublist.refl _, by decide⟩, fun fuel => ?_⟩
  cases fuel <;> rfl

/-- C5, the code at the failing input `S = [10]`, `T = 10`: `SubsetSumDFS` on the
empty table returns `true`, while the search of `BfsHeuristic` ends with
`found == nil`. -/
theorem solvers_disagree_on_singleton :
    SubsetSumDFS 2 { dp := [], reads := [] } [10] ((([10] : List Int).length : Int) - 1) 10
      = .ok (true, { dp := [(0, [(10, true)])], reads := [0] }) ∧
    ∀ fuel : Nat, bfsSearch (fuel + 1) [10] 10
      = .ok { priorityQueue := [], childOf := [], found := none, nextAddr := 3,
              reads := [0] } := by
  refine ⟨rfl, fun fuel => ?_⟩
  cases fuel <;> rfl

/-- C6: for every sequence `S`, the empty one included, and target 0, both solvers
report the empty subset and read no element of `S` (their read logs are empty):
`SubsetSumDFS` returns `true` and leaves the table empty, `PrintSubset` yields `[]`,
the search of `BfsHeuristic` accepts the root state and the walk yields `[]`. -/
theorem empty_target_law (S : List Int) (fuel : Nat) :
    SubsetSumDFS (fuel + 1) { dp := [], reads := [] } S ((S.length : Int) - 1) 0
      = .ok (true, { dp := [], reads := [] }) ∧
    PrintSubset fuel S [] 0 [] = .ok ([], []) ∧
    TestDFS (fuel + 1) S 0 S.length = .ok (some [], []) ∧
    bfsSearch (fuel + 1) S 0
      = .ok { priorityQueue := [], childOf := [], found := some ⟨0, ⟨0, 0⟩⟩, nextAddr := 1,
              reads := [] } ∧
    BfsHeuristic (fuel + 1) S 0 = .ok (some [], []) := by
  have hdfs : SubsetSumDFS (fuel + 1) { dp := [], reads := [] } S ((S.length : Int) - 1) 0
      = .ok (true, { dp := [], reads := [] }) := by
    simp [SubsetSumDFS]
  have hprint : ∀ f : Nat, PrintSubset f S [] 0 [] = .ok ([], []) := by
    intro f
    unfold PrintSubset
    cases f <;> simp [printLoop]
  have hsearch : bfsSearch (fuel + 1) S 0
      = .ok { priorityQueue := [], childOf := [], found := some ⟨0, ⟨0, 0⟩⟩, nextAddr := 1,
              reads := [] } := by
    unfold bfsSearch
    rw [bfsLoop]
    rfl
  refine ⟨hdfs, hprint fuel, ?_, hsearch, ?_⟩
  · unfold TestDFS
    rw [hdfs]
    simp only [hprint]
  · unfold BfsHeuristic
    rw [hsearch]
    simp only []
    rw [walkLoop]
    simp

/-- C7, the code at the failing input `S = []`, `T = 5`: `SubsetSumDFS` with index
`-1` answers `false` without a fault, but `BfsHeuristic` evaluates `mktcap[0]` for
the candidate `without` before its guard and stops with an index out of range. -/
theorem bfs_faults_on_empty_sequence :
    (∀ (fuel : Nat) (st : DfsState), SubsetSumDFS (fuel + 1) st [] (-1) 5 = .ok (false, st)) ∧
    ∀ fuel : Nat, BfsHeuristic (fuel + 1) [] 5 = .error Fault.indexOutOfRange := by
  refine ⟨fun fuel st => by simp [SubsetSumDFS], fun fuel => ?_⟩
  cases fuel <;> rfl

/-- C8: for every memo table, read log, sequence and index, negative ones
included, `SubsetSumDFS` returns `true` when the remaining sum is 0 and `false` when
it is not and the index or the remaining sum is negative; in both cases the state
comes back as it was, so the table is unchanged and no element was read. -/
theorem subsetSumDFS_base_cases (fuel : Nat) (st : DfsState) (S : List Int) (n sum : Int) :
    (sum = 0 → SubsetSumDFS (fuel + 1) st S n sum = .ok (true, st)) ∧
    (sum ≠ 0 → n < 0 ∨ sum < 0 → SubsetSumDFS (fuel + 1) st S n sum = .ok (false, st)) := by
  constructor
  · intro hz
    rw [SubsetSumDFS, if_pos hz]
  · intro hz hneg
    rw [SubsetSumDFS, if_neg hz, if_pos hneg]

/-- Instance of C8: remaining sum 0 at index `-3`, and remaining sum 7 at index
`-3`, on a table that has an entry and a sequence that has no element. -/
theorem subsetSumDFS_base_cases_witness :
    ((0 : Int) = 0 ∧ (7 : Int) ≠ 0 ∧ ((-3 : Int) < 0 ∨ (7 : Int) < 0)) ∧
    SubsetSumDFS 1 { dp := [(0, [(4, true)])], reads := [0] } [] (-3) 0
      = .ok (true, { dp := [(0, [(4, true)])], reads := [0] }) ∧
    SubsetSumDFS 1 { dp := [(0, [(4, true)])], reads := [0] } [] (-3) 7
      = .ok (false, { dp := [(0, [(4, true)])], reads := [0] }) :=
  ⟨by decide,
    (subsetSumDFS_base_cases 0 { dp := [(0, [(4, true)])], reads := [0] } [] (-3) 0).1 rfl,
    (subsetSumDFS_base_cases 0 { dp := [(0, [(4, true)])], reads := [0] } [] (-3) 7).2
      (by decide) (Or.inl (by decide))⟩

/-- C9, the code at the failing input `S = [1, 1]`, `T = 1`: after the first turn
the queue holds `(1, 1)` and `(1, 0)`, appended without `heap.Push`, and `heap.Pop`
hands out `(1, 1)` although `(1, 0)` has the smaller remaining value. -/
theorem heapPop_not_minimum :
    bfsBody [1, 1] (bfsInit 1)
      = .ok { priorityQueue := [⟨1, ⟨1, 1⟩⟩, ⟨2, ⟨1, 0⟩⟩],
              childOf := [(2, ⟨0, ⟨0, 1⟩⟩), (1, ⟨0, ⟨0, 1⟩⟩)], found := none,
              nextAddr := 3, reads := [0] } ∧
    heapPop [⟨1, ⟨1, 1⟩⟩, ⟨2, ⟨1, 0⟩⟩] = some (⟨1, ⟨1, 1⟩⟩, [⟨2, ⟨1, 0⟩⟩]) ∧
    (⟨2, ⟨1, 0⟩⟩ : ItemPtr).item.J < (⟨1, ⟨1, 1⟩⟩ : ItemPtr).item.J :=
  ⟨rfl, rfl, by decide⟩

/-- C10, the code at the failing input `S = [10]`, `T = 10`: the popped root
`(0, 10)` is not accepting, its successors `(1, 10)` and `(1, 0)` have
`index + 1 = 1 ≤ len(S)` and a remaining value `≥ 0`, yet the turn leaves the queue
and the parent map empty. -/
theorem bfsBody_drops_successors_at_length :
    heapPop (bfsInit 10).priorityQueue = some (⟨0, ⟨0, 10⟩⟩, []) ∧
    (0 : Int) + 1 ≤ (([10] : List Int).length : Int) ∧ (0 : Int) ≤ 10 ∧
    index [10] 0 = .ok 10 ∧ (0 : Int) ≤ wrap64 (10 - 10) ∧
    bfsBody [10] (bfsInit 10)
      = .ok { priorityQueue := [], childOf := [], found := none, nextAddr := 3,
              reads := [0] } :=
  ⟨rfl, by decide, by decide, rfl, by decide, rfl⟩

/-! ## The states of the search loop -/

theorem pushCandidate_reads (st : BfsState) (n : Int) (cand curr : ItemPtr) :
    (pushCandidate st n cand curr).reads = st.reads ∧
    (pushCandidate st n cand curr).found = st.found ∧
    (pushCandidate st n cand curr).nextAddr = st.nextAddr := by
  unfold pushCandidate
  split
  · split <;> exact ⟨rfl, rfl, rfl⟩
  · exact ⟨rfl, rfl, rfl⟩

/-- A candidate whose address has no entry in `childOf` passes the second test. -/
theorem pushCandidate_fresh {st : BfsState} (n : Int) (cand curr : ItemPtr)
    (h : mapGet st.childOf cand.addr = none) :
    pushCandidate st n cand curr =
      if cand.item.I < n ∧ 0 ≤ cand.item.J then
        { st with priorityQueue := st.priorityQueue ++ [cand],
                  childOf := mapSet st.childOf cand.addr curr }
      else st := by
  unfold pushCandidate
  rw [h]
  simp

/-- The two outcomes of a turn that does not fault. -/
theorem bfsBody_cases {S : List Int} {st st' : BfsState} (h : bfsBody S st = .ok st') :
    ∃ curr pq, heapPop st.priorityQueue = some (curr, pq) ∧
      ((curr.item.J = 0 ∧ st' = { st with priorityQueue := pq, found := some curr }) ∨
       (curr.item.J ≠ 0 ∧ ∃ x, index S curr.item.I = .ok x ∧
          st' = { pushCandidate
                    (pushCandidate { st with priorityQueue := pq } (S.length : Int)
                      ⟨st.nextAddr, ⟨curr.item.I + 1, curr.item.J⟩⟩ curr)
                    (S.length : Int)
                    ⟨st.nextAddr + 1, ⟨curr.item.I + 1, wrap64 (curr.item.J - x)⟩⟩ curr with
                  nextAddr := st.nextAddr + 2,
                  reads := curr.item.I :: st.reads })) := by
  unfold bfsBody at h
  cases hp : heapPop st.priorityQueue with
  | none => simp [hp] at h
  | some r =>
    obtain ⟨curr, pq⟩ := r
    refine ⟨curr, pq, rfl, ?_⟩
    simp only [hp] at h
    by_cases hJ : curr.item.J = 0
    · rw [if_pos hJ] at h
      simp only [Except.ok.injEq] at h
      exact Or.inl ⟨hJ, h.symm⟩
    · rw [if_neg hJ] at h
      right
      refine ⟨hJ, ?_⟩
      cases hix : index S curr.item.I with
      | error e => simp [hix] at h
      | ok x =>
        simp only [hix, Except.ok.injEq] at h
        refine ⟨x, rfl, ?_⟩
        rw [← h]
        simp only [(pushCandidate_reads _ _ _ _).1]

/-- A turn keeps the invariant of the queue, whether it accepts or not, and only
adds entries to the parent map. -/
theorem bfsBody_queueInv {S : List Int} {T : Int} {k : Nat} {st st' : BfsState}
    (hinv : QueueInv S T k st.nextAddr st) (hN : 0 < st.nextAddr)
    (h : bfsBody S st = .ok st') :
    QueueInv S T (k + 1) st'.nextAddr st' ∧ 0 < st'.nextAddr ∧
      ∀ a q, mapGet st.childOf a = some q → mapGet st'.childOf a = some q := by
  obtain ⟨curr, pq, hp, hcase⟩ := bfsBody_cases h
  obtain ⟨hmem, hrest⟩ := heapPop_mem hp
  obtain ⟨hca, hck, lc, hcurr⟩ := hinv.1 curr hmem
  have hinv1 : QueueInv S T (k + 1) st.nextAddr { st with priorityQueue := pq } :=
    QueueInv.weaken ⟨fun p hp' => hinv.1 p (hrest p hp'), hinv.2⟩ (by omega) (le_refl _)
  rcases hcase with ⟨-, rfl⟩ | ⟨-, x, hix, rfl⟩
  · exact ⟨⟨hinv1.1, hinv1.2⟩, hN, fun a q hq => hq⟩
  · have hI0 := hcurr.sublist.1
    obtain ⟨-, hx⟩ := index_ok hix
    have hfresh1 : mapGet st.childOf st.nextAddr = none := by
      cases hg : mapGet st.childOf st.nextAddr with
      | none => rfl
      | some q => exact absurd (hinv.2 _ _ hg).2 (by omega)
    obtain ⟨hinv2, hcurr2, -, -⟩ :=
      pushCandidate_inv (S.length : Int)
        ⟨st.nextAddr, ⟨curr.item.I + 1, curr.item.J⟩⟩ hinv1 hN hcurr hca rfl
        (by show curr.item.I + 1 ≤ ((k + 1 : Nat) : Int); push_cast; omega)
        (fun hg => ⟨none, hI0, rfl, hg.1, hg.2, rfl⟩)
    obtain ⟨hinv3, -, -, -⟩ :=
      pushCandidate_inv (S.length : Int)
        ⟨st.nextAddr + 1, ⟨curr.item.I + 1, wrap64 (curr.item.J - x)⟩⟩
        hinv2 (by omega) hcurr2 (by omega) rfl
        (by show curr.item.I + 1 ≤ ((k + 1 : Nat) : Int); push_cast; omega)
        (fun hg => ⟨some x, hI0, rfl, hg.1, hg.2, hx, rfl⟩)
    refine ⟨⟨hinv3.1, hinv3.2⟩, by simp, ?_⟩
    intro a q hq
    have ha := (hinv.2 a q hq).2
    have e1 : ∀ (s : BfsState) (n : Int) (cand c : ItemPtr), a < cand.addr →
        mapGet s.childOf a = some q →
        mapGet (pushCandidate s n cand c).childOf a = some q := by
      intro s n cand c hlt hs
      unfold pushCandidate
      split
      · split
        · simp only []
          rw [mapGet_mapSet, if_neg (by omega)]
          exact hs
        · exact hs
      · exact hs
    exact e1 _ _ _ _ (by simp only []; omega) (e1 _ _ _ _ (by simp only []; omega) hq)

/-- Every state of the search loop satisfies the invariant of the queue, and the
parent map of a state is kept by all later states. -/
theorem turns_queueInv {S : List Int} {T : Int} {st0 st : BfsState} {k0 : Nat}
    (h : Turns S st0 st) (h0 : QueueInv S T k0 st0.nextAddr st0) (hN : 0 < st0.nextAddr) :
    (∃ k, QueueInv S T k st.nextAddr st) ∧ 0 < st.nextAddr ∧
      ∀ a q, mapGet st0.childOf a = some q → mapGet st.childOf a = some q := by
  induction h with
  | refl => exact ⟨⟨k0, h0⟩, hN, fun a q hq => hq⟩
  | turn _ _ _ hb ih =>
    obtain ⟨⟨k, hk⟩, hN1, hext⟩ := ih
    obtain ⟨a1, a2, a3⟩ := bfsBody_queueInv hk hN1 hb
    exact ⟨⟨k + 1, a1⟩, a2, fun a q hq => a3 a q (hext a q hq)⟩

theorem Turns.trans {S : List Int} {a b c : BfsState} (h1 : Turns S a b) (h2 : Turns S b c) :
    Turns S a c := by
  induction h2 with
  | refl => exact h1
  | turn _ hq hf hb ih => exact Turns.turn ih hq hf hb

/-- The state in which `bfsLoop` ends was reached by turns of the loop. -/
theorem bfsLoop_turns {S : List Int} :
    ∀ (fuel : Nat) (st st' : BfsState), st.found = none → bfsLoop fuel S st = .ok st' →
      Turns S st st' := by
  intro fuel
  induction fuel with
  | zero =>
    intro st st' _ h
    rw [bfsLoop] at h
    by_cases hq : 0 < st.priorityQueue.length
    · rw [if_pos hq] at h; simp at h
    · rw [if_neg hq] at h
      simp only [Except.ok.injEq] at h
      subst h
      exact Turns.refl _
  | succ fuel ih =>
    intro st st' hnone h
    rw [bfsLoop] at h
    by_cases hq : 0 < st.priorityQueue.length
    · rw [if_pos hq] at h
      cases hb : bfsBody S st with
      | error e => simp [hb] at h
      | ok st1 =>
        simp only [hb] at h
        have hstep : Turns S st st1 := Turns.turn (Turns.refl _) hq hnone hb
        cases hf : st1.found with
        | some p =>
          rw [hf] at h
          simp only [Option.isSome_some, if_true, Except.ok.injEq] at h
          subst h
          exact hstep
        | none =>
          rw [hf] at h
          simp only [Option.isSome_none, Bool.false_eq_true, if_false] at h
          exact hstep.trans (ih st1 st' hf h)
    · rw [if_neg hq] at h
      simp only [Except.ok.injEq] at h
      subst h
      exact Turns.refl _

theorem Reach.index_bounds {S : List Int} {T : Int} {c : List (Nat × ItemPtr)} {p : ItemPtr}
    {l : List Int} (h : Reach S T c p l) :
    0 ≤ p.item.I ∧ p.item.I ≤ S.length ∧ (S ≠ [] → p.item.I < S.length) ∧
      (0 ≤ T → 0 ≤ p.item.J) := by
  cases h with
  | root _ =>
    refine ⟨le_refl _, by simp, fun hne => ?_, fun hT => hT⟩
    have : 0 < S.length := List.length_pos.mpr hne
    simp only []
    omega
  | step hq _ _ hsucc =>
    obtain ⟨h0, h1, h2, h3, -⟩ := hsucc
    exact ⟨by omega, by omega, fun _ => h2, fun _ => h3⟩

/-! ## `heap.Pop` takes one element out and keeps the others -/

theorem set_getElem?_self {α : Type} :
    ∀ (l : List α) (i : Nat) (a : α), l[i]? = some a → l.set i a = l := by
  intro l
  induction l with
  | nil => intro i a _; rfl
  | cons b t ih =>
    intro i a h
    cases i with
    | zero =>
      simp only [List.getElem?_cons_zero, Option.some.injEq] at h
      rw [List.set_cons_zero, h]
    | succ i =>
      simp only [List.getElem?_cons_succ] at h
      rw [List.set_cons_succ, ih i a h]

theorem swap_perm (pq : PriorityQueue) (i j : Nat) : (pq.Swap i j).Perm pq := by
  unfold PriorityQueue.Swap
  cases hi : pq[i]? with
  | none => simp only []; exact List.Perm.refl _
  | some a =>
    cases hj : pq[j]? with
    | none => simp only []; exact List.Perm.refl _
    | some b =>
      simp only []
      obtain ⟨hil, hia⟩ := List.getElem?_eq_some.mp hi
      obtain ⟨hjl, hjb⟩ := List.getElem?_eq_some.mp hj
      by_cases hij : i = j
      · subst hij
        have hab : a = b := by rw [← hia, ← hjb]
        subst hab
        have h1 : pq.set i a = pq := set_getElem?_self pq i a hi
        rw [h1, h1]
      · rw [List.perm_iff_count]
        intro x
        have hjl' : j < (pq.set i b).length := by rw [List.length_set]; exact hjl
        rw [List.count_set a x _ j hjl', List.count_set b x pq i hil]
        have hget : (pq.set i b)[j] = b := by
          rw [List.getElem_set_ne hij]; exact hjb
        rw [hget, hia]
        have hmem : a ∈ pq := List.getElem?_mem hi
        by_cases hax : a = x
        · subst hax
          have hpos : 0 < List.count a pq := List.count_pos_iff.mpr hmem
          by_cases hba : b = a
          · simp [hba]; omega
          · simp [hba]; omega
        · by_cases hbx : b = x
          · simp [hax, hbx]
          · simp [hax, hbx]

theorem downLoop_perm :
    ∀ (fuel : Nat) (pq : PriorityQueue) (i n : Nat), (downLoop fuel pq i n).Perm pq := by
  intro fuel
  induction fuel with
  | zero => intro pq i n; rw [downLoop]
  | succ fuel ih =>
    intro pq i n
    rw [downLoop]
    simp only []
    by_cases h1 : n ≤ 2 * i + 1
    · rw [if_pos h1]
    · rw [if_neg h1]
      generalize (if 2 * i + 1 + 1 < n ∧ pq.Less (2 * i + 1 + 1) (2 * i + 1) = true
        then 2 * i + 1 + 1 else 2 * i + 1) = j
      by_cases h2 : pq.Less j i = false
      · rw [if_pos h2]
      · rw [if_neg h2]
        exact (ih _ _ _).trans (swap_perm _ _ _)

theorem heapPop_perm {pq rest : PriorityQueue} {item : ItemPtr}
    (h : heapPop pq = some (item, rest)) : (rest ++ [item]).Perm pq := by
  unfold heapPop down PriorityQueue.Pop at h
  simp only [] at h
  cases hl : (downLoop (pq.length - 1) (pq.Swap 0 (pq.length - 1)) 0
      (pq.length - 1)).getLast? with
  | none => simp [hl] at h
  | some y =>
    simp only [hl, Option.some.injEq, Prod.mk.injEq] at h
    obtain ⟨rfl, rfl⟩ := h
    rw [List.dropLast_append_getLast? y hl]
    exact (downLoop_perm _ _ _ _).trans (swap_perm _ _ _)

theorem heapPop_some {pq : PriorityQueue} (h : 0 < pq.length) :
    ∃ item rest, heapPop pq = some (item, rest) := by
  unfold heapPop down PriorityQueue.Pop
  simp only []
  have hperm := (downLoop_perm (pq.length - 1) (pq.Swap 0 (pq.length - 1)) 0
      (pq.length - 1)).trans (swap_perm pq 0 (pq.length - 1))
  cases hl : (downLoop (pq.length - 1) (pq.Swap 0 (pq.length - 1)) 0
      (pq.length - 1)).getLast? with
  | none =>
    rw [List.getLast?_eq_none_iff] at hl
    rw [hl] at hperm
    have := hperm.length_eq
    simp at this
    omega
  | some y => exact ⟨y, _, rfl⟩

/-! ## Consequences for the states of the loop -/

theorem bfsInit_turns_inv {S : List Int} {T : Int} {st : BfsState}
    (h : Turns S (bfsInit T) st) :
    (∃ k, QueueInv S T k st.nextAddr st) ∧ 0 < st.nextAddr :=
  let r := turns_queueInv h (bfsInit_inv S T) (by simp [bfsInit])
  ⟨r.1, r.2.1⟩

/-- With a non-empty sequence a turn of the loop does not fault. -/
theorem bfsBody_ok {S : List Int} {T : Int} {k : Nat} {st : BfsState} (hS : S ≠ [])
    (hinv : QueueInv S T k st.nextAddr st) (hq : 0 < st.priorityQueue.length) :
    ∃ st', bfsBody S st = .ok st' := by
  obtain ⟨curr, pq, hp⟩ := heapPop_some hq
  obtain ⟨hmem, -⟩ := heapPop_mem hp
  obtain ⟨-, -, l, hreach⟩ := hinv.1 curr hmem
  obtain ⟨h0, -, h1, -⟩ := hreach.index_bounds
  obtain ⟨x, -, hix⟩ := index_eq_ok h0 (h1 hS)
  unfold bfsBody
  simp only [hp, hix]
  by_cases hJ : curr.item.J = 0
  · rw [if_pos hJ]; exact ⟨_, rfl⟩
  · rw [if_neg hJ]; exact ⟨_, rfl⟩

theorem turns_reads {S : List Int} {st0 st : BfsState} (h : Turns S st0 st)
    (h0 : ∀ i ∈ st0.reads, 0 ≤ i ∧ i < S.length) :
    ∀ i ∈ st.reads, 0 ≤ i ∧ i < S.length := by
  induction h with
  | refl => exact h0
  | turn _ _ _ hb ih =>
    obtain ⟨curr, pq, -, hcase⟩ := bfsBody_cases hb
    rcases hcase with ⟨-, rfl⟩ | ⟨-, x, hix, rfl⟩
    · exact ih
    · intro i hi
      simp only [List.mem_cons] at hi
      rcases hi with rfl | hi
      · obtain ⟨a, b⟩ := index_ok hix
        obtain ⟨hlt, -⟩ := List.getElem?_eq_some.mp b
        exact ⟨a, by omega⟩
      · exact ih i hi

theorem Reach.parent {S : List Int} {T : Int} {c : List (Nat × ItemPtr)} {p : ItemPtr}
    {l : List Int} (h : Reach S T c p l) :
    (p = ⟨0, ⟨0, T⟩⟩ ∧ mapGet c 0 = none) ∨
      ∃ q l' inc, mapGet c p.addr = some q ∧ IsSucc S q.item p.item inc ∧
        Reach S T c q l' := by
  cases h with
  | root h0 => exact Or.inl ⟨rfl, h0⟩
  | step hq hget _ hsucc => exact Or.inr ⟨_, _, _, hget, hsucc, hq⟩

theorem Reach.root_has_no_parent {S : List Int} {T : Int} {c : List (Nat × ItemPtr)}
    {p : ItemPtr} {l : List Int} (h : Reach S T c p l) : mapGet c 0 = none := by
  induction h with
  | root h0 => exact h0
  | step _ _ _ _ ih => exact ih

theorem Reach.ancestor {S : List Int} {T : Int} {c : List (Nat × ItemPtr)} :
    ∀ (j : Nat) (p : ItemPtr) (l : List Int), Reach S T c p l → (j : Int) ≤ p.item.I →
      ∃ r l', ancestor c j p = some r ∧ r.item.I = p.item.I - j ∧ Reach S T c r l' := by
  intro j
  induction j with
  | zero =>
    intro p l h _
    exact ⟨p, l, rfl, by simp, h⟩
  | succ j ih =>
    intro p l h hj
    rcases h.parent with ⟨rfl, -⟩ | ⟨q, l', inc, hget, hsucc, hq⟩
    · simp only [] at hj
      push_cast at hj
      omega
    · obtain ⟨-, hI, -, -, -⟩ := hsucc
      obtain ⟨r, l'', ha, hr, hreach⟩ := ih q l' hq (by push_cast at hj; omega)
      refine ⟨r, l'', ?_, by push_cast; omega, hreach⟩
      rw [Puzzle.ancestor]
      simp only [hget]
      exact ha

theorem Reach.isInt64 {S : List Int} {T : Int} (hT : IsInt64 T) {c : List (Nat × ItemPtr)}
    {p : ItemPtr} {l : List Int} (h : Reach S T c p l) : IsInt64 p.item.J := by
  induction h with
  | root _ => exact hT
  | @step q p l inc _ _ _ hsucc ih =>
    obtain ⟨-, -, -, -, hinc⟩ := hsucc
    cases inc with
    | none => simp only [] at hinc; rw [hinc]; exact ih
    | some x =>
      obtain ⟨-, hJ⟩ := hinc
      rw [hJ]
      unfold IsInt64 wrap64
      omega

/-! ## The memo table: soundness of its entries and bounds on its keys -/

theorem TableSound.store_sound {S : List Int} {dp : DpTable} (h : TableSound S dp) {n sum : Int}
    {b : Bool} (hb : b = true ↔ HasSubsetSum (S.take (n.toNat + 1)) sum) :
    TableSound S (dpStore dp n sum b) ∧
      ∀ i s v, dpLookup dp i s = some v → dpLookup (dpStore dp n sum b) i s = some v := by
  constructor
  · intro i s v hv
    rw [dpLookup_dpStore] at hv
    split at hv
    · rename_i heq
      obtain ⟨rfl, rfl⟩ := heq
      have hvb : b = v := by simpa using hv
      subst hvb
      exact hb
    · exact h i s v hv
  · intro i s v hv
    rw [dpLookup_dpStore]
    split
    · rename_i heq
      obtain ⟨rfl, rfl⟩ := heq
      have hv' := h i s v hv
      have : b = v := by
        cases b <;> cases v <;> simp_all
      rw [this]
    · exact hv

theorem dfs_tableSound {S : List Int} (hS : NonNegSeq S) :
    ∀ (fuel : Nat) (st : DfsState) (n sum : Int) (b : Bool) (st' : DfsState),
      TableSound S st.dp → n < S.length → sum < 9223372036854775808 →
      SubsetSumDFS fuel st S n sum = .ok (b, st') →
      TableSound S st'.dp ∧ (b = true ↔ HasSubsetSum (S.take (n + 1).toNat) sum) ∧
        (∀ i s v, dpLookup st.dp i s = some v → dpLookup st'.dp i s = some v) := by
  intro fuel
  induction fuel with
  | zero => intro st n sum b st' _ _ _ h; simp [SubsetSumDFS] at h
  | succ fuel ih =>
    intro st n sum b st' hinv hn2 hsum h
    rw [SubsetSumDFS] at h
    by_cases hz : sum = 0
    · rw [if_pos hz] at h
      simp only [Except.ok.injEq, Prod.mk.injEq] at h
      obtain ⟨rfl, rfl⟩ := h
      exact ⟨hinv, by simp [hz, hasSubsetSum_zero], fun _ _ _ h => h⟩
    rw [if_neg hz] at h
    by_cases hneg : n < 0 ∨ sum < 0
    · rw [if_pos hneg] at h
      simp only [Except.ok.injEq, Prod.mk.injEq] at h
      obtain ⟨rfl, rfl⟩ := h
      refine ⟨hinv, ?_, fun _ _ _ h => h⟩
      simp only [Bool.false_eq_true, false_iff]
      rcases hneg with hn | hs
      · have : (n + 1).toNat = 0 := by omega
        rw [this, List.take_zero, hasSubsetSum_nil]
        exact hz
      · exact not_hasSubsetSum_neg (hS.take _) hs
    rw [if_neg hneg] at h
    have h0 : 0 ≤ n := by omega
    have hs0 : 0 < sum := by omega
    have hk : (n + 1).toNat = n.toNat + 1 := by omega
    have hl1 := dpLookup_makeRow st.dp n
    have hinv1 : TableSound S (if (mapGet st.dp n).isNone then mapSet st.dp n [] else st.dp) :=
      fun i s v hv => hinv i s v (by rw [hl1] at hv; exact hv)
    generalize (if (mapGet st.dp n).isNone then mapSet st.dp n [] else st.dp) = dp1
      at hinv1 hl1 h
    simp only [] at h
    have hread : ∀ (dp : DpTable) (b : Bool), dpRead (dpStore dp n sum b) n sum = b := by
      intro dp b
      unfold dpRead
      rw [dpLookup_dpStore]
      simp
    cases hlk : dpLookup dp1 n sum with
    | some v =>
      rw [hlk] at h
      simp only [Except.ok.injEq, Prod.mk.injEq] at h
      obtain ⟨rfl, rfl⟩ := h
      have hrd : dpRead dp1 n sum = v := by unfold dpRead; rw [hlk]; rfl
      rw [hrd]
      refine ⟨hinv1, ?_, fun i s w h => by rw [hl1]; exact h⟩
      rw [hk]; exact hinv1 n sum v hlk
    | none =>
      rw [hlk] at h
      simp only [] at h
      cases h1 : SubsetSumDFS fuel { dp := dp1, reads := st.reads } S (n - 1) sum with
      | error e => rw [h1] at h; simp at h
      | ok r1 =>
        obtain ⟨b1, st2⟩ := r1
        rw [h1] at h
        obtain ⟨hinv2, hb1, hmono1⟩ :=
          ih { dp := dp1, reads := st.reads } (n - 1) sum b1 st2 hinv1 (by omega) hsum h1
        obtain ⟨x, hx, hix⟩ := index_eq_ok h0 hn2
        have htake := take_toNat_succ h0 hx
        cases b1 with
        | true =>
          simp only [Except.ok.injEq, Prod.mk.injEq] at h
          obtain ⟨rfl, rfl⟩ := h
          rw [hread]
          have hsem : (true = true ↔ HasSubsetSum (S.take (n.toNat + 1)) sum) := by
            rw [htake, hasSubsetSum_snoc]
            simp only [true_iff]
            exact Or.inl (hb1.mp rfl)
          obtain ⟨hinv3, hmono3⟩ := hinv2.store_sound hsem
          refine ⟨hinv3, by rw [hk]; exact hsem, ?_⟩
          intro i s w hw
          exact hmono3 _ _ _ (hmono1 _ _ _ (by rw [hl1]; exact hw))
        | false =>
          simp only [] at h
          rw [hix] at h
          simp only [] at h
          obtain ⟨hx0, hx1⟩ := hS.getElem? hx
          rw [wrap64_sub_eq (le_of_lt hs0) hsum hx0 hx1] at h
          cases h2 : SubsetSumDFS fuel { dp := st2.dp, reads := n :: st2.reads } S (n - 1)
              (sum - x) with
          | error e => rw [h2] at h; simp at h
          | ok r2 =>
            obtain ⟨b2, st3⟩ := r2
            rw [h2] at h
            simp only [Except.ok.injEq, Prod.mk.injEq] at h
            obtain ⟨rfl, rfl⟩ := h
            obtain ⟨hinv3, hb2, hmono2⟩ :=
              ih { dp := st2.dp, reads := n :: st2.reads } (n - 1) (sum - x) b2 st3 hinv2
                (by omega) (by omega) h2
            rw [hread]
            have hsem : (b2 = true ↔ HasSubsetSum (S.take (n.toNat + 1)) sum) := by
              rw [htake, hasSubsetSum_snoc, hb2]
              constructor
              · exact Or.inr
              · rintro (h | h)
                · exact absurd (hb1.mpr h) (by simp)
                · exact h
            obtain ⟨hinv4, hmono4⟩ := hinv3.store_sound hsem
            refine ⟨hinv4, by rw [hk]; exact hsem, ?_⟩
            intro i s w hw
            exact hmono4 _ _ _ (hmono2 _ _ _ (hmono1 _ _ _ (by rw [hl1]; exact hw)))

/-- With a depth of `n + 2` calls the recursion returns, whatever the table. -/
theorem dfs_total (S : List Int) :
    ∀ (fuel : Nat) (st : DfsState) (n sum : Int), n < S.length → (n + 1).toNat < fuel →
      ∃ r, SubsetSumDFS fuel st S n sum = .ok r := by
  intro fuel
  induction fuel with
  | zero => intro st n sum _ hf; omega
  | succ fuel ih =>
    intro st n sum hn hf
    rw [SubsetSumDFS]
    by_cases hz : sum = 0
    · rw [if_pos hz]; exact ⟨_, rfl⟩
    rw [if_neg hz]
    by_cases hneg : n < 0 ∨ sum < 0
    · rw [if_pos hneg]; exact ⟨_, rfl⟩
    rw [if_neg hneg]
    have h0 : 0 ≤ n := by omega
    generalize (if (mapGet st.dp n).isNone then mapSet st.dp n [] else st.dp) = dp1
    simp only []
    cases hlk : dpLookup dp1 n sum with
    | some v => exact ⟨_, rfl⟩
    | none =>
      simp only []
      obtain ⟨r1, h1⟩ := ih { dp := dp1, reads := st.reads } (n - 1) sum (by omega) (by omega)
      obtain ⟨b1, st2⟩ := r1
      rw [h1]
      cases b1 with
      | true => exact ⟨_, rfl⟩
      | false =>
        simp only []
        obtain ⟨x, -, hix⟩ := index_eq_ok h0 hn
        rw [hix]
        simp only []
        obtain ⟨r2, h2⟩ := ih { dp := st2.dp, reads := n :: st2.reads } (n - 1)
          (wrap64 (sum - x)) (by omega) (by omega)
        rw [h2]
        exact ⟨_, rfl⟩

theorem mem_mapSet {K V : Type} [DecidableEq K] {m : List (K × V)} {k : K} {v : V}
    {e : K × V} (h : e ∈ mapSet m k v) : e = (k, v) ∨ e ∈ m := by
  unfold mapSet at h
  rcases List.mem_cons.mp h with h | h
  · exact Or.inl h
  · exact Or.inr (List.mem_of_mem_filter h)

theorem mapGet_mem {K V : Type} [DecidableEq K] :
    ∀ (m : List (K × V)) (k : K) (v : V), mapGet m k = some v → (k, v) ∈ m := by
  intro m
  induction m with
  | nil => intro k v h; simp [mapGet] at h
  | cons e t ih =>
    intro k v h
    obtain ⟨a, w⟩ := e
    rw [mapGet] at h
    by_cases ha : a = k
    · rw [if_pos ha] at h
      simp only [Option.some.injEq] at h
      rw [ha, h]
      exact List.mem_cons_self _ _
    · rw [if_neg ha] at h
      exact List.mem_cons_of_mem _ (ih k v h)

theorem mapSet_keys_nodup {K V : Type} [DecidableEq K] {m : List (K × V)} (k : K) (v : V)
    (h : (m.map Prod.fst).Nodup) : ((mapSet m k v).map Prod.fst).Nodup := by
  unfold mapSet
  rw [List.map_cons, List.nodup_cons]
  constructor
  · intro hk
    obtain ⟨e, he, hek⟩ := List.mem_map.mp hk
    have := (List.mem_filter.mp he).2
    simp [hek] at this
  · exact (List.Nodup.sublist ((List.filter_sublist m).map Prod.fst) h)

theorem KeysWithin.set_row {N T : Int} {dp : DpTable} (h : KeysWithin N T dp) {n : Int}
    {row : List (Int × Bool)} (h0 : 0 ≤ n) (h1 : n ≤ N) (hk : (row.map Prod.fst).Nodup)
    (he : ∀ e ∈ row, 1 ≤ e.1 ∧ e.1 ≤ T) : KeysWithin N T (mapSet dp n row) := by
  refine ⟨mapSet_keys_nodup n row h.1, ?_⟩
  intro r hr
  rcases mem_mapSet hr with rfl | hr
  · exact ⟨h0, h1, hk, he⟩
  · exact h.2 r hr

theorem KeysWithin.makeRow_keys {N T : Int} {dp : DpTable} (h : KeysWithin N T dp) {n : Int}
    (h0 : 0 ≤ n) (h1 : n ≤ N) :
    KeysWithin N T (if (mapGet dp n).isNone then mapSet dp n [] else dp) := by
  split
  · exact h.set_row h0 h1 (by simp) (by simp)
  · exact h

theorem KeysWithin.store_keys {N T : Int} {dp : DpTable} (h : KeysWithin N T dp) {n sum : Int}
    (b : Bool) (h0 : 0 ≤ n) (h1 : n ≤ N) (hs0 : 1 ≤ sum) (hs1 : sum ≤ T) :
    KeysWithin N T (dpStore dp n sum b) := by
  unfold dpStore
  have hrow : ((((mapGet dp n).getD []) : List (Int × Bool)).map Prod.fst).Nodup ∧
      ∀ e ∈ (mapGet dp n).getD [], 1 ≤ e.1 ∧ e.1 ≤ T := by
    cases hg : mapGet dp n with
    | none => simp
    | some row =>
      have := h.2 _ (mapGet_mem dp n row hg)
      exact ⟨this.2.2.1, this.2.2.2⟩
  refine h.set_row h0 h1 (mapSet_keys_nodup sum b hrow.1) ?_
  intro e he
  rcases mem_mapSet he with rfl | he
  · exact ⟨hs0, hs1⟩
  · exact hrow.2 e he

theorem KeysWithin.lookup {N T : Int} {dp : DpTable} (h : KeysWithin N T dp) {i s : Int}
    {v : Bool} (hv : dpLookup dp i s = some v) : 0 ≤ i ∧ i ≤ N ∧ 1 ≤ s ∧ s ≤ T := by
  unfold dpLookup at hv
  cases hg : mapGet dp i with
  | none => simp [hg] at hv
  | some row =>
    simp only [hg] at hv
    obtain ⟨a0, a1, -, a3⟩ := h.2 _ (mapGet_mem dp i row hg)
    obtain ⟨b0, b1⟩ := a3 _ (mapGet_mem row s v hv)
    exact ⟨a0, a1, b0, b1⟩

theorem dfs_keysWithin {S : List Int} (hS : NonNegSeq S) {N T : Int} :
    ∀ (fuel : Nat) (st : DfsState) (n sum : Int) (b : Bool) (st' : DfsState),
      KeysWithin N T st.dp → n ≤ N → sum ≤ T → n < S.length →
      sum < 9223372036854775808 → SubsetSumDFS fuel st S n sum = .ok (b, st') →
      KeysWithin N T st'.dp := by
  intro fuel
  induction fuel with
  | zero => intro st n sum b st' _ _ _ _ _ h; simp [SubsetSumDFS] at h
  | succ fuel ih =>
    intro st n sum b st' hinv hnN hsT hn2 hsum h
    rw [SubsetSumDFS] at h
    by_cases hz : sum = 0
    · rw [if_pos hz] at h
      simp only [Except.ok.injEq, Prod.mk.injEq] at h
      obtain ⟨-, rfl⟩ := h
      exact hinv
    rw [if_neg hz] at h
    by_cases hneg : n < 0 ∨ sum < 0
    · rw [if_pos hneg] at h
      simp only [Except.ok.injEq, Prod.mk.injEq] at h
      obtain ⟨-, rfl⟩ := h
      exact hinv
    rw [if_neg hneg] at h
    have h0 : 0 ≤ n := by omega
    have hs0 : 1 ≤ sum := by omega
    have hinv1 := hinv.makeRow_keys h0 hnN
    generalize (if (mapGet st.dp n).isNone then mapSet st.dp n [] else st.dp) = dp1
      at hinv1 h
    simp only [] at h
    cases hlk : dpLookup dp1 n sum with
    | some v =>
      rw [hlk] at h
      simp only [Except.ok.injEq, Prod.mk.injEq] at h
      obtain ⟨-, rfl⟩ := h
      exact hinv1
    | none =>
      rw [hlk] at h
      simp only [] at h
      cases h1 : SubsetSumDFS fuel { dp := dp1, reads := st.reads } S (n - 1) sum with
      | error e => rw [h1] at h; simp at h
      | ok r1 =>
        obtain ⟨b1, st2⟩ := r1
        rw [h1] at h
        have hinv2 := ih { dp := dp1, reads := st.reads } (n - 1) sum b1 st2 hinv1
          (by omega) hsT (by omega) hsum h1
        cases b1 with
        | true =>
          simp only [Except.ok.injEq, Prod.mk.injEq] at h
          obtain ⟨-, rfl⟩ := h
          exact hinv2.store_keys true h0 hnN hs0 hsT
        | false =>
          simp only [] at h
          obtain ⟨x, hx, hix⟩ := index_eq_ok h0 hn2
          rw [hix] at h
          simp only [] at h
          obtain ⟨hx0, hx1⟩ := hS.getElem? hx
          rw [wrap64_sub_eq (by omega) hsum hx0 hx1] at h
          cases h2 : SubsetSumDFS fuel { dp := st2.dp, reads := n :: st2.reads } S (n - 1)
              (sum - x) with
          | error e => rw [h2] at h; simp at h
          | ok r2 =>
            obtain ⟨b2, st3⟩ := r2
            rw [h2] at h
            simp only [Except.ok.injEq, Prod.mk.injEq] at h
            obtain ⟨-, rfl⟩ := h
            have hinv3 := ih { dp := st2.dp, reads := n :: st2.reads } (n - 1) (sum - x) b2
              st3 hinv2 (by omega) (by omega) (by omega) (by omega) h2
            exact hinv3.store_keys b2 h0 hnN hs0 hsT

theorem nodup_length_le_of_bounds {l : List Int} (hl : l.Nodup) {a b : Int}
    (h : ∀ x ∈ l, a ≤ x ∧ x ≤ b) : l.length ≤ (b + 1 - a).toNat := by
  rw [← List.toFinset_card_of_nodup hl, ← Int.card_Icc]
  apply Finset.card_le_card
  intro x hx
  rw [List.mem_toFinset] at hx
  rw [Finset.mem_Icc]
  exact h x hx

/-- A table with keys in `[0, N] × [1, T]` has at most `(N + 1) * T` entries. -/
theorem KeysWithin.size_le {N T : Int} {dp : DpTable} (h : KeysWithin N T dp) :
    dpSize dp ≤ (N + 1).toNat * T.toNat := by
  unfold dpSize
  have hrows : dp.length ≤ (N + 1).toNat := by
    have := nodup_length_le_of_bounds h.1 (a := 0) (b := N) (by
      intro x hx
      obtain ⟨row, hrow, rfl⟩ := List.mem_map.mp hx
      exact ⟨(h.2 row hrow).1, (h.2 row hrow).2.1⟩)
    rw [List.length_map] at this
    simpa using this
  have hrow : ∀ x ∈ dp.map (fun row => row.2.length), x ≤ T.toNat := by
    intro x hx
    obtain ⟨row, hrow, rfl⟩ := List.mem_map.mp hx
    have := nodup_length_le_of_bounds (h.2 row hrow).2.2.1 (a := 1) (b := T) (by
      intro y hy
      obtain ⟨e, he, rfl⟩ := List.mem_map.mp hy
      exact (h.2 row hrow).2.2.2 e he)
    rw [List.length_map] at this
    simpa using this
  have hsum := List.sum_le_card_nsmul _ _ hrow
  rw [List.length_map, smul_eq_mul] at hsum
  exact hsum.trans (Nat.mul_le_mul_right _ hrows)

/-! ## One turn of the search loop, in full -/

theorem pushCandidate_queue {st : BfsState} (n : Int) (cand curr : ItemPtr)
    (h : mapGet st.childOf cand.addr = none) :
    (pushCandidate st n cand curr).priorityQueue = st.priorityQueue ++ passing n cand ∧
    (pushCandidate st n cand curr).childOf.length
      = st.childOf.length + (passing n cand).length ∧
    (∀ a, a ≠ cand.addr →
      mapGet (pushCandidate st n cand curr).childOf a = mapGet st.childOf a) := by
  rw [pushCandidate_fresh n cand curr h]
  unfold passing
  by_cases hg : cand.item.I < n ∧ 0 ≤ cand.item.J
  · rw [if_pos hg, if_pos hg]
    refine ⟨rfl, ?_, ?_⟩
    · simp only [mapSet, List.length_cons, List.length_singleton]
      have hf : st.childOf.filter (fun e => !decide (e.1 = cand.addr)) = st.childOf := by
        rw [List.filter_eq_self]
        intro e he
        simp only [Bool.not_eq_eq_eq_not, Bool.not_true, decide_eq_false_iff_not]
        intro heq
        have hmem : e.1 ∈ st.childOf.map Prod.fst := List.mem_map_of_mem _ he
        have : ∀ (m : List (Nat × ItemPtr)) (k : Nat), k ∈ m.map Prod.fst →
            mapGet m k ≠ none := by
          intro m
          induction m with
          | nil => intro k hk; simp at hk
          | cons e' t ih =>
            intro k hk
            obtain ⟨a', v'⟩ := e'
            rw [mapGet]
            by_cases ha : a' = k
            · rw [if_pos ha]; simp
            · rw [if_neg ha]
              apply ih
              simp only [List.map_cons, List.mem_cons] at hk
              rcases hk with hk | hk
              · exact absurd hk.symm ha
              · exact hk
        exact this _ _ hmem (by rw [heq]; exact h)
      rw [hf]
      simp
    · intro a ha
      simp only []
      rw [mapGet_mapSet, if_neg (fun h' => ha h'.symm)]
  · rw [if_neg hg, if_neg hg]
    exact ⟨by simp, by simp, fun _ _ => rfl⟩

/-- The queue, the parent map, the read log and `found` after a turn, in a state
whose parent map has no entry at or above `nextAddr`. -/
theorem bfsBody_step {S : List Int} {st st' : BfsState}
    (hfresh : ∀ a, st.nextAddr ≤ a → mapGet st.childOf a = none)
    (h : bfsBody S st = .ok st') :
    ∃ curr pq, heapPop st.priorityQueue = some (curr, pq) ∧
      ((curr.item.J = 0 ∧ st'.priorityQueue = pq ∧ st'.found = some curr ∧
          st'.reads = st.reads ∧ st'.childOf = st.childOf) ∨
       (curr.item.J ≠ 0 ∧ ∃ x, index S curr.item.I = .ok x ∧
          st'.priorityQueue = pq ++
            passing (S.length : Int) ⟨st.nextAddr, ⟨curr.item.I + 1, curr.item.J⟩⟩ ++
            passing (S.length : Int)
              ⟨st.nextAddr + 1, ⟨curr.item.I + 1, wrap64 (curr.item.J - x)⟩⟩ ∧
          st'.found = st.found ∧ st'.reads = curr.item.I :: st.reads ∧
          st'.childOf.length = st.childOf.length +
            (passing (S.length : Int) ⟨st.nextAddr, ⟨curr.item.I + 1, curr.item.J⟩⟩).length +
            (passing (S.length : Int)
              ⟨st.nextAddr + 1, ⟨curr.item.I + 1, wrap64 (curr.item.J - x)⟩⟩).length)) := by
  obtain ⟨curr, pq, hp, hcase⟩ := bfsBody_cases h
  refine ⟨curr, pq, hp, ?_⟩
  rcases hcase with ⟨hJ, rfl⟩ | ⟨hJ, x, hix, rfl⟩
  · exact Or.inl ⟨hJ, rfl, rfl, rfl, rfl⟩
  · right
    refine ⟨hJ, x, hix, ?_⟩
    have f1 : mapGet ({ st with priorityQueue := pq } : BfsState).childOf
        (⟨st.nextAddr, ⟨curr.item.I + 1, curr.item.J⟩⟩ : ItemPtr).addr = none :=
      hfresh _ (le_refl _)
    obtain ⟨q1, c1, e1⟩ := pushCandidate_queue (S.length : Int)
      ⟨st.nextAddr, ⟨curr.item.I + 1, curr.item.J⟩⟩ curr f1
    have f2 : mapGet (pushCandidate { st with priorityQueue := pq } (S.length : Int)
        ⟨st.nextAddr, ⟨curr.item.I + 1, curr.item.J⟩⟩ curr).childOf
        (⟨st.nextAddr + 1, ⟨curr.item.I + 1, wrap64 (curr.item.J - x)⟩⟩ : ItemPtr).addr
        = none := by
      rw [e1 _ (by simp only []; omega)]
      exact hfresh _ (by simp only []; omega)
    obtain ⟨q2, c2, -⟩ := pushCandidate_queue (S.length : Int)
      ⟨st.nextAddr + 1, ⟨curr.item.I + 1, wrap64 (curr.item.J - x)⟩⟩ curr f2
    refine ⟨?_, ?_, rfl, ?_⟩
    · simp only []
      rw [q2, q1]
    · simp only []
      rw [(pushCandidate_reads _ _ _ _).2.1, (pushCandidate_reads _ _ _ _).2.1]
    · simp only []
      rw [c2, c1]

theorem QueueInv.fresh {S : List Int} {T : Int} {k N : Nat} {st : BfsState}
    (h : QueueInv S T k N st) : ∀ a, N ≤ a → mapGet st.childOf a = none := by
  intro a ha
  cases hg : mapGet st.childOf a with
  | none => rfl
  | some q => exact absurd (h.2 a q hg).2 (by omega)

/-! ## The measure that bounds the search -/

theorem queueWeight_append (n : Nat) (a b : PriorityQueue) :
    queueWeight n (a ++ b) = queueWeight n a + queueWeight n b := by
  unfold queueWeight
  rw [List.map_append, List.sum_append]

theorem queueWeight_perm (n : Nat) {a b : PriorityQueue} (h : a.Perm b) :
    queueWeight n a = queueWeight n b := by
  unfold queueWeight
  exact (h.map _).sum_eq

theorem heapPop_weight (n : Nat) {pq rest : PriorityQueue} {curr : ItemPtr}
    (h : heapPop pq = some (curr, rest)) :
    queueWeight n rest + itemWeight n curr = queueWeight n pq ∧
      rest.length + 1 = pq.length := by
  have hperm := heapPop_perm h
  constructor
  · rw [← queueWeight_perm n hperm, queueWeight_append]
    simp [queueWeight]
  · rw [← hperm.length_eq]
    simp

theorem two_pow_pred_double {k : Nat} (hk : 0 < k) : 2 * (2 ^ (k - 1) - 1) + 1 = 2 ^ k - 1 := by
  obtain ⟨j, rfl⟩ : ∃ j, k = j + 1 := ⟨k - 1, by omega⟩
  have h1 : 0 < 2 ^ j := Nat.pow_pos (by decide)
  rw [Nat.add_sub_cancel, pow_succ]
  omega

/-- A successor that passes the guard, of an item of index `i` weighs `2 ^ (n - i - 1) - 1` at
most, and at least as much as its count. -/
theorem passing_weight (n : Nat) (a : Nat) (i j : Int) (hi : 0 ≤ i) :
    queueWeight n (passing (n : Int) ⟨a, ⟨i + 1, j⟩⟩) ≤ 2 ^ (n - i.toNat - 1) - 1 ∧
      (passing (n : Int) ⟨a, ⟨i + 1, j⟩⟩).length
        ≤ queueWeight n (passing (n : Int) ⟨a, ⟨i + 1, j⟩⟩) := by
  unfold passing
  by_cases hg : i + 1 < (n : Int) ∧ 0 ≤ j
  · rw [if_pos (by simpa using hg)]
    have e : (i + 1).toNat = i.toNat + 1 := by omega
    have hlt : i.toNat + 1 < n := by omega
    have hpos : 2 ≤ 2 ^ (n - (i.toNat + 1)) := by
      calc 2 = 2 ^ 1 := by norm_num
        _ ≤ 2 ^ (n - (i.toNat + 1)) := Nat.pow_le_pow_right (by decide) (by omega)
    simp only [queueWeight, itemWeight, List.map_cons, List.map_nil, List.sum_cons,
      List.sum_nil, Nat.add_zero, List.length_singleton, e]
    constructor
    · rw [Nat.sub_sub]
    · omega
  · rw [if_neg (by simpa using hg)]
    simp [queueWeight]

theorem length_le_queueWeight (n : Nat) (pq : PriorityQueue)
    (h : ∀ p ∈ pq, p.item.I.toNat < n) : pq.length ≤ queueWeight n pq := by
  induction pq with
  | nil => simp [queueWeight]
  | cons p t ih =>
    have hp := h p (List.mem_cons_self _ _)
    have ht := ih (fun q hq => h q (List.mem_cons_of_mem _ hq))
    have hpos : 2 ≤ 2 ^ (n - p.item.I.toNat) := by
      calc 2 = 2 ^ 1 := by norm_num
        _ ≤ 2 ^ (n - p.item.I.toNat) := Nat.pow_le_pow_right (by decide) (by omega)
    simp only [queueWeight, List.map_cons, List.sum_cons, List.length_cons, itemWeight]
    unfold queueWeight at ht
    omega

/-- A turn takes one state out of the queue, lowers the weight of the queue and
adds to the parent map what it adds to the queue. -/
theorem turn_measure {S : List Int} {T : Int} {k : Nat} {st st' : BfsState} (hS : S ≠ [])
    (hinv : QueueInv S T k st.nextAddr st) (hnone : st.found = none)
    (h : bfsBody S st = .ok st') :
    popCount st' = popCount st + 1 ∧
    queueWeight S.length st'.priorityQueue + 1 ≤ queueWeight S.length st.priorityQueue ∧
    st'.childOf.length + st.priorityQueue.length
      = st.childOf.length + st'.priorityQueue.length + 1 := by
  obtain ⟨curr, pq, hp, hcase⟩ := bfsBody_step hinv.fresh h
  obtain ⟨hw, hlen⟩ := heapPop_weight S.length hp
  obtain ⟨hmem, -⟩ := heapPop_mem hp
  obtain ⟨-, -, l, hreach⟩ := hinv.1 curr hmem
  obtain ⟨hI0, -, hIlt, -⟩ := hreach.index_bounds
  have hIlt := hIlt hS
  have hkpos : 0 < S.length - curr.item.I.toNat := by omega
  have hcw : 2 ≤ 2 ^ (S.length - curr.item.I.toNat) := by
    calc 2 = 2 ^ 1 := by norm_num
      _ ≤ 2 ^ (S.length - curr.item.I.toNat) := Nat.pow_le_pow_right (by decide) (by omega)
  unfold itemWeight at hw
  rcases hcase with ⟨-, hq, hf, hr, hc⟩ | ⟨-, x, -, hq, hf, hr, hc⟩
  · refine ⟨?_, ?_, ?_⟩
    · unfold popCount
      rw [hf, hr, hnone]
      simp
    · rw [hq]; omega
    · rw [hq, hc]; omega
  · obtain ⟨w1, l1⟩ := passing_weight S.length st.nextAddr curr.item.I curr.item.J hI0
    obtain ⟨w2, l2⟩ := passing_weight S.length (st.nextAddr + 1) curr.item.I
      (wrap64 (curr.item.J - x)) hI0
    have hd := two_pow_pred_double hkpos
    refine ⟨?_, ?_, ?_⟩
    · unfold popCount
      rw [hf, hr, hnone]
      simp
    · rw [hq, queueWeight_append, queueWeight_append]
      omega
    · rw [hq, hc, List.length_append, List.length_append]
      omega

/-- The count of the states brought into the queue, at every state of the loop. -/
theorem turns_measure {S : List Int} {T : Int} {st : BfsState} (hS : S ≠ [])
    (h : Turns S (bfsInit T) st) :
    popCount st + queueWeight S.length st.priorityQueue ≤ 2 ^ S.length - 1 ∧
    st.childOf.length + 1 = popCount st + st.priorityQueue.length := by
  induction h with
  | refl =>
    rw [bfsInit_queue]
    simp [popCount, bfsInit, queueWeight, itemWeight]
  | turn hprev _ hnone hb ih =>
    obtain ⟨⟨k, hinv⟩, -⟩ := bfsInit_turns_inv hprev
    obtain ⟨a1, a2, a3⟩ := turn_measure hS hinv hnone hb
    omega

/-- With a non-empty sequence the loop ends within as many turns as the queue weighs. -/
theorem bfsLoop_total {S : List Int} {T : Int} (hS : S ≠ []) :
    ∀ (fuel k : Nat) (st : BfsState), QueueInv S T k st.nextAddr st → 0 < st.nextAddr →
      st.found = none → queueWeight S.length st.priorityQueue ≤ fuel →
      ∃ st', bfsLoop fuel S st = .ok st' := by
  intro fuel
  induction fuel with
  | zero =>
    intro k st hinv _ _ hw
    rw [bfsLoop]
    by_cases hq : 0 < st.priorityQueue.length
    · have := length_le_queueWeight S.length st.priorityQueue (by
        intro p hp
        obtain ⟨-, -, l, hreach⟩ := hinv.1 p hp
        obtain ⟨a0, -, a1, -⟩ := hreach.index_bounds
        have := a1 hS
        omega)
      omega
    · rw [if_neg hq]; exact ⟨_, rfl⟩
  | succ fuel ih =>
    intro k st hinv hN hnone hw
    rw [bfsLoop]
    by_cases hq : 0 < st.priorityQueue.length
    · rw [if_pos hq]
      obtain ⟨st1, hb⟩ := bfsBody_ok hS hinv hq
      simp only [hb]
      cases hf : st1.found with
      | some p => simp
      | none =>
        simp only [Option.isSome_none, Bool.false_eq_true, if_false]
        obtain ⟨hinv1, hN1, -⟩ := bfsBody_queueInv hinv hN hb
        obtain ⟨-, a2, -⟩ := turn_measure hS hinv hnone hb
        exact ih (k + 1) st1 hinv1 hN1 hf (by omega)
    · rw [if_neg hq]; exact ⟨_, rfl⟩

theorem bfsSearch_total {S : List Int} (T : Int) (hS : S ≠ []) {fuel : Nat}
    (hfuel : 2 ^ S.length - 1 ≤ fuel) : ∃ st, bfsSearch fuel S T = .ok st := by
  unfold bfsSearch
  apply bfsLoop_total hS fuel 0 (bfsInit T) (bfsInit_inv S T) (by simp [bfsInit]) rfl
  rw [bfsInit_queue]
  simpa [queueWeight, itemWeight] using hfuel

/-- The state in which the loop ends has `found` set or an empty queue. -/
theorem bfsLoop_end {S : List Int} :
    ∀ (fuel : Nat) (st st' : BfsState), bfsLoop fuel S st = .ok st' → st.found = none →
      st'.found.isSome = true ∨ st'.priorityQueue = [] := by
  intro fuel
  induction fuel with
  | zero =>
    intro st st' h _
    rw [bfsLoop] at h
    by_cases hq : 0 < st.priorityQueue.length
    · rw [if_pos hq] at h; simp at h
    · rw [if_neg hq] at h
      simp only [Except.ok.injEq] at h
      subst h
      exact Or.inr (List.length_eq_zero.mp (by omega))
  | succ fuel ih =>
    intro st st' h hnone
    rw [bfsLoop] at h
    by_cases hq : 0 < st.priorityQueue.length
    · rw [if_pos hq] at h
      cases hb : bfsBody S st with
      | error e => simp [hb] at h
      | ok st1 =>
        simp only [hb] at h
        cases hf : st1.found with
        | some p =>
          rw [hf] at h
          simp only [Option.isSome_some, if_true, Except.ok.injEq] at h
          subst h
          exact Or.inl (by rw [hf]; rfl)
        | none =>
          rw [hf] at h
          simp only [Option.isSome_none, Bool.false_eq_true, if_false] at h
          exact ih st1 st' h hf
    · rw [if_neg hq] at h
      simp only [Except.ok.injEq] at h
      subst h
      exact Or.inr (List.length_eq_zero.mp (by omega))

/-- The walk over the parents of a pointer that leads to the root ends without a
fault within as many turns as the index of the pointer. -/
theorem walkLoop_total {S : List Int} {T : Int} {c : List (Nat × ItemPtr)} {p : ItemPtr}
    {l : List Int} (h : Reach S T c p l) :
    ∀ (fuel : Nat) (res : List Int), p.item.I ≤ fuel →
      ∃ res', walkLoop fuel c T p res = .ok res' := by
  induction h with
  | root _ =>
    intro fuel res _
    cases fuel <;> (rw [walkLoop]; simp)
  | @step q p l inc hq hget hlt hsucc ih =>
    intro fuel res hf
    have hq0 := hq.sublist.1
    obtain ⟨-, hpI, -, -, -⟩ := hsucc
    by_cases hJT : p.item.J = T
    · cases fuel <;> (rw [walkLoop]; rw [if_neg (by simpa using hJT)]; exact ⟨_, rfl⟩)
    · cases fuel with
      | zero => simp at hf; omega
      | succ fuel =>
        rw [walkLoop, if_pos hJT]
        simp only [hget]
        exact ih fuel _ (by push_cast at hf; omega)

/-! ## The search does not miss a solution that leaves the last element out -/

/-- A list `l` from its index `i` on, when `l[i]` exists. -/
theorem drop_eq_cons_of_getElem? {l : List Int} {i : Nat} {x : Int} (h : l[i]? = some x) :
    l.drop i = x :: l.drop (i + 1) := by
  obtain ⟨hlt, hx⟩ := List.getElem?_eq_some.mp h
  rw [List.drop_eq_getElem_cons hlt, hx]

theorem viable_step {S : List Int} (hS : NonNegSeq S) {T : Int} (hT : IsInt64 T) {k : Nat}
    {st st' : BfsState} (hinv : QueueInv S T k st.nextAddr st)
    (h : bfsBody S st = .ok st') (hv : Viable S st.priorityQueue) :
    st'.found.isSome = true ∨ Viable S st'.priorityQueue := by
  obtain ⟨curr, pq, hp, hcase⟩ := bfsBody_step hinv.fresh h
  rcases hcase with ⟨-, -, hf, -, -⟩ | ⟨hJ, x, hix, hq, -, -, -⟩
  · left; rw [hf]; rfl
  · right
    obtain ⟨p, hpmem, sub, hsub, hsum⟩ := hv
    have hperm := heapPop_perm hp
    have hp' : p ∈ pq ++ [curr] := hperm.symm.subset hpmem
    rw [List.mem_append, List.mem_singleton] at hp'
    rcases hp' with hin | rfl
    · exact ⟨p, by rw [hq]; simp [hin], sub, hsub, hsum⟩
    · -- the popped state is the one that can be completed
      obtain ⟨hmem, -⟩ := heapPop_mem hp
      obtain ⟨-, -, l, hreach⟩ := hinv.1 p hmem
      have hI0 := hreach.sublist.1
      have hJi := hreach.isInt64 hT
      obtain ⟨-, hx⟩ := index_ok hix
      obtain ⟨hx0, hx1⟩ := hS.getElem? hx
      have hsubS : ∀ y ∈ sub, 0 ≤ y := by
        intro y hy
        have h1 : y ∈ S.dropLast.drop p.item.I.toNat := hsub.subset hy
        have h2 : y ∈ S.dropLast := List.mem_of_mem_drop h1
        exact (hS y (List.dropLast_subset S h2)).1
      have hne : sub ≠ [] := by
        intro he
        rw [he] at hsum
        exact hJ (by simpa using hsum.symm)
      have hdne : S.dropLast.drop p.item.I.toNat ≠ [] := by
        intro he
        rw [he, List.sublist_nil] at hsub
        exact hne hsub
      have hlt : p.item.I.toNat < S.length - 1 := by
        have := List.length_pos.mpr hdne
        rw [List.length_drop, List.length_dropLast] at this
        omega
      have hd : S.dropLast[p.item.I.toNat]? = some x := by
        rw [List.getElem?_dropLast, if_pos hlt]; exact hx
      rw [drop_eq_cons_of_getElem? hd, List.sublist_cons_iff] at hsub
      have hIn : p.item.I + 1 < (S.length : Int) := by omega
      have hnat : (p.item.I + 1).toNat = p.item.I.toNat + 1 := by omega
      rcases hsub with hsub | ⟨r, rfl, hr⟩
      · -- the solution leaves `S[p.I]` out: the candidate `with`
        have hJ0 : 0 ≤ p.item.J := by rw [← hsum]; exact List.sum_nonneg hsubS
        refine ⟨⟨st.nextAddr, ⟨p.item.I + 1, p.item.J⟩⟩, ?_, sub, ?_, hsum⟩
        · rw [hq]
          simp [passing, hIn, hJ0]
        · simp only [hnat]; exact hsub
      · -- the solution takes `S[p.I]`: the candidate `without`
        have hr0 : 0 ≤ r.sum :=
          List.sum_nonneg (fun y hy => hsubS y (List.mem_cons_of_mem _ hy))
        rw [List.sum_cons] at hsum
        have hw : wrap64 (p.item.J - x) = r.sum := by
          rw [wrap64_sub_eq (by omega) hJi.2 hx0 hx1]; omega
        refine ⟨⟨st.nextAddr + 1, ⟨p.item.I + 1, wrap64 (p.item.J - x)⟩⟩, ?_, r, ?_, ?_⟩
        · rw [hq]
          simp [passing, hIn, hw, hr0]
        · simp only [hnat]; exact hr
        · simp only []; exact hw.symm

theorem turns_viable {S : List Int} (hS : NonNegSeq S) {T : Int} (hT : IsInt64 T)
    {st : BfsState} (h : Turns S (bfsInit T) st) (hv : Viable S (bfsInit T).priorityQueue) :
    st.found.isSome = true ∨ Viable S st.priorityQueue := by
  induction h with
  | refl => exact Or.inr hv
  | turn hprev _ hnone hb ih =>
    obtain ⟨⟨k, hinv⟩, -⟩ := bfsInit_turns_inv hprev
    rcases ih with hf | hv1
    · rw [hnone] at hf; simp at hf
    · exact viable_step hS hT hinv hb hv1

/-- Completeness up to the last element: if a sub-sequence of `S` without its last
element sums to `T`, a search that ends has found an accepting state. -/
theorem bfsSearch_complete {S : List Int} (hS : NonNegSeq S) {T : Int} (hT : IsInt64 T)
    {fuel : Nat} {st : BfsState} (hsearch : bfsSearch fuel S T = .ok st)
    (hsub : HasSubsetSum S.dropLast T) : st.found.isSome = true := by
  have hturns : Turns S (bfsInit T) st := bfsLoop_turns fuel _ _ rfl hsearch
  have hv0 : Viable S (bfsInit T).priorityQueue := by
    obtain ⟨sub, h1, h2⟩ := hsub
    rw [bfsInit_queue]
    exact ⟨⟨0, ⟨0, T⟩⟩, by simp, sub, by simpa using h1, h2⟩
  rcases bfsLoop_end fuel _ _ hsearch rfl with hf | hq
  · exact hf
  · rcases turns_viable hS hT hturns hv0 with hf | ⟨p, hp, -⟩
    · exact hf
    · rw [hq] at hp; simp at hp

/-- What an accepted state stands for: a sub-sequence of `S` without its last
element, whose `int64` sum is `T`. -/
theorem found_sublist_dropLast {S : List Int} (hne : S ≠ []) {T : Int}
    {c : List (Nat × ItemPtr)} {p : ItemPtr} {l : List Int} (h : Reach S T c p l) :
    l.reverse.Sublist S.dropLast := by
  obtain ⟨-, -, hlt, -⟩ := h.index_bounds
  have hlt := hlt hne
  have h1 := h.sublist.2
  rw [List.dropLast_eq_take]
  have h0 := h.sublist.1
  have hle : p.item.I.toNat ≤ S.length - 1 := by omega
  have : (S.take p.item.I.toNat).Sublist (S.take (S.length - 1)) := by
    have := List.take_sublist p.item.I.toNat (S.take (S.length - 1))
    rw [List.take_take, Nat.min_eq_left hle] at this
    exact this
  exact h1.trans this

/-- The search on `S = [2^63-1, 2^63-1, 0]` and `T = -2`, where the first
subtraction wraps around. -/
theorem bfsSearch_wrap_example (fuel : Nat) :
    bfsSearch (fuel + 4) [9223372036854775807, 9223372036854775807, 0] (-2)
      = .ok { priorityQueue := [],
              childOf := [(4, ⟨2, ⟨1, 9223372036854775807⟩⟩),
                (3, ⟨2, ⟨1, 9223372036854775807⟩⟩), (2, ⟨0, ⟨0, -2⟩⟩)],
              found := some ⟨4, ⟨2, 0⟩⟩, nextAddr := 7, reads := [2, 1, 0] } := by
  have h1 : bfsBody [9223372036854775807, 9223372036854775807, 0] (bfsInit (-2))
      = .ok { priorityQueue := [⟨2, ⟨1, 9223372036854775807⟩⟩],
              childOf := [(2, ⟨0, ⟨0, -2⟩⟩)], found := none, nextAddr := 3,
              reads := [0] } := rfl
  have h2 : bfsBody [9223372036854775807, 9223372036854775807, 0]
      { priorityQueue := [⟨2, ⟨1, 9223372036854775807⟩⟩],
        childOf := [(2, ⟨0, ⟨0, -2⟩⟩)], found := none, nextAddr := 3, reads := [0] }
      = .ok { priorityQueue := [⟨3, ⟨2, 9223372036854775807⟩⟩, ⟨4, ⟨2, 0⟩⟩],
              childOf := [(4, ⟨2, ⟨1, 9223372036854775807⟩⟩),
                (3, ⟨2, ⟨1, 9223372036854775807⟩⟩), (2, ⟨0, ⟨0, -2⟩⟩)],
              found := none, nextAddr := 5, reads := [1, 0] } := rfl
  have h3 : bfsBody [9223372036854775807, 9223372036854775807, 0]
      { priorityQueue := [⟨3, ⟨2, 9223372036854775807⟩⟩, ⟨4, ⟨2, 0⟩⟩],
        childOf := [(4, ⟨2, ⟨1, 9223372036854775807⟩⟩),
          (3, ⟨2, ⟨1, 9223372036854775807⟩⟩), (2, ⟨0, ⟨0, -2⟩⟩)],
        found := none, nextAddr := 5, reads := [1, 0] }
      = .ok { priorityQueue := [⟨4, ⟨2, 0⟩⟩],
              childOf := [(4, ⟨2, ⟨1, 9223372036854775807⟩⟩),
                (3, ⟨2, ⟨1, 9223372036854775807⟩⟩), (2, ⟨0, ⟨0, -2⟩⟩)],
              found := none, nextAddr := 7, reads := [2, 1, 0] } := rfl
  have h4 : bfsBody [9223372036854775807, 9223372036854775807, 0]
      { priorityQueue := [⟨4, ⟨2, 0⟩⟩],
        childOf := [(4, ⟨2, ⟨1, 9223372036854775807⟩⟩),
          (3, ⟨2, ⟨1, 9223372036854775807⟩⟩), (2, ⟨0, ⟨0, -2⟩⟩)],
        found := none, nextAddr := 7, reads := [2, 1, 0] }
      = .ok { priorityQueue := [],
              childOf := [(4, ⟨2, ⟨1, 9223372036854775807⟩⟩),
                (3, ⟨2, ⟨1, 9223372036854775807⟩⟩), (2, ⟨0, ⟨0, -2⟩⟩)],
              found := some ⟨4, ⟨2, 0⟩⟩, nextAddr := 7, reads := [2, 1, 0] } := rfl
  have hq0 : 0 < (bfsInit (-2)).priorityQueue.length := by
    rw [bfsInit_queue]; decide
  unfold bfsSearch
  rw [show fuel + 4 = (fuel + 3) + 1 from rfl, bfsLoop_continue hq0 h1 rfl,
    show fuel + 3 = (fuel + 2) + 1 from rfl, bfsLoop_continue (by decide) h2 rfl,
    show fuel + 2 = (fuel + 1) + 1 from rfl, bfsLoop_continue (by decide) h3 rfl,
    bfsLoop_break (by decide) h4 rfl]

/-- The search on `S = [3, 5, 7]` and `T = 8`: five turns, six states brought into
the queue after the root, and the state `(2, 0)` accepted. -/
theorem bfsSearch_example (fuel : Nat) :
    bfsSearch (fuel + 5) [3, 5, 7] 8
      = .ok { priorityQueue := [⟨5, ⟨2, 5⟩⟩, ⟨3, ⟨2, 8⟩⟩],
              childOf := [(6, ⟨2, ⟨1, 5⟩⟩), (5, ⟨2, ⟨1, 5⟩⟩), (4, ⟨1, ⟨1, 8⟩⟩),
                (3, ⟨1, ⟨1, 8⟩⟩), (2, ⟨0, ⟨0, 8⟩⟩), (1, ⟨0, ⟨0, 8⟩⟩)],
              found := some ⟨6, ⟨2, 0⟩⟩, nextAddr := 9, reads := [2, 1, 1, 0] } := by
  have h1 : bfsBody [3, 5, 7] (bfsInit 8)
      = .ok { priorityQueue := [⟨1, ⟨1, 8⟩⟩, ⟨2, ⟨1, 5⟩⟩],
              childOf := [(2, ⟨0, ⟨0, 8⟩⟩), (1, ⟨0, ⟨0, 8⟩⟩)], found := none,
              nextAddr := 3, reads := [0] } := rfl
  have h2 : bfsBody [3, 5, 7]
      { priorityQueue := [⟨1, ⟨1, 8⟩⟩, ⟨2, ⟨1, 5⟩⟩],
        childOf := [(2, ⟨0, ⟨0, 8⟩⟩), (1, ⟨0, ⟨0, 8⟩⟩)], found := none,
        nextAddr := 3, reads := [0] }
      = .ok { priorityQueue := [⟨2, ⟨1, 5⟩⟩, ⟨3, ⟨2, 8⟩⟩, ⟨4, ⟨2, 3⟩⟩],
              childOf := [(4, ⟨1, ⟨1, 8⟩⟩), (3, ⟨1, ⟨1, 8⟩⟩), (2, ⟨0, ⟨0, 8⟩⟩),
                (1, ⟨0, ⟨0, 8⟩⟩)],
              found := none, nextAddr := 5, reads := [1, 0] } := rfl
  have h3 : bfsBody [3, 5, 7]
      { priorityQueue := [⟨2, ⟨1, 5⟩⟩, ⟨3, ⟨2, 8⟩⟩, ⟨4, ⟨2, 3⟩⟩],
        childOf := [(4, ⟨1, ⟨1, 8⟩⟩), (3, ⟨1, ⟨1, 8⟩⟩), (2, ⟨0, ⟨0, 8⟩⟩),
          (1, ⟨0, ⟨0, 8⟩⟩)],
        found := none, nextAddr := 5, reads := [1, 0] }
      = .ok { priorityQueue := [⟨4, ⟨2, 3⟩⟩, ⟨3, ⟨2, 8⟩⟩, ⟨5, ⟨2, 5⟩⟩, ⟨6, ⟨2, 0⟩⟩],
              childOf := [(6, ⟨2, ⟨1, 5⟩⟩), (5, ⟨2, ⟨1, 5⟩⟩), (4, ⟨1, ⟨1, 8⟩⟩),
                (3, ⟨1, ⟨1, 8⟩⟩), (2, ⟨0, ⟨0, 8⟩⟩), (1, ⟨0, ⟨0, 8⟩⟩)],
              found := none, nextAddr := 7, reads := [1, 1, 0] } := rfl
  have h4 : bfsBody [3, 5, 7]
      { priorityQueue := [⟨4, ⟨2, 3⟩⟩, ⟨3, ⟨2, 8⟩⟩, ⟨5, ⟨2, 5⟩⟩, ⟨6, ⟨2, 0⟩⟩],
        childOf := [(6, ⟨2, ⟨1, 5⟩⟩), (5, ⟨2, ⟨1, 5⟩⟩), (4, ⟨1, ⟨1, 8⟩⟩),
          (3, ⟨1, ⟨1, 8⟩⟩), (2, ⟨0, ⟨0, 8⟩⟩), (1, ⟨0, ⟨0, 8⟩⟩)],
        found := none, nextAddr := 7, reads := [1, 1, 0] }
      = .ok { priorityQueue := [⟨6, ⟨2, 0⟩⟩, ⟨3, ⟨2, 8⟩⟩, ⟨5, ⟨2, 5⟩⟩],
              childOf := [(6, ⟨2, ⟨1, 5⟩⟩), (5, ⟨2, ⟨1, 5⟩⟩), (4, ⟨1, ⟨1, 8⟩⟩),
                (3, ⟨1, ⟨1, 8⟩⟩), (2, ⟨0, ⟨0, 8⟩⟩), (1, ⟨0, ⟨0, 8⟩⟩)],
              found := none, nextAddr := 9, reads := [2, 1, 1, 0] } := rfl
  have h5 : bfsBody [3, 5, 7]
      { priorityQueue := [⟨6, ⟨2, 0⟩⟩, ⟨3, ⟨2, 8⟩⟩, ⟨5, ⟨2, 5⟩⟩],
        childOf := [(6, ⟨2, ⟨1, 5⟩⟩), (5, ⟨2, ⟨1, 5⟩⟩), (4, ⟨1, ⟨1, 8⟩⟩),
          (3, ⟨1, ⟨1, 8⟩⟩), (2, ⟨0, ⟨0, 8⟩⟩), (1, ⟨0, ⟨0, 8⟩⟩)],
        found := none, nextAddr := 9, reads := [2, 1, 1, 0] }
      = .ok { priorityQueue := [⟨5, ⟨2, 5⟩⟩, ⟨3, ⟨2, 8⟩⟩],
              childOf := [(6, ⟨2, ⟨1, 5⟩⟩), (5, ⟨2, ⟨1, 5⟩⟩), (4, ⟨1, ⟨1, 8⟩⟩),
                (3, ⟨1, ⟨1, 8⟩⟩), (2, ⟨0, ⟨0, 8⟩⟩), (1, ⟨0, ⟨0, 8⟩⟩)],
              found := some ⟨6, ⟨2, 0⟩⟩, nextAddr := 9, reads := [2, 1, 1, 0] } := rfl
  have hq0 : 0 < (bfsInit 8).priorityQueue.length := by
    rw [bfsInit_queue]; decide
  unfold bfsSearch
  rw [show fuel + 5 = (fuel + 4) + 1 from rfl, bfsLoop_continue hq0 h1 rfl,
    show fuel + 4 = (fuel + 3) + 1 from rfl, bfsLoop_continue (by decide) h2 rfl,
    show fuel + 3 = (fuel + 2) + 1 from rfl, bfsLoop_continue (by decide) h3 rfl,
    show fuel + 2 = (fuel + 1) + 1 from rfl, bfsLoop_continue (by decide) h4 rfl,
    bfsLoop_break (by decide) h5 rfl]

/-- The output of `BfsHeuristic` on `S = [3, 5, 7]` and `T = 8`: the walk from the
accepted state `(2, 0)` takes two steps and yields `[5, 3]`. -/
theorem bfsHeuristic_example (fuel : Nat) :
    BfsHeuristic (fuel + 5) [3, 5, 7] 8 = .ok (some [5, 3], [2, 1, 1, 0]) := by
  have hwalk : walkLoop (fuel + 5)
      [(6, ⟨2, ⟨1, 5⟩⟩), (5, ⟨2, ⟨1, 5⟩⟩), (4, ⟨1, ⟨1, 8⟩⟩), (3, ⟨1, ⟨1, 8⟩⟩),
        (2, ⟨0, ⟨0, 8⟩⟩), (1, ⟨0, ⟨0, 8⟩⟩)] 8 ⟨6, ⟨2, 0⟩⟩ []
      = .ok [5, 3] := rfl
  unfold BfsHeuristic
  rw [bfsSearch_example fuel]
  simp only [hwalk]

/-- The state of the search on `S = [3, 5, 7]` and `T = 8` after three turns. -/
theorem turns_example :
    Turns [3, 5, 7] (bfsInit 8)
      { priorityQueue := [⟨4, ⟨2, 3⟩⟩, ⟨3, ⟨2, 8⟩⟩, ⟨5, ⟨2, 5⟩⟩, ⟨6, ⟨2, 0⟩⟩],
        childOf := [(6, ⟨2, ⟨1, 5⟩⟩), (5, ⟨2, ⟨1, 5⟩⟩), (4, ⟨1, ⟨1, 8⟩⟩),
          (3, ⟨1, ⟨1, 8⟩⟩), (2, ⟨0, ⟨0, 8⟩⟩), (1, ⟨0, ⟨0, 8⟩⟩)],
        found := none, nextAddr := 7, reads := [1, 1, 0] } := by
  have h1 : bfsBody [3, 5, 7] (bfsInit 8)
      = .ok { priorityQueue := [⟨1, ⟨1, 8⟩⟩, ⟨2, ⟨1, 5⟩⟩],
              childOf := [(2, ⟨0, ⟨0, 8⟩⟩), (1, ⟨0, ⟨0, 8⟩⟩)], found := none,
              nextAddr := 3, reads := [0] } := rfl
  have h2 : bfsBody [3, 5, 7]
      { priorityQueue := [⟨1, ⟨1, 8⟩⟩, ⟨2, ⟨1, 5⟩⟩],
        childOf := [(2, ⟨0, ⟨0, 8⟩⟩), (1, ⟨0, ⟨0, 8⟩⟩)], found := none,
        nextAddr := 3, reads := [0] }
      = .ok { priorityQueue := [⟨2, ⟨1, 5⟩⟩, ⟨3, ⟨2, 8⟩⟩, ⟨4, ⟨2, 3⟩⟩],
              childOf := [(4, ⟨1, ⟨1, 8⟩⟩), (3, ⟨1, ⟨1, 8⟩⟩), (2, ⟨0, ⟨0, 8⟩⟩),
                (1, ⟨0, ⟨0, 8⟩⟩)],
              found := none, nextAddr := 5, reads := [1, 0] } := rfl
  have h3 : bfsBody [3, 5, 7]
      { priorityQueue := [⟨2, ⟨1, 5⟩⟩, ⟨3, ⟨2, 8⟩⟩, ⟨4, ⟨2, 3⟩⟩],
        childOf := [(4, ⟨1, ⟨1, 8⟩⟩), (3, ⟨1, ⟨1, 8⟩⟩), (2, ⟨0, ⟨0, 8⟩⟩),
          (1, ⟨0, ⟨0, 8⟩⟩)],
        found := none, nextAddr := 5, reads := [1, 0] }
      = .ok { priorityQueue := [⟨4, ⟨2, 3⟩⟩, ⟨3, ⟨2, 8⟩⟩, ⟨5, ⟨2, 5⟩⟩, ⟨6, ⟨2, 0⟩⟩],
              childOf := [(6, ⟨2, ⟨1, 5⟩⟩), (5, ⟨2, ⟨1, 5⟩⟩), (4, ⟨1, ⟨1, 8⟩⟩),
                (3, ⟨1, ⟨1, 8⟩⟩), (2, ⟨0, ⟨0, 8⟩⟩), (1, ⟨0, ⟨0, 8⟩⟩)],
              found := none, nextAddr := 7, reads := [1, 1, 0] } := rfl
  have hq0 : 0 < (bfsInit 8).priorityQueue.length := by
    rw [bfsInit_queue]; decide
  have t1 := Turns.turn (Turns.refl (bfsInit 8)) hq0 rfl h1
  have t2 := Turns.turn t1 (by decide) rfl h2
  exact Turns.turn t2 (by decide) rfl h3

/-! ## The search solver: its frontier and its parent map -/

/-- C11, the code at the failing input `S = [1, 1, 1]`, `T = 5`: after three turns
the queue holds two states `(2, 4)`, at the addresses 4 and 5, and the parent map
has an entry for each, with the parents `(1, 5)` and `(1, 4)`: the test on
`childOf[&with]` looks up a fresh address and never suppresses a successor. -/
theorem bfs_keeps_duplicate_states :
    ∃ st, Turns [1, 1, 1] (bfsInit 5) st ∧
      (⟨4, ⟨2, 4⟩⟩ : ItemPtr) ∈ st.priorityQueue ∧ (⟨5, ⟨2, 4⟩⟩ : ItemPtr) ∈ st.priorityQueue ∧
      mapGet st.childOf 4 = some ⟨1, ⟨1, 5⟩⟩ ∧ mapGet st.childOf 5 = some ⟨2, ⟨1, 4⟩⟩ := by
  have h1 : bfsBody [1, 1, 1] (bfsInit 5)
      = .ok { priorityQueue := [⟨1, ⟨1, 5⟩⟩, ⟨2, ⟨1, 4⟩⟩],
              childOf := [(2, ⟨0, ⟨0, 5⟩⟩), (1, ⟨0, ⟨0, 5⟩⟩)], found := none,
              nextAddr := 3, reads := [0] } := rfl
  have h2 : bfsBody [1, 1, 1]
      { priorityQueue := [⟨1, ⟨1, 5⟩⟩, ⟨2, ⟨1, 4⟩⟩],
        childOf := [(2, ⟨0, ⟨0, 5⟩⟩), (1, ⟨0, ⟨0, 5⟩⟩)], found := none,
        nextAddr := 3, reads := [0] }
      = .ok { priorityQueue := [⟨2, ⟨1, 4⟩⟩, ⟨3, ⟨2, 5⟩⟩, ⟨4, ⟨2, 4⟩⟩],
              childOf := [(4, ⟨1, ⟨1, 5⟩⟩), (3, ⟨1, ⟨1, 5⟩⟩), (2, ⟨0, ⟨0, 5⟩⟩),
                (1, ⟨0, ⟨0, 5⟩⟩)],
              found := none, nextAddr := 5, reads := [1, 0] } := rfl
  have h3 : bfsBody [1, 1, 1]
      { priorityQueue := [⟨2, ⟨1, 4⟩⟩, ⟨3, ⟨2, 5⟩⟩, ⟨4, ⟨2, 4⟩⟩],
        childOf := [(4, ⟨1, ⟨1, 5⟩⟩), (3, ⟨1, ⟨1, 5⟩⟩), (2, ⟨0, ⟨0, 5⟩⟩),
          (1, ⟨0, ⟨0, 5⟩⟩)],
        found := none, nextAddr := 5, reads := [1, 0] }
      = .ok { priorityQueue := [⟨4, ⟨2, 4⟩⟩, ⟨3, ⟨2, 5⟩⟩, ⟨5, ⟨2, 4⟩⟩, ⟨6, ⟨2, 3⟩⟩],
              childOf := [(6, ⟨2, ⟨1, 4⟩⟩), (5, ⟨2, ⟨1, 4⟩⟩), (4, ⟨1, ⟨1, 5⟩⟩),
                (3, ⟨1, ⟨1, 5⟩⟩), (2, ⟨0, ⟨0, 5⟩⟩), (1, ⟨0, ⟨0, 5⟩⟩)],
              found := none, nextAddr := 7, reads := [1, 1, 0] } := rfl
  have hq0 : 0 < (bfsInit 5).priorityQueue.length := by
    rw [bfsInit_queue]; decide
  have t1 := Turns.turn (Turns.refl (bfsInit 5)) hq0 rfl h1
  have t2 := Turns.turn t1 (by decide) rfl h2
  have t3 := Turns.turn t2 (by decide) rfl h3
  exact ⟨_, t3, by decide, by decide, rfl, rfl⟩

/-- C12: for every sequence `S` and every target `T ≥ 0`, every state in the queue
of `BfsHeuristic` at any turn of its loop has `0 ≤ index ≤ len(S)` and
`remaining ≥ 0`; a candidate that fails the guard, in particular one with a
negative remaining value, is not admitted. -/
theorem bfs_frontier_bounds (S : List Int) (T : Int) (st : BfsState) (hT : 0 ≤ T)
    (h : Turns S (bfsInit T) st) :
    (∀ p ∈ st.priorityQueue, 0 ≤ p.item.I ∧ p.item.I ≤ S.length ∧ 0 ≤ p.item.J) ∧
    (∀ (s : BfsState) (n : Int) (cand curr : ItemPtr),
      ¬ (cand.item.I < n ∧ 0 ≤ cand.item.J) → pushCandidate s n cand curr = s) := by
  obtain ⟨⟨k, hinv⟩, -⟩ := bfsInit_turns_inv h
  constructor
  · intro p hp
    obtain ⟨-, -, l, hreach⟩ := hinv.1 p hp
    obtain ⟨a1, a2, -, a4⟩ := hreach.index_bounds
    exact ⟨a1, a2, a4 hT⟩
  · intro s n cand curr hg
    unfold pushCandidate
    rw [if_neg hg]

/-- Instance of C12 at `S = [1, 1]`, `T = 1`, after the first turn. -/
theorem bfs_frontier_bounds_witness :
    ((0 : Int) ≤ 1 ∧
      Turns [1, 1] (bfsInit 1)
        { priorityQueue := [⟨1, ⟨1, 1⟩⟩, ⟨2, ⟨1, 0⟩⟩],
          childOf := [(2, ⟨0, ⟨0, 1⟩⟩), (1, ⟨0, ⟨0, 1⟩⟩)], found := none,
          nextAddr := 3, reads := [0] }) ∧
    ((∀ p ∈ ([⟨1, ⟨1, 1⟩⟩, ⟨2, ⟨1, 0⟩⟩] : PriorityQueue),
        0 ≤ p.item.I ∧ p.item.I ≤ (([1, 1] : List Int).length : Int) ∧ 0 ≤ p.item.J) ∧
     (∀ (s : BfsState) (n : Int) (cand curr : ItemPtr),
        ¬ (cand.item.I < n ∧ 0 ≤ cand.item.J) → pushCandidate s n cand curr = s)) :=
  have ht : Turns [1, 1] (bfsInit 1)
      { priorityQueue := [⟨1, ⟨1, 1⟩⟩, ⟨2, ⟨1, 0⟩⟩],
        childOf := [(2, ⟨0, ⟨0, 1⟩⟩), (1, ⟨0, ⟨0, 1⟩⟩)], found := none,
        nextAddr := 3, reads := [0] } :=
    Turns.turn (Turns.refl (bfsInit 1)) (by rw [bfsInit_queue]; decide) rfl rfl
  ⟨⟨by decide, ht⟩, bfs_frontier_bounds [1, 1] 1 _ (by decide) ht⟩

/-- C14, as amended: in `BfsHeuristic` the parent map is a tree over the items
admitted to the queue (its keys are the addresses of the items), rooted at the item
`(0, T)`: the root has no entry; every other item `p` that was ever in the queue has
one entry, its parent `q`, whose index is that of `p` minus 1; the remaining value of
`p` is that of `q`, or the `int64` difference of that of `q` and `S[q.I]`, which is
the exact difference when the values are `int64` and `T ≥ 0` or the remaining value
of `q` is not negative; following the parents from `p` reaches the root after
exactly `p.I` steps, and not before. -/
theorem parent_map_is_tree (S : List Int) (T : Int) (st0 st : BfsState) (p : ItemPtr)
    (h0 : Turns S (bfsInit T) st0) (hp : p ∈ st0.priorityQueue) (h : Turns S st0 st) :
    mapGet st.childOf 0 = none ∧
    (p = ⟨0, ⟨0, T⟩⟩ ∨
      ∃ q, mapGet st.childOf p.addr = some q ∧ 0 < p.addr ∧ q.item.I = p.item.I - 1 ∧
        (p.item.J = q.item.J ∨
          ∃ x, S[q.item.I.toNat]? = some x ∧ 0 ≤ q.item.I ∧
            p.item.J = wrap64 (q.item.J - x) ∧
            (IsInt64 T → IsInt64 x → 0 ≤ T ∨ 0 ≤ q.item.J →
              p.item.J = q.item.J - x))) ∧
    0 ≤ p.item.I ∧
    ancestor st.childOf p.item.I.toNat p = some ⟨0, ⟨0, T⟩⟩ ∧
    (∀ j r, j < p.item.I.toNat → ancestor st.childOf j p = some r →
      r ≠ ⟨0, ⟨0, T⟩⟩ ∧ r.item.I = p.item.I - j) := by
  obtain ⟨⟨k, hinv0⟩, hN0⟩ := bfsInit_turns_inv h0
  obtain ⟨-, -, hext⟩ := turns_queueInv h hinv0 hN0
  obtain ⟨⟨k', hinv⟩, -⟩ := bfsInit_turns_inv (h0.trans h)
  have hroot := hinv.no_root_parent
  obtain ⟨-, -, l, hreach0⟩ := hinv0.1 p hp
  have hreach : Reach S T st.childOf p l := hreach0.mono hext hroot
  have hI0 := hreach.sublist.1
  refine ⟨hroot, ?_, hI0, ?_, ?_⟩
  · rcases hreach.parent with ⟨rfl, -⟩ | ⟨q, l', inc, hget, hsucc, hq⟩
    · exact Or.inl rfl
    · right
      obtain ⟨hq0, hI, -, hJ0, hinc⟩ := hsucc
      have hpa : 0 < p.addr := (hinv.2 _ _ hget).1
      refine ⟨q, hget, hpa, by omega, ?_⟩
      cases inc with
      | none => exact Or.inl hinc
      | some x =>
        obtain ⟨hx, hJ⟩ := hinc
        refine Or.inr ⟨x, hx, hq0, hJ, ?_⟩
        intro hT hxi hor
        have hqJ : 0 ≤ q.item.J := by
          rcases hor with h | h
          · exact hq.index_bounds.2.2.2 h
          · exact h
        have hqi := hq.isInt64 hT
        rw [hJ] at hJ0 ⊢
        unfold IsInt64 at hxi hqi
        unfold wrap64 at hJ0 ⊢
        omega
  · obtain ⟨r, l', ha, hr, hrr⟩ :=
      Reach.ancestor p.item.I.toNat p l hreach (by omega)
    rcases hrr.root_or_queued with ⟨rfl, -⟩ | ⟨-, -, hpos⟩
    · exact ha
    · omega
  · intro j r hj ha
    obtain ⟨r', l', ha', hr, hrr⟩ := Reach.ancestor j p l hreach (by omega)
    rw [ha] at ha'
    simp only [Option.some.injEq] at ha'
    subst ha'
    refine ⟨?_, hr⟩
    intro heq
    rw [heq] at hr
    simp only [] at hr
    omega

/-- Instance of the amended C14 at `S = [3, 5, 7]`, `T = 8`, after three turns: the
queued item `(2, 0)` at address 6 has the parent `(1, 5)` at address 2, of index one
less, with `0 = 5 - S[1]`; its second ancestor is the root `(0, 8)` and its first one
is not. -/
theorem parent_map_is_tree_witness :
    (Turns [3, 5, 7] (bfsInit 8)
        { priorityQueue := [⟨4, ⟨2, 3⟩⟩, ⟨3, ⟨2, 8⟩⟩, ⟨5, ⟨2, 5⟩⟩, ⟨6, ⟨2, 0⟩⟩],
          childOf := [(6, ⟨2, ⟨1, 5⟩⟩), (5, ⟨2, ⟨1, 5⟩⟩), (4, ⟨1, ⟨1, 8⟩⟩),
            (3, ⟨1, ⟨1, 8⟩⟩), (2, ⟨0, ⟨0, 8⟩⟩), (1, ⟨0, ⟨0, 8⟩⟩)],
          found := none, nextAddr := 7, reads := [1, 1, 0] } ∧
      (⟨6, ⟨2, 0⟩⟩ : ItemPtr) ∈
        ([⟨4, ⟨2, 3⟩⟩, ⟨3, ⟨2, 8⟩⟩, ⟨5, ⟨2, 5⟩⟩, ⟨6, ⟨2, 0⟩⟩] : PriorityQueue)) ∧
    (mapGet [(6, (⟨2, ⟨1, 5⟩⟩ : ItemPtr)), (5, ⟨2, ⟨1, 5⟩⟩), (4, ⟨1, ⟨1, 8⟩⟩),
        (3, ⟨1, ⟨1, 8⟩⟩), (2, ⟨0, ⟨0, 8⟩⟩), (1, ⟨0, ⟨0, 8⟩⟩)] 0 = none ∧
      ancestor [(6, (⟨2, ⟨1, 5⟩⟩ : ItemPtr)), (5, ⟨2, ⟨1, 5⟩⟩), (4, ⟨1, ⟨1, 8⟩⟩),
        (3, ⟨1, ⟨1, 8⟩⟩), (2, ⟨0, ⟨0, 8⟩⟩), (1, ⟨0, ⟨0, 8⟩⟩)] 2 ⟨6, ⟨2, 0⟩⟩
        = some ⟨0, ⟨0, 8⟩⟩) ∧
    mapGet [(6, (⟨2, ⟨1, 5⟩⟩ : ItemPtr)), (5, ⟨2, ⟨1, 5⟩⟩), (4, ⟨1, ⟨1, 8⟩⟩),
        (3, ⟨1, ⟨1, 8⟩⟩), (2, ⟨0, ⟨0, 8⟩⟩), (1, ⟨0, ⟨0, 8⟩⟩)] 6 = some ⟨2, ⟨1, 5⟩⟩ ∧
    ([3, 5, 7] : List Int)[1]? = some 5 ∧ (0 : Int) = 5 - 5 ∧
    ancestor [(6, (⟨2, ⟨1, 5⟩⟩ : ItemPtr)), (5, ⟨2, ⟨1, 5⟩⟩), (4, ⟨1, ⟨1, 8⟩⟩),
        (3, ⟨1, ⟨1, 8⟩⟩), (2, ⟨0, ⟨0, 8⟩⟩), (1, ⟨0, ⟨0, 8⟩⟩)] 1 ⟨6, ⟨2, 0⟩⟩
      = some ⟨2, ⟨1, 5⟩⟩ :=
  have h := parent_map_is_tree [3, 5, 7] 8 _ _ ⟨6, ⟨2, 0⟩⟩ turns_example (by decide)
    (Turns.refl _)
  ⟨⟨turns_example, by decide⟩, ⟨h.1, h.2.2.2.1⟩, rfl, rfl, by decide, rfl⟩

/-- C14 as stated fails.  On `S = [2^63-1, 2^63-1, 0]`, `T = -2` the first turn
queues the item `(1, 2^63-1)` with the root `(0, -2)` as its parent: its remaining
value is neither `-2` nor `-2 - S[0]`.  On `S = [1, 1, 1]`, `T = 5` the third turn
leaves two queued items for the state `(2, 4)`, recorded with the different parents
`(1, 5)` and `(1, 4)`. -/
theorem parent_map_not_exact_nor_by_value :
    (Turns [9223372036854775807, 9223372036854775807, 0] (bfsInit (-2))
        { priorityQueue := [⟨2, ⟨1, 9223372036854775807⟩⟩],
          childOf := [(2, ⟨0, ⟨0, -2⟩⟩)], found := none, nextAddr := 3, reads := [0] } ∧
      mapGet [(2, (⟨0, ⟨0, -2⟩⟩ : ItemPtr))] 2 = some ⟨0, ⟨0, -2⟩⟩ ∧
      ([9223372036854775807, 9223372036854775807, 0] : List Int)[0]?
        = some 9223372036854775807 ∧
      (9223372036854775807 : Int) ≠ -2 ∧
      (9223372036854775807 : Int) ≠ -2 - 9223372036854775807) ∧
    (∃ st, Turns [1, 1, 1] (bfsInit 5) st ∧
      (⟨4, ⟨2, 4⟩⟩ : ItemPtr) ∈ st.priorityQueue ∧ (⟨5, ⟨2, 4⟩⟩ : ItemPtr) ∈ st.priorityQueue ∧
      mapGet st.childOf 4 = some ⟨1, ⟨1, 5⟩⟩ ∧ mapGet st.childOf 5 = some ⟨2, ⟨1, 4⟩⟩ ∧
      (⟨1, ⟨1, 5⟩⟩ : ItemPtr).item ≠ (⟨2, ⟨1, 4⟩⟩ : ItemPtr).item) := by
  constructor
  · refine ⟨?_, rfl, rfl, by decide, by decide⟩
    exact Turns.turn (Turns.refl _) (by rw [bfsInit_queue]; decide) rfl rfl
  · have h1 : bfsBody [1, 1, 1] (bfsInit 5)
        = .ok { priorityQueue := [⟨1, ⟨1, 5⟩⟩, ⟨2, ⟨1, 4⟩⟩],
                childOf := [(2, ⟨0, ⟨0, 5⟩⟩), (1, ⟨0, ⟨0, 5⟩⟩)], found := none,
                nextAddr := 3, reads := [0] } := rfl
    have h2 : bfsBody [1, 1, 1]
        { priorityQueue := [⟨1, ⟨1, 5⟩⟩, ⟨2, ⟨1, 4⟩⟩],
          childOf := [(2, ⟨0, ⟨0, 5⟩⟩), (1, ⟨0, ⟨0, 5⟩⟩)], found := none,
          nextAddr := 3, reads := [0] }
        = .ok { priorityQueue := [⟨2, ⟨1, 4⟩⟩, ⟨3, ⟨2, 5⟩⟩, ⟨4, ⟨2, 4⟩⟩],
                childOf := [(4, ⟨1, ⟨1, 5⟩⟩), (3, ⟨1, ⟨1, 5⟩⟩), (2, ⟨0, ⟨0, 5⟩⟩),
                  (1, ⟨0, ⟨0, 5⟩⟩)],
                found := none, nextAddr := 5, reads := [1, 0] } := rfl
    have h3 : bfsBody [1, 1, 1]
        { priorityQueue := [⟨2, ⟨1, 4⟩⟩, ⟨3, ⟨2, 5⟩⟩, ⟨4, ⟨2, 4⟩⟩],
          childOf := [(4, ⟨1, ⟨1, 5⟩⟩), (3, ⟨1, ⟨1, 5⟩⟩), (2, ⟨0, ⟨0, 5⟩⟩),
            (1, ⟨0, ⟨0, 5⟩⟩)],
          found := none, nextAddr := 5, reads := [1, 0] }
        = .ok { priorityQueue := [⟨4, ⟨2, 4⟩⟩, ⟨3, ⟨2, 5⟩⟩, ⟨5, ⟨2, 4⟩⟩, ⟨6, ⟨2, 3⟩⟩],
                childOf := [(6, ⟨2, ⟨1, 4⟩⟩), (5, ⟨2, ⟨1, 4⟩⟩), (4, ⟨1, ⟨1, 5⟩⟩),
                  (3, ⟨1, ⟨1, 5⟩⟩), (2, ⟨0, ⟨0, 5⟩⟩), (1, ⟨0, ⟨0, 5⟩⟩)],
                found := none, nextAddr := 7, reads := [1, 1, 0] } := rfl
    have hq0 : 0 < (bfsInit 5).priorityQueue.length := by
      rw [bfsInit_queue]; decide
    have t1 := Turns.turn (Turns.refl (bfsInit 5)) hq0 rfl h1
    have t2 := Turns.turn t1 (by decide) rfl h2
    have t3 := Turns.turn t2 (by decide) rfl h3
    exact ⟨_, t3, by decide, by decide, rfl, rfl, by decide⟩

/-- C17: for every non-empty sequence `S` and every target `T`, at every turn of
the loop of `BfsHeuristic` the popped state has `0 ≤ curr.I < len(S)`, the read
`mktcap[curr.I]` succeeds, the turn ends without a fault, and every index in the
log of reads is within the slice. -/
theorem bfs_reads_in_bounds (S : List Int) (T : Int) (st : BfsState) (hS : S ≠ [])
    (h : Turns S (bfsInit T) st) :
    (∀ curr rest, heapPop st.priorityQueue = some (curr, rest) →
      0 ≤ curr.item.I ∧ curr.item.I < S.length ∧ ∃ x, index S curr.item.I = .ok x) ∧
    (0 < st.priorityQueue.length → ∃ st', bfsBody S st = .ok st') ∧
    (∀ i ∈ st.reads, 0 ≤ i ∧ i < S.length) := by
  obtain ⟨⟨k, hinv⟩, -⟩ := bfsInit_turns_inv h
  refine ⟨?_, fun hq => bfsBody_ok hS hinv hq, ?_⟩
  · intro curr rest hp
    obtain ⟨hmem, -⟩ := heapPop_mem hp
    obtain ⟨-, -, l, hreach⟩ := hinv.1 curr hmem
    obtain ⟨a0, -, a1, -⟩ := hreach.index_bounds
    obtain ⟨x, -, hix⟩ := index_eq_ok a0 (a1 hS)
    exact ⟨a0, a1 hS, x, hix⟩
  · exact turns_reads h (by simp [bfsInit])

/-- Instance of C17 at `S = [1, 1]`, `T = 1`, after the first turn. -/
theorem bfs_reads_in_bounds_witness :
    (([1, 1] : List Int) ≠ [] ∧
      Turns [1, 1] (bfsInit 1)
        { priorityQueue := [⟨1, ⟨1, 1⟩⟩, ⟨2, ⟨1, 0⟩⟩],
          childOf := [(2, ⟨0, ⟨0, 1⟩⟩), (1, ⟨0, ⟨0, 1⟩⟩)], found := none,
          nextAddr := 3, reads := [0] }) ∧
    ∀ i ∈ ([0] : List Int), 0 ≤ i ∧ i < (([1, 1] : List Int).length : Int) :=
  have ht : Turns [1, 1] (bfsInit 1)
      { priorityQueue := [⟨1, ⟨1, 1⟩⟩, ⟨2, ⟨1, 0⟩⟩],
        childOf := [(2, ⟨0, ⟨0, 1⟩⟩), (1, ⟨0, ⟨0, 1⟩⟩)], found := none,
        nextAddr := 3, reads := [0] } :=
    Turns.turn (Turns.refl (bfsInit 1)) (by rw [bfsInit_queue]; decide) rfl rfl
  ⟨⟨by decide, ht⟩, (bfs_reads_in_bounds [1, 1] 1 _ (by decide) ht).2.2⟩

/-! ## The memoised solver: its table -/

/-- C13: for a sequence `S` of non-negative `int64` values, a call
`SubsetSumDFS(dp, S, n, T)` with `n < len(S)` on a table whose entries are all true
to their meaning (the empty table to begin with, and then any table left by such
calls) returns and leaves a table in which every entry `dp[i][s]` equals the truth
of "some sub-sequence of the first `i + 1` elements of `S` sums exactly to `s`", and
in which every entry that was present before the call still has its value. -/
theorem memo_entries_sound_and_stable (S : List Int) (fuel : Nat) (st : DfsState)
    (n T : Int) (hS : NonNegSeq S) (hT : IsInt64 T) (hn : n < S.length)
    (hfuel : (n + 1).toNat < fuel)
    (hpre : ∀ i s v, dpLookup st.dp i s = some v →
      (v = true ↔ ∃ sub : List Int, sub.Sublist (S.take (i.toNat + 1)) ∧ sub.sum = s)) :
    ∃ b st', SubsetSumDFS fuel st S n T = .ok (b, st') ∧
      (∀ i s v, dpLookup st'.dp i s = some v →
        (v = true ↔ ∃ sub : List Int, sub.Sublist (S.take (i.toNat + 1)) ∧ sub.sum = s)) ∧
      (∀ i s v, dpLookup st.dp i s = some v → dpLookup st'.dp i s = some v) := by
  obtain ⟨⟨b, st'⟩, he⟩ := dfs_total S fuel st n T hn hfuel
  obtain ⟨h1, -, h3⟩ := dfs_tableSound hS fuel st n T b st' hpre hn hT.2 he
  exact ⟨b, st', he, h1, h3⟩

/-- Instance of C13 at `S = [1, 2, 3]`, `n = 2`, `T = 5`, on the empty table. -/
theorem memo_entries_sound_and_stable_witness :
    (NonNegSeq [1, 2, 3] ∧ IsInt64 5 ∧ (2 : Int) < ([1, 2, 3] : List Int).length ∧
      ((2 : Int) + 1).toNat < 4 ∧
      (∀ i s v, dpLookup ([] : DpTable) i s = some v →
        (v = true ↔
          ∃ sub : List Int, sub.Sublist (([1, 2, 3] : List Int).take (i.toNat + 1)) ∧
            sub.sum = s))) ∧
    ∃ b st', SubsetSumDFS 4 { dp := [], reads := [] } [1, 2, 3] 2 5 = .ok (b, st') ∧
      (∀ i s v, dpLookup st'.dp i s = some v →
        (v = true ↔
          ∃ sub : List Int, sub.Sublist (([1, 2, 3] : List Int).take (i.toNat + 1)) ∧
            sub.sum = s)) ∧
      (∀ i s v, dpLookup ([] : DpTable) i s = some v → dpLookup st'.dp i s = some v) :=
  ⟨⟨by decide, by decide, by decide, by decide, fun i s v h => by simp [dpLookup_nil] at h⟩,
    memo_entries_sound_and_stable [1, 2, 3] 4 { dp := [], reads := [] } 2 5 (by decide)
      (by decide) (by decide) (by decide) (fun i s v h => by simp [dpLookup_nil] at h)⟩

/-- C18, as amended: for a sequence `S` of non-negative `int64` values, an index
`n < len(S)` and an `int64` target `T`, after `SubsetSumDFS(dp, S, n, T)` started on
an empty table every key `(i, s)` stored in the table has `0 ≤ i ≤ n` and
`1 ≤ s ≤ T`, and the table holds at most `max(n + 1, 0) * max(T, 0)` entries: that is
`(n + 1) * T` when `n ≥ -1` and `T ≥ 0`. -/
theorem memo_keys_bounded (S : List Int) (fuel : Nat) (n T : Int) (b : Bool)
    (st : DfsState) (hS : NonNegSeq S) (hT : IsInt64 T) (hn : n < S.length)
    (hdfs : SubsetSumDFS fuel { dp := [], reads := [] } S n T = .ok (b, st)) :
    (∀ i s v, dpLookup st.dp i s = some v → 0 ≤ i ∧ i ≤ n ∧ 1 ≤ s ∧ s ≤ T) ∧
    dpSize st.dp ≤ (n + 1).toNat * T.toNat ∧
    (-1 ≤ n → 0 ≤ T → (dpSize st.dp : Int) ≤ (n + 1) * T) := by
  have hkeys : KeysWithin n T st.dp :=
    dfs_keysWithin hS fuel { dp := [], reads := [] } n T b st
      ⟨by simp, by simp⟩ (le_refl _) (le_refl _) hn hT.2 hdfs
  refine ⟨fun i s v hv => hkeys.lookup hv, hkeys.size_le, ?_⟩
  intro h1 h2
  have := hkeys.size_le
  have e1 : (((n + 1).toNat : Nat) : Int) = n + 1 := Int.toNat_of_nonneg (by omega)
  have e2 : ((T.toNat : Nat) : Int) = T := Int.toNat_of_nonneg h2
  calc (dpSize st.dp : Int) ≤ (((n + 1).toNat * T.toNat : Nat) : Int) := by exact_mod_cast this
    _ = (n + 1) * T := by rw [Nat.cast_mul, e1, e2]

/-- Instance of the amended C18 at `S = [10]`, `n = 0`, `T = 10`. -/
theorem memo_keys_bounded_witness :
    (NonNegSeq [10] ∧ IsInt64 10 ∧ (0 : Int) < ([10] : List Int).length ∧
      SubsetSumDFS 2 { dp := [], reads := [] } [10] 0 10
        = .ok (true, { dp := [(0, [(10, true)])], reads := [0] })) ∧
    ((∀ i s v, dpLookup [(0, [(10, true)])] i s = some v →
        0 ≤ i ∧ i ≤ 0 ∧ 1 ≤ s ∧ s ≤ 10) ∧
      dpSize [(0, [(10, true)])] ≤ ((0 : Int) + 1).toNat * (10 : Int).toNat ∧
      ((-1 : Int) ≤ 0 → (0 : Int) ≤ 10 →
        (dpSize [(0, [(10, true)])] : Int) ≤ (0 + 1) * 10)) :=
  ⟨⟨by decide, by decide, by decide, rfl⟩,
    memo_keys_bounded [10] 2 0 10 true { dp := [(0, [(10, true)])], reads := [0] }
      (by decide) (by decide) (by decide) rfl⟩

/-- C18 as stated fails: on `S = [1]`, `n = 0` and `T = -1` the call returns `false`
at once and the table stays empty, while `(n + 1) * T = -1`. -/
theorem memo_size_bound_fails_on_negative_target :
    NonNegSeq [1] ∧ IsInt64 (-1) ∧ (0 : Int) < ([1] : List Int).length ∧
    SubsetSumDFS 1 { dp := [], reads := [] } [1] 0 (-1)
      = .ok (false, { dp := [], reads := [] }) ∧
    ¬ ((dpSize ([] : DpTable) : Int) ≤ ((0 : Int) + 1) * (-1)) :=
  ⟨by decide, by decide, by decide, rfl, by decide⟩

/-! ## The search solver: termination -/

/-- C16: for every non-empty sequence `S` and every target `T`, with `2^len(S) - 1`
turns or more at its disposal the search loop of `BfsHeuristic` ends without a
fault, and so does the walk over the parents, which stops on a remaining value equal
to `T` and never looks up the parent of the root, which has none.  At every state of
the loop: no address at or above `nextAddr` is a key of the parent map, so the
duplicate test never suppresses a successor; the states brought into the queue
(those popped and those still queued) are `2^len(S) - 1` at most, one more than the
entries of the parent map; every queued state but the root has a parent of index
one less and has an index below `len(S)`. -/
theorem bfs_terminates (S : List Int) (T : Int) (fuel : Nat) (hS : S ≠ [])
    (hfuel : 2 ^ S.length - 1 ≤ fuel) :
    (∃ st r, bfsSearch fuel S T = .ok st ∧ BfsHeuristic fuel S T = .ok (r, st.reads) ∧
      mapGet st.childOf 0 = none) ∧
    (∀ st, Turns S (bfsInit T) st →
      (∀ a, st.nextAddr ≤ a → mapGet st.childOf a = none) ∧
      popCount st + st.priorityQueue.length ≤ 2 ^ S.length - 1 ∧
      st.childOf.length + 1 = popCount st + st.priorityQueue.length ∧
      (∀ p ∈ st.priorityQueue, p = ⟨0, ⟨0, T⟩⟩ ∨
        ∃ q, mapGet st.childOf p.addr = some q ∧ p.item.I = q.item.I + 1 ∧
          p.item.I < S.length)) := by
  constructor
  · obtain ⟨st, hsearch⟩ := bfsSearch_total T hS hfuel
    have hturns : Turns S (bfsInit T) st := bfsLoop_turns fuel _ _ rfl hsearch
    obtain ⟨⟨k, hinv⟩, -⟩ := bfsInit_turns_inv hturns
    cases hf : st.found with
    | none =>
      refine ⟨st, none, hsearch, ?_, hinv.no_root_parent⟩
      unfold BfsHeuristic
      rw [hsearch]
      simp only [hf]
    | some p =>
      obtain ⟨-, hI, l, hreach⟩ :=
        bfsLoop_found fuel 0 (bfsInit T) st p (bfsInit_inv S T) (by simp [bfsInit]) rfl
          hsearch hf
      obtain ⟨res, hwalk⟩ := walkLoop_total hreach fuel [] (by omega)
      refine ⟨st, some res, hsearch, ?_, hinv.no_root_parent⟩
      unfold BfsHeuristic
      rw [hsearch]
      simp only [hf, hwalk]
  · intro st hturns
    obtain ⟨⟨k, hinv⟩, -⟩ := bfsInit_turns_inv hturns
    obtain ⟨m1, m2⟩ := turns_measure hS hturns
    have hlen := length_le_queueWeight S.length st.priorityQueue (by
      intro p hp
      obtain ⟨-, -, l, hreach⟩ := hinv.1 p hp
      obtain ⟨a0, -, a1, -⟩ := hreach.index_bounds
      have := a1 hS
      omega)
    refine ⟨hinv.fresh, by omega, m2, ?_⟩
    intro p hp
    obtain ⟨-, -, l, hreach⟩ := hinv.1 p hp
    rcases hreach.parent with ⟨rfl, -⟩ | ⟨q, l', inc, hget, hsucc, -⟩
    · exact Or.inl rfl
    · exact Or.inr ⟨q, hget, hsucc.2.1, hsucc.2.2.1⟩

/-- Instance of C16 at `S = [3, 5, 7]`, `T = 8`, with seven turns: the search ends
after five turns with six entries in the parent map, five states popped and two
still queued, seven states in all; the walk from the accepted state `(2, 0)` ends
after two steps with `[5, 3]`. -/
theorem bfs_terminates_witness :
    (([3, 5, 7] : List Int) ≠ [] ∧ 2 ^ ([3, 5, 7] : List Int).length - 1 ≤ 7) ∧
    ((∃ st r, bfsSearch 7 [3, 5, 7] 8 = .ok st ∧
        BfsHeuristic 7 [3, 5, 7] 8 = .ok (r, st.reads) ∧ mapGet st.childOf 0 = none) ∧
      (∀ st, Turns [3, 5, 7] (bfsInit 8) st →
        (∀ a, st.nextAddr ≤ a → mapGet st.childOf a = none) ∧
        popCount st + st.priorityQueue.length ≤ 2 ^ ([3, 5, 7] : List Int).length - 1 ∧
        st.childOf.length + 1 = popCount st + st.priorityQueue.length ∧
        (∀ p ∈ st.priorityQueue, p = ⟨0, ⟨0, 8⟩⟩ ∨
          ∃ q, mapGet st.childOf p.addr = some q ∧ p.item.I = q.item.I + 1 ∧
            p.item.I < (([3, 5, 7] : List Int).length : Int)))) ∧
    bfsSearch 7 [3, 5, 7] 8
      = .ok { priorityQueue := [⟨5, ⟨2, 5⟩⟩, ⟨3, ⟨2, 8⟩⟩],
              childOf := [(6, ⟨2, ⟨1, 5⟩⟩), (5, ⟨2, ⟨1, 5⟩⟩), (4, ⟨1, ⟨1, 8⟩⟩),
                (3, ⟨1, ⟨1, 8⟩⟩), (2, ⟨0, ⟨0, 8⟩⟩), (1, ⟨0, ⟨0, 8⟩⟩)],
              found := some ⟨6, ⟨2, 0⟩⟩, nextAddr := 9, reads := [2, 1, 1, 0] } ∧
    BfsHeuristic 7 [3, 5, 7] 8 = .ok (some [5, 3], [2, 1, 1, 0]) ∧
    popCount { priorityQueue := [⟨5, ⟨2, 5⟩⟩, ⟨3, ⟨2, 8⟩⟩],
               childOf := [(6, ⟨2, ⟨1, 5⟩⟩), (5, ⟨2, ⟨1, 5⟩⟩), (4, ⟨1, ⟨1, 8⟩⟩),
                 (3, ⟨1, ⟨1, 8⟩⟩), (2, ⟨0, ⟨0, 8⟩⟩), (1, ⟨0, ⟨0, 8⟩⟩)],
               found := some ⟨6, ⟨2, 0⟩⟩, nextAddr := 9, reads := [2, 1, 1, 0] } + 2 = 7 :=
  ⟨⟨by decide, by decide⟩, bfs_terminates [3, 5, 7] 8 7 (by decide) (by decide),
    bfsSearch_example 2, bfsHeuristic_example 2, by decide⟩

/-! ## The search solver: what it decides -/

/-- C15, as amended: for a non-empty sequence `S` of non-negative `int64` values and
an `int64` target `T`, the search of `BfsHeuristic` ends, and pops an accepting state
whenever some sub-sequence of `S` with its last element removed sums to `T`; for
`T ≥ 0` it pops one only then.  Whatever `T` is, a reported subset is made of
elements of `S[0..len(S)-2]` at distinct positions: the last element of `S` is never
part of it. -/
theorem bfs_accepts_iff_subset_without_last (S : List Int) (T : Int) (fuel : Nat)
    (hS : NonNegSeq S) (hne : S ≠ []) (hT : IsInt64 T) (hfuel : 2 ^ S.length - 1 ≤ fuel) :
    ∃ st, bfsSearch fuel S T = .ok st ∧
      ((∃ sub : List Int, sub.Sublist S.dropLast ∧ sub.sum = T) → st.found.isSome = true) ∧
      (0 ≤ T → st.found.isSome = true →
        ∃ sub : List Int, sub.Sublist S.dropLast ∧ sub.sum = T) ∧
      (∀ res reads, BfsHeuristic fuel S T = .ok (some res, reads) →
        res.reverse.Sublist S.dropLast) := by
  obtain ⟨st, hsearch⟩ := bfsSearch_total T hne hfuel
  have hfound : ∀ p, st.found = some p →
      p.item.J = 0 ∧ p.item.I + 1 ≤ (0 : Nat) + fuel ∧ ∃ l, Reach S T st.childOf p l :=
    fun p hp => bfsLoop_found fuel 0 (bfsInit T) st p (bfsInit_inv S T) (by simp [bfsInit])
      rfl hsearch hp
  refine ⟨st, hsearch, fun hsub => bfsSearch_complete hS hT hsearch hsub, ?_, ?_⟩
  · intro hT0 hsome
    obtain ⟨p, hp⟩ := Option.isSome_iff_exists.mp hsome
    obtain ⟨hJ, -, l, hreach⟩ := hfound p hp
    refine ⟨l.reverse, found_sublist_dropLast hne hreach, ?_⟩
    have := (hreach.exact_sum hS hT hT0).1
    rw [List.sum_reverse]
    omega
  · intro res reads hres
    unfold BfsHeuristic at hres
    rw [hsearch] at hres
    simp only [] at hres
    cases hf : st.found with
    | none => rw [hf] at hres; simp at hres
    | some p =>
      obtain ⟨-, hI, l, hreach⟩ := hfound p hf
      have hwalk := walkLoop_of_reach hS hT hreach fuel [] (by omega)
      rw [hf] at hres
      simp only [hwalk, List.nil_append, Except.ok.injEq, Prod.mk.injEq,
        Option.some.injEq] at hres
      rw [← hres.1]
      exact ((List.filter_sublist l).reverse).trans (found_sublist_dropLast hne hreach)

/-- Instance of the amended C15 at `S = [3, 5, 7]`, `T = 8`, with seven turns: the
sub-sequence `[3, 5]` of `S` without its last element sums to 8, the search accepts
the state `(2, 0)` at its fifth turn, and `BfsHeuristic` reports `[5, 3]`. -/
theorem bfs_accepts_iff_subset_without_last_witness :
    (NonNegSeq [3, 5, 7] ∧ ([3, 5, 7] : List Int) ≠ [] ∧ IsInt64 8 ∧
      2 ^ ([3, 5, 7] : List Int).length - 1 ≤ 7) ∧
    (∃ st, bfsSearch 7 [3, 5, 7] 8 = .ok st ∧
      ((∃ sub : List Int, sub.Sublist ([3, 5, 7] : List Int).dropLast ∧ sub.sum = 8) →
        st.found.isSome = true) ∧
      ((0 : Int) ≤ 8 → st.found.isSome = true →
        ∃ sub : List Int, sub.Sublist ([3, 5, 7] : List Int).dropLast ∧ sub.sum = 8) ∧
      (∀ res reads, BfsHeuristic 7 [3, 5, 7] 8 = .ok (some res, reads) →
        res.reverse.Sublist ([3, 5, 7] : List Int).dropLast)) ∧
    (∃ sub : List Int, sub.Sublist ([3, 5, 7] : List Int).dropLast ∧ sub.sum = 8) ∧
    bfsSearch 7 [3, 5, 7] 8
      = .ok { priorityQueue := [⟨5, ⟨2, 5⟩⟩, ⟨3, ⟨2, 8⟩⟩],
              childOf := [(6, ⟨2, ⟨1, 5⟩⟩), (5, ⟨2, ⟨1, 5⟩⟩), (4, ⟨1, ⟨1, 8⟩⟩),
                (3, ⟨1, ⟨1, 8⟩⟩), (2, ⟨0, ⟨0, 8⟩⟩), (1, ⟨0, ⟨0, 8⟩⟩)],
              found := some ⟨6, ⟨2, 0⟩⟩, nextAddr := 9, reads := [2, 1, 1, 0] } ∧
    BfsHeuristic 7 [3, 5, 7] 8 = .ok (some [5, 3], [2, 1, 1, 0]) ∧
    ([5, 3] : List Int).reverse.Sublist ([3, 5, 7] : List Int).dropLast :=
  ⟨⟨by decide, by decide, by decide, by decide⟩,
    bfs_accepts_iff_subset_without_last [3, 5, 7] 8 7 (by decide) (by decide) (by decide)
      (by decide),
    ⟨[3, 5], by decide, by decide⟩, bfsSearch_example 2, bfsHeuristic_example 2, by decide⟩

/-- C15 as stated fails: on `S = [2^63-1, 2^63-1, 0]` and `T = -2` the search pops the
accepting state `(2, 0)`, although no sub-sequence of `[2^63-1, 2^63-1]` sums to `-2`. -/
theorem bfs_accepts_without_subset_on_negative_target :
    NonNegSeq [9223372036854775807, 9223372036854775807, 0] ∧
    ([9223372036854775807, 9223372036854775807, 0] : List Int) ≠ [] ∧ IsInt64 (-2) ∧
    (∃ st, bfsSearch 7 [9223372036854775807, 9223372036854775807, 0] (-2) = .ok st ∧
      st.found = some ⟨4, ⟨2, 0⟩⟩) ∧
    ¬ ∃ sub : List Int,
        sub.Sublist ([9223372036854775807, 9223372036854775807, 0] : List Int).dropLast ∧
          sub.sum = -2 := by
  refine ⟨by decide, by decide, by decide, ⟨_, bfsSearch_wrap_example 3, rfl⟩, ?_⟩
  have hnn : NonNegSeq ([9223372036854775807, 9223372036854775807, 0] : List Int).dropLast := by
    decide
  exact not_hasSubsetSum_neg hnn (by decide)

end Puzzle
